import Mathlib

/-!
Verification of list_implementations: VSArray and DoubleLinkedList.

A shallow embedding of `src/vsarray.cpp` and `src/dlinkedlist.cpp`.

* An `Object*` is an `Option α`: `none` is `nullptr`, `some o` points at the
  live object `o`.  The virtual interface of `Object` is the class `Object α`.
* Every operation runs in `Except Fault`: `.error f` is a run that leaves
  defined behaviour (null dereference, access outside an allocated block,
  use of a freed node, a double-to-`size_t` conversion out of range) or that
  never returns (`Fault.diverge`).
* `size_t` counters are natural numbers.  The one subtraction that can leave
  the range, `_size - 1` in `VSArray::ToString`, wraps modulo `2 ^ 64`.
* An `int` result is an integer; the conversion of a `size_t` index to `int`
  keeps the low 32 bits, read in two's complement (`intOfSizeT`).
* A finite `double` is the rational it denotes.  Every `double` operation
  (the conversion of a `size_t`, a product, a sum) yields its exact result
  rounded to the nearest `double`, a tie going to the even significand
  (`roundDouble`); infinities and NaN are not values of the model.
* `new Object*[n]` yields a block of `n` slots.  In `Resize`, `Insert`, `mk0`
  and `assign` the block starts as `nullptr`s; `construct`, `ResizeFresh`,
  `InsertFresh`, `InsertOwned` and `copyConstruct` take the indeterminate
  contents of the new block as an argument.  An allocation that fails is not
  modelled: every result is about runs in which `new` returns.
* The copy constructors, the assignment operators and the `delete` of elements
  are modelled over a store of element objects, in which the containers hold
  addresses.
-/

set_option autoImplicit false

/-- Ways in which a run leaves defined behaviour or fails to return. -/
inductive Fault where
  | nullDeref
  | outOfBounds
  | useAfterFree
  | badConversion
  | diverge
  deriving DecidableEq, Repr

/-- Modelled from the spec: `object.h` is not among the sources.  The spec's
Element capability: string rendering, an equality test of the stored element
against a probe, and deep duplication.  `person.h` declares exactly these three
virtual members. -/
class Object (α : Type) where
  ToString : α → String
  Equals : α → α → Bool
  Clone : α → α

/-- Strings as elements: rendering is the string itself, equality is string
equality, a clone is an equal string. -/
instance instObjectString : Object String where
  ToString := fun s => s
  Equals := fun a b => a == b
  Clone := fun s => s

/-- The number of values of a `size_t`. -/
def SIZE_MOD : Nat := 2 ^ 64

/-- Subtraction on `size_t`: wraps modulo `SIZE_MOD`. -/
def subSizeT (a b : Nat) : Nat := (a + (SIZE_MOD - b % SIZE_MOD)) % SIZE_MOD

/-- The conversion of a `size_t` value to `int` (`return i;` in a function
returning `int`): the value modulo `2 ^ 32`, read as a 32-bit two's-complement
integer.  A value below `2 ^ 31` is unchanged. -/
def intOfSizeT (i : Nat) : Int :=
  (((i + 2147483648) % 4294967296 : Nat) : Int) - 2147483648

/-- Rounding of a rational to the nearest integer, a tie going to the even
one. -/
def roundHalfEven (x : ℚ) : ℤ :=
  let f : ℤ := ⌊x⌋
  let r : ℚ := x - (f : ℚ)
  if r < 1 / 2 then f
  else if 1 / 2 < r then f + 1
  else if f % 2 = 0 then f else f + 1

/-- The `double` (IEEE 754 binary64) nearest to the rational `q`, a tie going to
the even significand: `q` is rounded to an integer multiple of `2 ^ e`, where
`e` is 52 below the binary exponent of `q` and not below `-1074`, the exponent
of the subnormal numbers.  The overflow of a result of magnitude `2 ^ 1024` or
more to an infinity is not modelled. -/
def roundDouble (q : ℚ) : ℚ :=
  if q = 0 then 0
  else
    let e : ℤ := max (Int.log 2 |q| - 52) (-1074)
    (roundHalfEven (q / (2 : ℚ) ^ e) : ℚ) * (2 : ℚ) ^ e

/-- Dereference of an `Object*`. -/
def deref {α : Type} (p : Option α) : Except Fault α :=
  match p with
  | some o => .ok o
  | none => .error .nullDeref

/-- Read of slot `i` of an allocated block of pointers. -/
def readSlot {α : Type} (d : List (Option α)) (i : Nat) : Except Fault (Option α) :=
  match d[i]? with
  | some p => .ok p
  | none => .error .outOfBounds

/-- Write of slot `i` of an allocated block of pointers. -/
def writeSlot {α : Type} (d : List (Option α)) (i : Nat) (p : Option α) :
    Except Fault (List (Option α)) :=
  if i < d.length then .ok (d.set i p) else .error .outOfBounds

/-- The loop `for (i = lo; i < lo + n; i++) dst[i] = src[i];`. -/
def copySlots {α : Type} (src : List (Option α)) :
    List (Option α) → Nat → Nat → Except Fault (List (Option α))
  | dst, _, 0 => .ok dst
  | dst, i, n + 1 => do
      let p ← readSlot src i
      let dst1 ← writeSlot dst i p
      copySlots src dst1 (i + 1) n

/-- The loop `for (i = lo; i < lo + n; i++) d[i] = nullptr;`. -/
def nullSlots {α : Type} : List (Option α) → Nat → Nat → Except Fault (List (Option α))
  | d, _, 0 => .ok d
  | d, i, n + 1 => do
      let d1 ← writeSlot d i none
      nullSlots d1 (i + 1) n

/-- The loop `for (i = hi; i > position; i--) d[i] = d[i - 1];` of
`VSArray::Insert`, started at `i = hi`. -/
def shiftUp {α : Type} (position : Nat) :
    List (Option α) → Nat → Except Fault (List (Option α))
  | d, 0 => .ok d
  | d, i + 1 =>
      if i + 1 > position then do
        let p ← readSlot d i
        let d1 ← writeSlot d (i + 1) p
        shiftUp position d1 i
      else .ok d

/-- The loop `for (i = lo; i < lo + n; i++) d[i] = d[i + 1];` of
`VSArray::Remove`. -/
def shiftDown {α : Type} : List (Option α) → Nat → Nat → Except Fault (List (Option α))
  | d, _, 0 => .ok d
  | d, i, n + 1 => do
      let p ← readSlot d (i + 1)
      let d1 ← writeSlot d i p
      shiftDown d1 (i + 1) n

/-- The state of a `VSArray`: the block `_data` points at (one entry per
allocated slot) and the three scalar members. -/
structure VSArray (α : Type) where
  _data : List (Option α)
  _size : Nat
  _capacity : Nat
  _delta : ℚ

namespace VSArray

variable {α : Type}

/-- `VSArray::VSArray(size_t capacity, double increasePercentage)`: the state the
constructor leaves, every slot `nullptr` (`construct` runs the loop on a block
with indeterminate contents and ends in this state). -/
def mk0 (capacity : Nat) (increasePercentage : ℚ) : VSArray α :=
  { _data := List.replicate capacity none
    _size := 0
    _capacity := capacity
    _delta := increasePercentage }

/-- The `double` value of the expression `_capacity + (_delta * _capacity)` of
`Resize`: `_capacity` is converted to `double` for the product and for the sum,
and the product and the sum are each rounded to a `double`. -/
def grownValue (delta : ℚ) (capacity : Nat) : ℚ :=
  roundDouble (roundDouble (capacity : ℚ) + roundDouble (delta * roundDouble (capacity : ℚ)))

/-- The assignment `_capacity = _capacity + (_delta * _capacity)` of `Resize`:
the `double` value of the right-hand side is truncated towards zero on
conversion to `size_t`; the conversion is undefined when the truncated value is
not a `size_t`. -/
def grownCapacity (delta : ℚ) (capacity : Nat) : Except Fault Nat :=
  let v : ℚ := grownValue delta capacity
  if v ≤ -1 ∨ (SIZE_MOD : ℚ) ≤ v then .error .badConversion
  else .ok (Int.toNat (Int.floor v))

/-- `VSArray::Resize`.  The two blocks it allocates start as `nullptr`s here;
`ResizeFresh` takes their indeterminate contents as arguments and computes the
same result, every slot being written before it is read. -/
def Resize (s : VSArray α) : Except Fault (VSArray α) := do
  let capacity ← grownCapacity s._delta s._capacity
  let arr ← copySlots s._data (List.replicate capacity none) 0 s._size
  let _ ← nullSlots s._data 0 s._size
  let d ← copySlots arr (List.replicate capacity none) 0 s._size
  let d1 ← nullSlots d s._size (capacity - s._size)
  .ok { s with _data := d1, _capacity := capacity }

/-- `VSArray::Insert`.  `delete _data[_size]` reads slot `_size`. -/
def Insert (s : VSArray α) (element : Option α) (position : Nat) :
    Except Fault (Bool × VSArray α) :=
  if position > s._size then .ok (false, s)
  else do
    let s1 ← (if s._size = s._capacity then s.Resize else .ok s)
    let _ ← readSlot s1._data s1._size
    let d ← shiftUp position s1._data s1._size
    let d1 ← writeSlot d position element
    .ok (true, { s1 with _data := d1, _size := s1._size + 1 })

/-- The loop of `VSArray::IndexOf`, from index `i` with `n` iterations left. -/
def indexLoop [Object α] (d : List (Option α)) (element : Option α) :
    Nat → Nat → Except Fault Int
  | _, 0 => .ok (-1)
  | i, n + 1 => do
      let p ← readSlot d i
      let o ← deref p
      let e ← deref element
      if Object.Equals o e then .ok (intOfSizeT i) else indexLoop d element (i + 1) n

/-- `VSArray::IndexOf`.  The index found is a `size_t` and is returned as an
`int`. -/
def IndexOf [Object α] (s : VSArray α) (element : Option α) : Except Fault Int :=
  indexLoop s._data element 0 s._size

/-- `VSArray::Remove`. -/
def Remove (s : VSArray α) (position : Nat) : Except Fault (Option α × VSArray α) :=
  if position ≥ s._size then .ok (none, s)
  else do
    let retVal ← readSlot s._data position
    let d ← shiftDown s._data position (s._size - 1 - position)
    let d1 ← writeSlot d (s._size - 1) none
    .ok (retVal, { s with _data := d1, _size := s._size - 1 })

/-- `VSArray::Get`. -/
def Get (s : VSArray α) (position : Nat) : Except Fault (Option α) :=
  if position ≥ s._size then .ok none else readSlot s._data position

/-- The loop `for (i = lo; i < lo + n; i++) ss << _data[i]->ToString();` of
`VSArray::ToString`. -/
def renderLoop [Object α] (d : List (Option α)) : String → Nat → Nat → Except Fault String
  | ss, _, 0 => .ok ss
  | ss, i, n + 1 => do
      let p ← readSlot d i
      let o ← deref p
      renderLoop d (ss ++ Object.ToString o) (i + 1) n

/-- `VSArray::ToString`. -/
def ToString [Object α] (s : VSArray α) : Except Fault String := do
  let ss ← renderLoop s._data "\x7b" 0 (subSizeT s._size 1)
  let p ← readSlot s._data (subSizeT s._size 1)
  let o ← deref p
  .ok (ss ++ Object.ToString o ++ "\x7d")

/-- `VSArray::GetCapacity`. -/
def GetCapacity (s : VSArray α) : Nat := s._capacity

/-- The invariant of the dynamic array: the block has `_capacity` slots,
`_size ≤ _capacity`, every slot below `_size` holds an element and every slot
from `_size` on is `nullptr`. -/
structure SlotInv (s : VSArray α) : Prop where
  length_eq : s._data.length = s._capacity
  size_le : s._size ≤ s._capacity
  live : ∀ i, i < s._size → ∃ e, s._data[i]? = some (some e)
  empty : ∀ i, s._size ≤ i → i < s._capacity → s._data[i]? = some none

end VSArray

/-- A `Node` of the linked list: the element pointer and the two links.  A
`Node*` is an `Option Nat`: `none` is `nullptr`, `some a` is the address `a`
in the node store. -/
structure Node (α : Type) where
  data : Option α
  next : Option Nat
  previous : Option Nat

/-- The state of a `DoubleLinkedList`: the store of its nodes (entry `a` is the
node at address `a`, `none` once that node is deleted) and the three members.
`new Node` takes the next unused address, so an address is never handed out
twice. -/
structure DoubleLinkedList (α : Type) where
  heap : List (Option (Node α))
  _head : Option Nat
  _tail : Option Nat
  _size : Nat

/-- Read through a `Node*`. -/
def readNode {α : Type} (heap : List (Option (Node α))) (p : Option Nat) :
    Except Fault (Node α) :=
  match p with
  | none => .error .nullDeref
  | some a =>
    match heap[a]? with
    | some (some nd) => .ok nd
    | _ => .error .useAfterFree

/-- Write through a `Node*`. -/
def writeNode {α : Type} (heap : List (Option (Node α))) (p : Option Nat) (nd : Node α) :
    Except Fault (List (Option (Node α))) :=
  match p with
  | none => .error .nullDeref
  | some a =>
    match heap[a]? with
    | some (some _) => .ok (heap.set a (some nd))
    | _ => .error .useAfterFree

/-- The assignment `p->data = v`. -/
def setData {α : Type} (heap : List (Option (Node α))) (p : Option Nat) (v : Option α) :
    Except Fault (List (Option (Node α))) := do
  let nd ← readNode heap p
  writeNode heap p { nd with data := v }

/-- The assignment `p->next = v`. -/
def setNext {α : Type} (heap : List (Option (Node α))) (p : Option Nat) (v : Option Nat) :
    Except Fault (List (Option (Node α))) := do
  let nd ← readNode heap p
  writeNode heap p { nd with next := v }

/-- The assignment `p->previous = v`. -/
def setPrevious {α : Type} (heap : List (Option (Node α))) (p : Option Nat) (v : Option Nat) :
    Except Fault (List (Option (Node α))) := do
  let nd ← readNode heap p
  writeNode heap p { nd with previous := v }

/-- The statement `delete p` on a `Node*`; deleting `nullptr` does nothing. -/
def deleteNode {α : Type} (heap : List (Option (Node α))) (p : Option Nat) :
    Except Fault (List (Option (Node α))) :=
  match p with
  | none => .ok heap
  | some a =>
    match heap[a]? with
    | some (some _) => .ok (heap.set a none)
    | _ => .error .useAfterFree

/-- The loop `for (i = 0; i < n; i++) tmp = tmp->next;`. -/
def walk {α : Type} (heap : List (Option (Node α))) :
    Option Nat → Nat → Except Fault (Option Nat)
  | tmp, 0 => .ok tmp
  | tmp, n + 1 => do
      let nd ← readNode heap tmp
      walk heap nd.next n

namespace DoubleLinkedList

variable {α : Type}

/-- `DoubleLinkedList::DoubleLinkedList()`: head and tail are `nullptr`; the
size member of the base class starts at zero. -/
def mk0 : DoubleLinkedList α :=
  { heap := [], _head := none, _tail := none, _size := 0 }

/-- `DoubleLinkedList::Insert`.  `new Node` followed by the three assignments
to `neo` appends the initialised node to the store. -/
def Insert (l : DoubleLinkedList α) (element : Option α) (position : Nat) :
    Except Fault (Bool × DoubleLinkedList α) :=
  if position > l._size then .ok (false, l)
  else
    let neo : Option Nat := some l.heap.length
    let heap := l.heap ++ [some { data := element, next := none, previous := none }]
    if l._size = 0 then
      .ok (true, { heap := heap, _head := neo, _tail := neo, _size := l._size + 1 })
    else if position = 0 then do
      let heap1 ← setNext heap neo l._head
      .ok (true, { heap := heap1, _head := neo, _tail := neo, _size := l._size + 1 })
    else do
      let tmp ← walk heap l._head (position - 1)
      let t ← readNode heap tmp
      let heap1 ← setNext heap neo t.next
      let heap2 ← setNext heap1 tmp neo
      let tail := if tmp = l._tail then neo else l._tail
      .ok (true, { heap := heap2, _head := l._head, _tail := tail, _size := l._size + 1 })

/-- The loop of `DoubleLinkedList::IndexOf`; the first argument bounds the
number of iterations. -/
def indexLoop [Object α] (heap : List (Option (Node α))) (element : Option α) :
    Nat → Option Nat → Nat → Except Fault Int
  | _, none, _ => .ok (-1)
  | 0, some _, _ => .error .diverge
  | fuel + 1, some a, index => do
      let nd ← readNode heap (some a)
      let o ← deref nd.data
      let e ← deref element
      if Object.Equals o e then .ok (intOfSizeT index)
      else indexLoop heap element fuel nd.next (index + 1)

/-- `DoubleLinkedList::IndexOf`.  The `size_t` counter `index` is returned as an
`int`.  A walk that has read more nodes than the store holds has met an address
twice and never leaves the cycle, so the bound `heap.length + 1` cuts off only
runs that do not return. -/
def IndexOf [Object α] (l : DoubleLinkedList α) (element : Option α) : Except Fault Int :=
  indexLoop l.heap element (l.heap.length + 1) l._head 0

/-- `DoubleLinkedList::Remove`. -/
def Remove (l : DoubleLinkedList α) (position : Nat) :
    Except Fault (Option α × DoubleLinkedList α) :=
  if position ≥ l._size then .ok (none, l)
  else if position = 0 then do
    let h ← readNode l.heap l._head
    let retVal := h.data
    let heap1 ← setData l.heap l._head none
    let h1 ← readNode heap1 l._head
    let tmp := h1.next
    let heap2 ← setNext heap1 l._head none
    let tail := if l._tail = l._head then tmp else l._tail
    let heap3 ← deleteNode heap2 l._head
    .ok (retVal, { heap := heap3, _head := tmp, _tail := tail, _size := l._size - 1 })
  else do
    let tmp ← walk l.heap l._head (position - 1)
    let t ← readNode l.heap tmp
    let toRemove := t.next
    let r ← readNode l.heap toRemove
    let retVal := r.data
    let heap1 ← setNext l.heap tmp r.next
    let r1 ← readNode heap1 toRemove
    let (heap2, tail) ← (if r1.next ≠ none then do
        let heap11 ← setPrevious heap1 r1.next tmp
        let heap12 ← setNext heap11 toRemove none
        pure (heap12, l._tail)
      else pure (heap1, tmp))
    let heap3 ← setPrevious heap2 toRemove none
    let heap4 ← setData heap3 toRemove none
    let heap5 ← deleteNode heap4 toRemove
    .ok (retVal, { heap := heap5, _head := l._head, _tail := tail, _size := l._size - 1 })

/-- `DoubleLinkedList::Get`. -/
def Get (l : DoubleLinkedList α) (position : Nat) : Except Fault (Option α) :=
  if position ≥ l._size then .ok none
  else do
    let tmp ← walk l.heap l._head position
    let nd ← readNode l.heap tmp
    .ok nd.data

/-- The loop of `DoubleLinkedList::ToString`; the first argument bounds the
number of iterations. -/
def renderLoop [Object α] (heap : List (Option (Node α))) :
    Nat → String → Option Nat → Except Fault (String × Option Nat)
  | 0, _, _ => .error .diverge
  | fuel + 1, retVal, tmp => do
      let nd ← readNode heap tmp
      if nd.next ≠ none then do
        let o ← deref nd.data
        renderLoop heap fuel (retVal ++ Object.ToString o ++ ", ") nd.next
      else .ok (retVal, tmp)

/-- `DoubleLinkedList::ToString`, with the iteration bound of `IndexOf`. -/
def ToString [Object α] (l : DoubleLinkedList α) : Except Fault String := do
  let (retVal, tmp) ← renderLoop l.heap (l.heap.length + 1) "\x7b" l._head
  let nd ← readNode l.heap tmp
  let o ← deref nd.data
  .ok (retVal ++ Object.ToString o ++ "\x7d")

/-- The states a list reaches from the empty list by `Insert` and `Remove`
calls that return. -/
inductive Reachable : DoubleLinkedList α → Prop
  | empty : Reachable mk0
  | insert {l l1 : DoubleLinkedList α} {element : Option α} {position : Nat} {b : Bool} :
      Reachable l → l.Insert element position = .ok (b, l1) → Reachable l1
  | remove {l l1 : DoubleLinkedList α} {position : Nat} {r : Option α} :
      Reachable l → l.Remove position = .ok (r, l1) → Reachable l1

end DoubleLinkedList

/-- The forward chain of a node store: `Seg heap p cs q` says that following
`next` from `p` visits the cells `cs` (address and element pointer of each node,
in order) and arrives at `q`. -/
def Seg {α : Type} (heap : List (Option (Node α))) :
    Option Nat → List (Nat × Option α) → Option Nat → Prop
  | p, [], q => p = q
  | p, c :: cs, q =>
      p = some c.1 ∧ ∃ nd, heap[c.1]? = some (some nd) ∧ nd.data = c.2 ∧ Seg heap nd.next cs q

/-- The list `l` holds the cells `cs`: the chain from `_head` runs through `cs`
to `nullptr`, no node occurs twice, and `_size` counts the cells. -/
structure DoubleLinkedList.Rep {α : Type} (l : DoubleLinkedList α)
    (cs : List (Nat × Option α)) : Prop where
  chain : Seg l.heap l._head cs none
  nodup : (cs.map Prod.fst).Nodup
  size_eq : l._size = cs.length

/-- The forward sequence of a list as a caller reads it: `Get(0)`, ...,
`Get(_size - 1)`. -/
def DoubleLinkedList.toSeq {α : Type} (l : DoubleLinkedList α) :
    Except Fault (List (Option α)) :=
  (List.range l._size).mapM l.Get

/-- The contents of an array as a caller reads them: `Get(0)`, ...,
`Get(_size - 1)`. -/
def VSArray.toSeq {α : Type} (s : VSArray α) : Except Fault (List (Option α)) :=
  (List.range s._size).mapM s.Get

/-- The search result the contract asks for, over a container read through
`get` with `size` elements: `r` is the least index whose element `Equals` the
probe `e`, or `-1` when no element does. -/
def FirstMatch {α : Type} [Object α] (get : Nat → Except Fault (Option α)) (size : Nat)
    (e : α) (r : Int) : Prop :=
  (r = -1 ∧ ∀ i, i < size → ∀ x, get i = .ok (some x) → Object.Equals x e = false) ∨
  (∃ i : Nat, r = (i : Int) ∧ i < size ∧
    (∃ x, get i = .ok (some x) ∧ Object.Equals x e = true) ∧
    ∀ j, j < i → ∀ x, get j = .ok (some x) → Object.Equals x e = false)

/-- The outcome of the linear scan of the contract, over a container read
through `get` with `size` elements: `some i` when `i` is the least index whose
element `Equals` the probe `e`, `none` when no element does. -/
def FirstIndex {α : Type} [Object α] (get : Nat → Except Fault (Option α)) (size : Nat)
    (e : α) (r : Option Nat) : Prop :=
  match r with
  | none => ∀ i, i < size → ∀ x, get i = .ok (some x) → Object.Equals x e = false
  | some i => i < size ∧ (∃ x, get i = .ok (some x) ∧ Object.Equals x e = true) ∧
      ∀ j, j < i → ∀ x, get j = .ok (some x) → Object.Equals x e = false

/-- The `int` that `IndexOf` returns for an outcome of the scan: `-1`, or the
index found converted to `int`. -/
def indexResult : Option Nat → Int
  | none => -1
  | some i => intOfSizeT i

/-- Scenario A of the spec: an array built with capacity 2 and growth 0.5
receives `a`, `b`, `c` at positions 0, 1, 2. -/
def VSArray.scenarioA : Except Fault (VSArray String) := do
  let (_, s1) ← (VSArray.mk0 2 (1 / 2) : VSArray String).Insert (some "a") 0
  let (_, s2) ← s1.Insert (some "b") 1
  let (_, s3) ← s2.Insert (some "c") 2
  pure s3

/-- The full array holding `a`, `b` with capacity 2 and growth 0.5. -/
def VSArray.demoFull : VSArray String :=
  { _data := [some "a", some "b"], _size := 2, _capacity := 2, _delta := 1 / 2 }

/-- The array holding `a`, `b`, `c` with capacity 3 and growth 0.5. -/
def VSArray.demoABC : VSArray String :=
  { _data := [some "a", some "b", some "c"], _size := 3, _capacity := 3, _delta := 1 / 2 }

/-- The list after `Insert(x, 0)` on the empty list. -/
def DoubleLinkedList.demoX : DoubleLinkedList String :=
  { heap := [some { data := some "x", next := none, previous := none }]
    _head := some 0
    _tail := some 0
    _size := 1 }

/-- The list after `Insert(x, 0); Insert(y, 0)` on the empty list. -/
def DoubleLinkedList.demoYX : DoubleLinkedList String :=
  { heap := [some { data := some "x", next := none, previous := none },
             some { data := some "y", next := some 0, previous := none }]
    _head := some 1
    _tail := some 1
    _size := 2 }

/-- The loop `for (i = lo; i < lo + n; i++) { delete d[i]; d[i] = nullptr; }` of
`VSArray::Clear`. -/
def clearSlots {α : Type} : List (Option α) → Nat → Nat → Except Fault (List (Option α))
  | d, _, 0 => .ok d
  | d, i, n + 1 => do
      let _ ← readSlot d i
      let d1 ← writeSlot d i none
      clearSlots d1 (i + 1) n

/-- `VSArray::Clear`. -/
def VSArray.Clear {α : Type} (s : VSArray α) : Except Fault (VSArray α) := do
  let d ← clearSlots s._data 0 s._size
  .ok { s with _data := d, _size := 0 }

/-- The block that `new Object*[n]` returns: `n` slots, slot `i` holding the
indeterminate value `junk i`. -/
def freshBlock {α : Type} (junk : Nat → Option α) (n : Nat) : List (Option α) :=
  (List.range n).map junk

/-- `VSArray::VSArray(size_t capacity, double increasePercentage)`, with the
indeterminate contents `junk` of the new block: the loop sets every slot to
`nullptr`. -/
def VSArray.construct {α : Type} (junk : Nat → Option α) (capacity : Nat)
    (increasePercentage : ℚ) : Except Fault (VSArray α) := do
  let d ← nullSlots (freshBlock junk capacity) 0 capacity
  .ok { _data := d, _size := 0, _capacity := capacity, _delta := increasePercentage }

/-- `VSArray::Resize`, with the indeterminate contents `junk1` of the block
`arr` and `junk2` of the new block `_data`. -/
def VSArray.ResizeFresh {α : Type} (junk1 junk2 : Nat → Option α) (s : VSArray α) :
    Except Fault (VSArray α) := do
  let capacity ← VSArray.grownCapacity s._delta s._capacity
  let arr ← copySlots s._data (freshBlock junk1 capacity) 0 s._size
  let _ ← nullSlots s._data 0 s._size
  let d ← copySlots arr (freshBlock junk2 capacity) 0 s._size
  let d1 ← nullSlots d s._size (capacity - s._size)
  .ok { s with _data := d1, _capacity := capacity }

/-- `VSArray::Insert`, with the indeterminate contents of the blocks that
`Resize` allocates. -/
def VSArray.InsertFresh {α : Type} (junk1 junk2 : Nat → Option α) (s : VSArray α)
    (element : Option α) (position : Nat) : Except Fault (Bool × VSArray α) :=
  if position > s._size then .ok (false, s)
  else do
    let s1 ← (if s._size = s._capacity then s.ResizeFresh junk1 junk2 else .ok s)
    let _ ← readSlot s1._data s1._size
    let d ← shiftUp position s1._data s1._size
    let d1 ← writeSlot d position element
    .ok (true, { s1 with _data := d1, _size := s1._size + 1 })

/-- The states an array reaches from its constructor by `Insert` (of an
element), `Remove` and `Clear` calls that return, whatever the new blocks
contain when they are allocated. -/
inductive VSArray.Reachable {α : Type} : VSArray α → Prop
  | construct {s : VSArray α} (junk : Nat → Option α) (capacity : Nat)
      (increasePercentage : ℚ) :
      VSArray.construct junk capacity increasePercentage = .ok s → VSArray.Reachable s
  | insert {s s1 : VSArray α} {element : α} {position : Nat} {b : Bool}
      (junk1 junk2 : Nat → Option α) :
      VSArray.Reachable s →
      s.InsertFresh junk1 junk2 (some element) position = .ok (b, s1) →
      VSArray.Reachable s1
  | remove {s s1 : VSArray α} {position : Nat} {r : Option α} :
      VSArray.Reachable s → s.Remove position = .ok (r, s1) → VSArray.Reachable s1
  | clear {s s1 : VSArray α} :
      VSArray.Reachable s → s.Clear = .ok s1 → VSArray.Reachable s1

/-- The loop `while (_head != nullptr) { ... }` of `DoubleLinkedList::Clear`,
where `tempNode` equals `_head` at the top of every iteration; the first
argument bounds the number of iterations. -/
def DoubleLinkedList.clearLoop {α : Type} :
    Nat → List (Option (Node α)) → Option Nat → Except Fault (List (Option (Node α)))
  | _, heap, none => .ok heap
  | 0, _, some _ => .error .diverge
  | fuel + 1, heap, some a => do
      let nd ← readNode heap (some a)
      let heap1 ← deleteNode heap (some a)
      DoubleLinkedList.clearLoop fuel heap1 nd.next

/-- `DoubleLinkedList::Clear`, with the iteration bound of `IndexOf`. -/
def DoubleLinkedList.Clear {α : Type} (l : DoubleLinkedList α) :
    Except Fault (DoubleLinkedList α) := do
  let heap ← DoubleLinkedList.clearLoop (l.heap.length + 1) l.heap l._head
  .ok { heap := heap, _head := none, _tail := none, _size := 0 }

/-- The states a list reaches from the empty list by `Insert`, `Remove` and
`Clear` calls that return. -/
inductive DoubleLinkedList.ReachableC {α : Type} : DoubleLinkedList α → Prop
  | empty : DoubleLinkedList.ReachableC DoubleLinkedList.mk0
  | insert {l l1 : DoubleLinkedList α} {element : Option α} {position : Nat} {b : Bool} :
      DoubleLinkedList.ReachableC l → l.Insert element position = .ok (b, l1) →
      DoubleLinkedList.ReachableC l1
  | remove {l l1 : DoubleLinkedList α} {position : Nat} {r : Option α} :
      DoubleLinkedList.ReachableC l → l.Remove position = .ok (r, l1) →
      DoubleLinkedList.ReachableC l1
  | clear {l l1 : DoubleLinkedList α} :
      DoubleLinkedList.ReachableC l → l.Clear = .ok l1 → DoubleLinkedList.ReachableC l1

/-- A call of the shared container contract: the operations both containers
offer with the same position rules. -/
inductive Call (α : Type) where
  | Insert (element : α) (position : Nat)
  | Remove (position : Nat)
  | Get (position : Nat)
  | IndexOf (element : α)

/-- What a call hands back to the caller. -/
inductive Reply (α : Type) where
  | flag (b : Bool)
  | element (p : Option α)
  | index (i : Int)

/-- One call on an array. -/
def VSArray.call {α : Type} [Object α] (s : VSArray α) :
    Call α → Except Fault (Reply α × VSArray α)
  | .Insert element position => do
      let (b, s1) ← s.Insert (some element) position
      .ok (.flag b, s1)
  | .Remove position => do
      let (r, s1) ← s.Remove position
      .ok (.element r, s1)
  | .Get position => do
      let r ← s.Get position
      .ok (.element r, s)
  | .IndexOf element => do
      let i ← s.IndexOf (some element)
      .ok (.index i, s)

/-- A sequence of calls on an array, with the replies in order. -/
def VSArray.run {α : Type} [Object α] :
    VSArray α → List (Call α) → Except Fault (List (Reply α) × VSArray α)
  | s, [] => .ok ([], s)
  | s, c :: cs => do
      let (r, s1) ← s.call c
      let (rs, s2) ← VSArray.run s1 cs
      .ok (r :: rs, s2)

/-- One call on a list. -/
def DoubleLinkedList.call {α : Type} [Object α] (l : DoubleLinkedList α) :
    Call α → Except Fault (Reply α × DoubleLinkedList α)
  | .Insert element position => do
      let (b, l1) ← l.Insert (some element) position
      .ok (.flag b, l1)
  | .Remove position => do
      let (r, l1) ← l.Remove position
      .ok (.element r, l1)
  | .Get position => do
      let r ← l.Get position
      .ok (.element r, l)
  | .IndexOf element => do
      let i ← l.IndexOf (some element)
      .ok (.index i, l)

/-- A sequence of calls on a list, with the replies in order. -/
def DoubleLinkedList.run {α : Type} [Object α] :
    DoubleLinkedList α → List (Call α) → Except Fault (List (Reply α) × DoubleLinkedList α)
  | l, [] => .ok ([], l)
  | l, c :: cs => do
      let (r, l1) ← l.call c
      let (rs, l2) ← DoubleLinkedList.run l1 cs
      .ok (r :: rs, l2)

/-!
Operations that create or destroy element objects are modelled over the store
of element objects: entry `a` of the store is the object at address `a`, `none`
once it is destroyed, and the containers hold addresses (`VSArray Nat`,
`DoubleLinkedList Nat`).  `Clone` allocates at the next unused address.
-/

/-- The statement `delete p` on an `Object*`; deleting `nullptr` does nothing,
deleting an object that is not live is a fault. -/
def deleteObj {β : Type} (objs : List (Option β)) (p : Option Nat) :
    Except Fault (List (Option β)) :=
  match p with
  | none => .ok objs
  | some a =>
    match objs[a]? with
    | some (some _) => .ok (objs.set a none)
    | _ => .error .useAfterFree

/-- The call `p->Clone()`: a new object holding the clone of the value of `*p`. -/
def cloneObj {β : Type} [Object β] (objs : List (Option β)) (p : Option Nat) :
    Except Fault (Option Nat × List (Option β)) :=
  match p with
  | none => .error .nullDeref
  | some a =>
    match objs[a]? with
    | some (some v) => .ok (some objs.length, objs ++ [some (Object.Clone v)])
    | _ => .error .useAfterFree

/-- The loop of `VSArray::Clear` over the object store: `delete d[i]` destroys
the object, then the slot is set to `nullptr`. -/
def clearOwnedSlots {β : Type} :
    List (Option β) → List (Option Nat) → Nat → Nat →
      Except Fault (List (Option β) × List (Option Nat))
  | objs, d, _, 0 => .ok (objs, d)
  | objs, d, i, n + 1 => do
      let p ← readSlot d i
      let objs1 ← deleteObj objs p
      let d1 ← writeSlot d i none
      clearOwnedSlots objs1 d1 (i + 1) n

/-- `VSArray::Clear` over the object store. -/
def VSArray.ClearOwned {β : Type} (objs : List (Option β)) (s : VSArray Nat) :
    Except Fault (List (Option β) × VSArray Nat) := do
  let (objs1, d) ← clearOwnedSlots objs s._data 0 s._size
  .ok (objs1, { s with _data := d, _size := 0 })

/-- `VSArray::Insert` over the object store: `delete _data[_size]` destroys the
object in the slot it discards.  `junk1` and `junk2` are the indeterminate
contents of the blocks that `Resize` allocates. -/
def VSArray.InsertOwned {β : Type} (junk1 junk2 : Nat → Option Nat)
    (objs : List (Option β)) (s : VSArray Nat) (element : Option Nat) (position : Nat) :
    Except Fault (Bool × List (Option β) × VSArray Nat) :=
  if position > s._size then .ok (false, objs, s)
  else do
    let s1 ← (if s._size = s._capacity then s.ResizeFresh junk1 junk2 else .ok s)
    let p ← readSlot s1._data s1._size
    let objs1 ← deleteObj objs p
    let d ← shiftUp position s1._data s1._size
    let d1 ← writeSlot d position element
    .ok (true, objs1, { s1 with _data := d1, _size := s1._size + 1 })

/-- `VSArray::Remove` over the object store: nothing is destroyed, the caller
receives the element. -/
def VSArray.RemoveOwned {β : Type} (objs : List (Option β)) (s : VSArray Nat)
    (position : Nat) : Except Fault (Option Nat × List (Option β) × VSArray Nat) := do
  let (r, s1) ← s.Remove position
  .ok (r, objs, s1)

/-- The loop `for (i = lo; i < lo + n; i++) d[i] = list.Get(i)->Clone();` of the
copy constructor. -/
def cloneSlots {β : Type} [Object β] (list : VSArray Nat) :
    List (Option β) → List (Option Nat) → Nat → Nat →
      Except Fault (List (Option β) × List (Option Nat))
  | objs, d, _, 0 => .ok (objs, d)
  | objs, d, i, n + 1 => do
      let p ← list.Get i
      let (q, objs1) ← cloneObj objs p
      let d1 ← writeSlot d i q
      cloneSlots list objs1 d1 (i + 1) n

/-- `VSArray::VSArray(const VSArray& list)`, with the indeterminate contents
`junk` of the new block: the first loop stores the clones, the second sets the
remaining slots to `nullptr`. -/
def VSArray.copyConstruct {β : Type} [Object β] (junk : Nat → Option Nat)
    (objs : List (Option β)) (list : VSArray Nat) :
    Except Fault (List (Option β) × VSArray Nat) := do
  let (objs1, d) ← cloneSlots list objs (freshBlock junk list._capacity) 0 list._size
  let d1 ← nullSlots d list._size (list._capacity - list._size)
  .ok (objs1, { _data := d1, _size := list._size, _capacity := list._capacity,
                _delta := list._delta })

/-- The loop `for (i = lo; i < lo + n; i++) d[i] = src[i]->Clone();` of the
assignment operator. -/
def cloneFrom {β : Type} [Object β] (src : List (Option Nat)) :
    List (Option β) → List (Option Nat) → Nat → Nat →
      Except Fault (List (Option β) × List (Option Nat))
  | objs, d, _, 0 => .ok (objs, d)
  | objs, d, i, n + 1 => do
      let p ← readSlot src i
      let (q, objs1) ← cloneObj objs p
      let d1 ← writeSlot d i q
      cloneFrom src objs1 d1 (i + 1) n

/-- `VSArray::operator=` for `&rhs != this` (self-assignment returns at once).
The member `_size` is assigned only by `Clear`; `_delta` is not assigned. -/
def VSArray.assign {β : Type} [Object β] (objs : List (Option β)) (self rhs : VSArray Nat) :
    Except Fault (List (Option β) × VSArray Nat) := do
  let (objs1, t) ← (if self._capacity ≠ rhs._capacity then do
      let (objs1, t) ← VSArray.ClearOwned objs self
      .ok (objs1, { t with _capacity := rhs._capacity,
                           _data := List.replicate rhs._capacity none })
    else .ok (objs, self))
  let (objs2, d) ← cloneFrom rhs._data objs1 t._data 0 t._size
  .ok (objs2, { t with _data := d })

/-- The loop `for (tmp = rhs._head; tmp != nullptr; tmp = tmp->next)
Insert(tmp->data->Clone(), _size);` of the list's copy constructor and
assignment operator, for a right-hand side that is another list; the first
argument bounds the number of iterations. -/
def DoubleLinkedList.appendClones {β : Type} [Object β] (rhsHeap : List (Option (Node Nat))) :
    Nat → List (Option β) → DoubleLinkedList Nat → Option Nat →
      Except Fault (List (Option β) × DoubleLinkedList Nat)
  | _, objs, self, none => .ok (objs, self)
  | 0, _, _, some _ => .error .diverge
  | fuel + 1, objs, self, some a => do
      let nd ← readNode rhsHeap (some a)
      let (q, objs1) ← cloneObj objs nd.data
      let (_, self1) ← self.Insert q self._size
      DoubleLinkedList.appendClones rhsHeap fuel objs1 self1 nd.next

/-- `DoubleLinkedList::operator=` for a right-hand side that is another list. -/
def DoubleLinkedList.assign {β : Type} [Object β] (objs : List (Option β))
    (self rhs : DoubleLinkedList Nat) :
    Except Fault (List (Option β) × DoubleLinkedList Nat) :=
  DoubleLinkedList.appendClones rhs.heap (rhs.heap.length + 1) objs self rhs._head

/-- `DoubleLinkedList::DoubleLinkedList(const DoubleLinkedList& other)`.  The
constructor has no initialiser for `_head` and `_tail`: they start with the
indeterminate values `head0` and `tail0`; the size member of the base class
starts at zero. -/
def DoubleLinkedList.copyConstruct {β : Type} [Object β] (objs : List (Option β))
    (head0 tail0 : Option Nat) (other : DoubleLinkedList Nat) :
    Except Fault (List (Option β) × DoubleLinkedList Nat) :=
  DoubleLinkedList.appendClones other.heap (other.heap.length + 1) objs
    { heap := [], _head := head0, _tail := tail0, _size := 0 } other._head

/-- The full array holding `a` with capacity 1 and growth factor
`2 - 2 ^ (-52)`, the `double` next below 2 (printed 1.9999999999999998). -/
def VSArray.demoRound : VSArray String :=
  { _data := [some "a"], _size := 1, _capacity := 1,
    _delta := 9007199254740991 / 4503599627370496 }

/-- An array of `n + 1` elements with capacity `n + 1`: `n` times `a`, then
`b`. -/
def VSArray.demoLong (n : Nat) : VSArray String :=
  { _data := List.replicate n (some "a") ++ [some "b"], _size := n + 1, _capacity := n + 1,
    _delta := 1 }

/-- An array of capacity 3 and growth 0.5 holding the object at address 0. -/
def VSArray.demoSource : VSArray Nat :=
  { _data := [some 0, none, none], _size := 1, _capacity := 3, _delta := 1 / 2 }

/-- A full array of capacity 1 and growth 0.5 holding the object at address 0. -/
def VSArray.demoSourceFull : VSArray Nat :=
  { _data := [some 0], _size := 1, _capacity := 1, _delta := 1 / 2 }

/-- A one-element list holding the object at address 0. -/
def DoubleLinkedList.demoS : DoubleLinkedList Nat :=
  { heap := [some { data := some 0, next := none, previous := none }]
    _head := some 0
    _tail := some 0
    _size := 1 }

/-- A one-element list holding the object at address 1. -/
def DoubleLinkedList.demoT : DoubleLinkedList Nat :=
  { heap := [some { data := some 1, next := none, previous := none }]
    _head := some 0
    _tail := some 0
    _size := 1 }

/-- The list after `Insert(x, 0); Insert(y, 1)` on the empty list. -/
def DoubleLinkedList.demoXY : DoubleLinkedList String :=
  { heap := [some { data := some "x", next := some 1, previous := none },
             some { data := some "y", next := none, previous := none }]
    _head := some 0
    _tail := some 1
    _size := 2 }

/-- The array built with capacity 1 and growth factor 1 after `Insert(a, 0)`,
`Insert(b, 1)` (which resizes to capacity 2), `Remove(0)`, `Clear()` and
`Insert(c, 0)`. -/
def VSArray.demoC : VSArray String :=
  { _data := [some "c", none], _size := 1, _capacity := 2, _delta := 1 }

/-- The array of addresses built with capacity 1 and growth factor 1 after the
same calls with the objects at addresses 0, 1 and 2. -/
def VSArray.demoCAddr : VSArray Nat :=
  { _data := [some 2, none], _size := 1, _capacity := 2, _delta := 1 }

/-- A sequence of calls that fills an array of capacity 1 and makes it grow. -/
def demoCalls : List (Call String) :=
  [.Insert "a" 0, .Insert "b" 0, .Get 1, .IndexOf "a", .Remove 0, .Remove 5]

/-- Every element slot of the array points at a live object of the store. -/
def VSArray.Live {β : Type} (objs : List (Option β)) (s : VSArray Nat) : Prop :=
  ∀ i, i < s._size → ∃ a v, s._data[i]? = some (some a) ∧ objs[a]? = some (some v)

/-- The array and the list hold the same sequence: the array satisfies its slot
invariant, the list's chain is well formed, and both have the same size and the
same `Get` at every position. -/
structure Sim {α : Type} (s : VSArray α) (l : DoubleLinkedList α) : Prop where
  inv : s.SlotInv
  rep : ∃ cs, l.Rep cs
  size_eq : s._size = l._size
  get_eq : ∀ i, s.Get i = l.Get i

section SlotLemmas
variable {α : Type}

@[simp] theorem okBind {β γ : Type} (x : β) (f : β → Except Fault γ) :
    (Except.ok x >>= f) = f x := rfl

@[simp] theorem errorBind {β γ : Type} (e : Fault) (f : β → Except Fault γ) :
    ((Except.error e : Except Fault β) >>= f) = Except.error e := rfl

theorem readSlot_of_getElem? {d : List (Option α)} {i : Nat} {p : Option α}
    (h : d[i]? = some p) : readSlot d i = .ok p := by
  simp [readSlot, h]

theorem readSlot_of_lt {d : List (Option α)} {i : Nat} (h : i < d.length) :
    readSlot d i = .ok (d[i]?.getD none) := by
  simp [readSlot, List.getElem?_eq_getElem h]

theorem getElem?_eq_some_getD {d : List (Option α)} {i : Nat} (h : i < d.length) :
    d[i]? = some (d[i]?.getD none) := by
  rw [List.getElem?_eq_getElem h]; rfl

theorem writeSlot_of_lt {d : List (Option α)} {i : Nat} (p : Option α) (h : i < d.length) :
    writeSlot d i p = .ok (d.set i p) := by
  simp [writeSlot, h]

theorem shiftUp_spec (position : Nat) :
    ∀ (hi : Nat) (d : List (Option α)), hi < d.length →
      ∃ d1, shiftUp position d hi = .ok d1 ∧ d1.length = d.length ∧
        ∀ j, d1[j]? = if position < j ∧ j ≤ hi then d[j - 1]? else d[j]? := by
  intro hi
  induction hi with
  | zero =>
    intro d _
    refine ⟨d, rfl, rfl, fun j => ?_⟩
    rw [if_neg (by omega)]
  | succ hi ih =>
    intro d hlen
    by_cases hpos : hi + 1 > position
    · have hr : readSlot d hi = .ok (d[hi]?.getD none) := readSlot_of_lt (by omega)
      have hw := writeSlot_of_lt (d[hi]?.getD none) hlen
      obtain ⟨d1, h1, hl1, hj1⟩ := ih (d.set (hi + 1) (d[hi]?.getD none)) (by simp; omega)
      refine ⟨d1, ?_, by simpa using hl1, fun j => ?_⟩
      · simp only [shiftUp, hpos, if_true, hr, hw, okBind]
        exact h1
      · rw [hj1 j]
        by_cases hj : j = hi + 1
        · subst hj
          rw [if_neg (by omega), if_pos (by omega), List.getElem?_set_self hlen]
          simpa using (getElem?_eq_some_getD (show hi < d.length by omega)).symm
        · by_cases c : position < j ∧ j ≤ hi
          · rw [if_pos c, if_pos (by omega), List.getElem?_set_ne (by omega)]
          · rw [if_neg c, if_neg (by omega), List.getElem?_set_ne (by omega)]
    · refine ⟨d, ?_, rfl, fun j => ?_⟩
      · simp [shiftUp, hpos]
      · rw [if_neg (by omega)]

theorem shiftDown_spec :
    ∀ (n : Nat) (d : List (Option α)) (lo : Nat), lo + n < d.length →
      ∃ d1, shiftDown d lo n = .ok d1 ∧ d1.length = d.length ∧
        ∀ j, d1[j]? = if lo ≤ j ∧ j < lo + n then d[j + 1]? else d[j]? := by
  intro n
  induction n with
  | zero =>
    intro d lo _
    refine ⟨d, rfl, rfl, fun j => ?_⟩
    rw [if_neg (by omega)]
  | succ n ih =>
    intro d lo hlen
    have hr : readSlot d (lo + 1) = .ok (d[lo + 1]?.getD none) := readSlot_of_lt (by omega)
    have hw := writeSlot_of_lt (d[lo + 1]?.getD none) (show lo < d.length by omega)
    obtain ⟨d1, h1, hl1, hj1⟩ := ih (d.set lo (d[lo + 1]?.getD none)) (lo + 1) (by simp; omega)
    refine ⟨d1, ?_, by simpa using hl1, fun j => ?_⟩
    · simp only [shiftDown, hr, hw, okBind]
      exact h1
    · rw [hj1 j]
      by_cases hj : j = lo
      · subst hj
        rw [if_neg (by omega), if_pos (by omega), List.getElem?_set_self (by omega)]
        exact (getElem?_eq_some_getD (show j + 1 < d.length by omega)).symm
      · by_cases c : lo + 1 ≤ j ∧ j < lo + 1 + n
        · rw [if_pos c, if_pos (by omega), List.getElem?_set_ne (by omega)]
        · rw [if_neg c, if_neg (by omega), List.getElem?_set_ne (by omega)]

theorem copySlots_spec (src : List (Option α)) :
    ∀ (n : Nat) (dst : List (Option α)) (lo : Nat), lo + n ≤ src.length → lo + n ≤ dst.length →
      ∃ d1, copySlots src dst lo n = .ok d1 ∧ d1.length = dst.length ∧
        ∀ j, d1[j]? = if lo ≤ j ∧ j < lo + n then src[j]? else dst[j]? := by
  intro n
  induction n with
  | zero =>
    intro dst lo _ _
    refine ⟨dst, rfl, rfl, fun j => ?_⟩
    rw [if_neg (by omega)]
  | succ n ih =>
    intro dst lo hs hd
    have hr : readSlot src lo = .ok (src[lo]?.getD none) := readSlot_of_lt (by omega)
    have hw := writeSlot_of_lt (src[lo]?.getD none) (show lo < dst.length by omega)
    obtain ⟨d1, h1, hl1, hj1⟩ := ih (dst.set lo (src[lo]?.getD none)) (lo + 1) (by omega)
      (by simp; omega)
    refine ⟨d1, ?_, by simpa using hl1, fun j => ?_⟩
    · simp only [copySlots, hr, hw, okBind]
      exact h1
    · rw [hj1 j]
      by_cases hj : j = lo
      · subst hj
        rw [if_neg (by omega), if_pos (by omega), List.getElem?_set_self (by omega)]
        exact (getElem?_eq_some_getD (show j < src.length by omega)).symm
      · by_cases c : lo + 1 ≤ j ∧ j < lo + 1 + n
        · rw [if_pos c, if_pos (by omega)]
        · rw [if_neg c, if_neg (by omega), List.getElem?_set_ne (by omega)]

theorem nullSlots_spec :
    ∀ (n : Nat) (d : List (Option α)) (lo : Nat), lo + n ≤ d.length →
      ∃ d1, nullSlots d lo n = .ok d1 ∧ d1.length = d.length ∧
        ∀ j, d1[j]? = if lo ≤ j ∧ j < lo + n then some none else d[j]? := by
  intro n
  induction n with
  | zero =>
    intro d lo _
    refine ⟨d, rfl, rfl, fun j => ?_⟩
    rw [if_neg (by omega)]
  | succ n ih =>
    intro d lo hd
    have hw := writeSlot_of_lt (none : Option α) (show lo < d.length by omega)
    obtain ⟨d1, h1, hl1, hj1⟩ := ih (d.set lo none) (lo + 1) (by simp; omega)
    refine ⟨d1, ?_, by simpa using hl1, fun j => ?_⟩
    · simp only [nullSlots, hw, okBind]
      exact h1
    · rw [hj1 j]
      by_cases hj : j = lo
      · subst hj
        rw [if_neg (by omega), if_pos (by omega), List.getElem?_set_self (by omega)]
      · by_cases c : lo + 1 ≤ j ∧ j < lo + 1 + n
        · rw [if_pos c, if_pos (by omega)]
        · rw [if_neg c, if_neg (by omega), List.getElem?_set_ne (by omega)]

end SlotLemmas

namespace VSArray

variable {α : Type}

theorem readSlot_congr {d d1 : List (Option α)} {i j : Nat} (h : d[i]? = d1[j]?) :
    readSlot d i = readSlot d1 j := by
  simp only [readSlot, h]

theorem Resize_spec (s : VSArray α) (c : Nat) (hlen : s._size ≤ s._data.length)
    (hc : grownCapacity s._delta s._capacity = .ok c) (hsz : s._size ≤ c) :
    ∃ s1, s.Resize = .ok s1 ∧ s1._size = s._size ∧ s1._capacity = c ∧
      s1._delta = s._delta ∧ s1._data.length = c ∧
      ∀ j, s1._data[j]? =
        if j < s._size then s._data[j]? else if j < c then some none else none := by
  obtain ⟨arr, ha, hal, haj⟩ :=
    copySlots_spec s._data s._size (List.replicate c none) 0 (by omega) (by simp; omega)
  obtain ⟨z, hz, -, -⟩ := nullSlots_spec s._size s._data 0 (by omega)
  obtain ⟨d, hd, hdl, hdj⟩ :=
    copySlots_spec arr s._size (List.replicate c none) 0 (by simp at hal; omega) (by simp; omega)
  obtain ⟨d1, hd1, hd1l, hd1j⟩ :=
    nullSlots_spec (c - s._size) d s._size (by simp at hdl; omega)
  refine ⟨{ s with _data := d1, _capacity := c }, ?_, rfl, rfl, rfl, ?_, fun j => ?_⟩
  · simp only [Resize, hc, ha, hz, hd, hd1, okBind]
  · simp at hdl
    simp only [hd1l, hdl]
  · show d1[j]? = _
    rw [hd1j j, hdj j, haj j]
    by_cases h1 : j < s._size
    · rw [if_neg (by omega), if_pos (by omega), if_pos (by omega), if_pos h1]
    · rw [if_neg h1]
      by_cases h2 : j < c
      · rw [if_pos (by omega), if_pos h2]
      · rw [if_neg (by omega), if_neg (by omega), if_neg h2]
        simp
        omega

theorem room_spec (s : VSArray α) (hinv : s.SlotInv)
    (hroom : s._size < s._capacity ∨
      ∃ c, grownCapacity s._delta s._capacity = .ok c ∧ s._capacity < c) :
    ∃ s1, (if s._size = s._capacity then s.Resize else .ok s) = .ok s1 ∧
      s1._size = s._size ∧ s1._size < s1._data.length ∧
      ∀ j, j < s._size → s1._data[j]? = s._data[j]? := by
  have hl := hinv.length_eq
  have hs := hinv.size_le
  by_cases hfull : s._size = s._capacity
  · rcases hroom with h | ⟨c, hc, hlt⟩
    · omega
    · obtain ⟨s1, h1, h2, -, -, h5, h6⟩ := Resize_spec s c (by omega) hc (by omega)
      refine ⟨s1, by rw [if_pos hfull]; exact h1, h2, by omega, fun j hj => ?_⟩
      rw [h6 j, if_pos hj]
  · exact ⟨s, by rw [if_neg hfull], rfl, by omega, fun _ _ => rfl⟩

end VSArray

/-- C1. `VSArray::Insert` at a valid position: on a state satisfying the slot
invariant, with `position ≤ _size`, and either a free slot or a `Resize` whose
new capacity is strictly larger, `Insert` returns `true`; afterwards the size is
one more, `Get(position)` is the element, `Get(i)` is unchanged below `position`
and `Get(i + 1)` is the old `Get(i)` from `position` up to the old size. -/
theorem VSArray_Insert_valid {α : Type} (s : VSArray α) (e : Option α) (p : Nat)
    (hinv : s.SlotInv) (hp : p ≤ s._size)
    (hroom : s._size < s._capacity ∨
      ∃ c, VSArray.grownCapacity s._delta s._capacity = .ok c ∧ s._capacity < c) :
    ∃ s1, s.Insert e p = .ok (true, s1) ∧ s1._size = s._size + 1 ∧
      s1.Get p = .ok e ∧
      (∀ i, i < p → s1.Get i = s.Get i) ∧
      (∀ i, p ≤ i → i < s._size → s1.Get (i + 1) = s.Get i) := by
  obtain ⟨t, ht, hts, htl, htj⟩ := VSArray.room_spec s hinv hroom
  obtain ⟨d, hd, hdl, hdj⟩ := shiftUp_spec p t._size t._data htl
  have hr := readSlot_of_lt htl
  have hw := writeSlot_of_lt e (show p < d.length by omega)
  refine ⟨{ t with _data := d.set p e, _size := t._size + 1 }, ?_, ?_, ?_, ?_, ?_⟩
  · unfold VSArray.Insert
    rw [if_neg (show ¬ p > s._size by omega), ht]
    simp only [hr, hd, hw, okBind]
  · show t._size + 1 = s._size + 1
    rw [hts]
  · simp only [VSArray.Get, if_neg (show ¬ p ≥ t._size + 1 by omega)]
    exact readSlot_of_getElem? (List.getElem?_set_self (by omega))
  · intro i hi
    simp only [VSArray.Get, if_neg (show ¬ i ≥ t._size + 1 by omega),
      if_neg (show ¬ i ≥ s._size by omega)]
    apply VSArray.readSlot_congr
    rw [List.getElem?_set_ne (by omega), hdj i, if_neg (by omega), htj i (by omega)]
  · intro i hpi hi
    simp only [VSArray.Get, if_neg (show ¬ i + 1 ≥ t._size + 1 by omega),
      if_neg (show ¬ i ≥ s._size by omega)]
    apply VSArray.readSlot_congr
    rw [List.getElem?_set_ne (by omega), hdj (i + 1), if_pos (by omega)]
    exact htj i hi

/-- C2. `VSArray::Remove` at a valid position: on a state satisfying the slot
invariant, with `position < _size`, `Remove` returns the element `Get(position)`
returned before; afterwards the size is one less, `Get(i)` is unchanged below
`position`, `Get(i)` is the old `Get(i + 1)` from `position` up to the new size,
the slot at the old index `_size - 1` is `nullptr`, and the capacity is unchanged. -/
theorem VSArray_Remove_valid {α : Type} (s : VSArray α) (p : Nat)
    (hinv : s.SlotInv) (hp : p < s._size) :
    ∃ x s1, s.Get p = .ok (some x) ∧ s.Remove p = .ok (some x, s1) ∧
      s1._size = s._size - 1 ∧
      (∀ i, i < p → s1.Get i = s.Get i) ∧
      (∀ i, p ≤ i → i < s1._size → s1.Get i = s.Get (i + 1)) ∧
      s1._data[s._size - 1]? = some none ∧
      s1._capacity = s._capacity := by
  have hl := hinv.length_eq
  have hs := hinv.size_le
  obtain ⟨x, hx⟩ := hinv.live p hp
  obtain ⟨d, hd, hdl, hdj⟩ :=
    shiftDown_spec (s._size - 1 - p) s._data p (by omega)
  have hr := readSlot_of_getElem? hx
  have hw := writeSlot_of_lt (none : Option α) (show s._size - 1 < d.length by omega)
  refine ⟨x, { s with _data := d.set (s._size - 1) none, _size := s._size - 1 },
    ?_, ?_, rfl, ?_, ?_, ?_, rfl⟩
  · simp only [VSArray.Get, if_neg (show ¬ p ≥ s._size by omega), hr]
  · simp only [VSArray.Remove, if_neg (show ¬ p ≥ s._size by omega), hr, hd, hw, okBind]
  · intro i hi
    simp only [VSArray.Get, if_neg (show ¬ i ≥ s._size - 1 by omega),
      if_neg (show ¬ i ≥ s._size by omega)]
    apply VSArray.readSlot_congr
    rw [List.getElem?_set_ne (by omega), hdj i, if_neg (by omega)]
  · intro i hpi hi
    have hi1 : i < s._size - 1 := hi
    simp only [VSArray.Get, if_neg (show ¬ i ≥ s._size - 1 by omega),
      if_neg (show ¬ i + 1 ≥ s._size by omega)]
    apply VSArray.readSlot_congr
    rw [List.getElem?_set_ne (by omega), hdj i, if_pos (by omega)]
  · exact List.getElem?_set_self (by omega)

section ChainLemmas
variable {α : Type}

theorem readNode_of_getElem? {heap : List (Option (Node α))} {a : Nat} {nd : Node α}
    (h : heap[a]? = some (some nd)) : readNode heap (some a) = .ok nd := by
  simp [readNode, h]

theorem writeNode_of_getElem? {heap : List (Option (Node α))} {a : Nat} {nd : Node α}
    (nd1 : Node α) (h : heap[a]? = some (some nd)) :
    writeNode heap (some a) nd1 = .ok (heap.set a (some nd1)) := by
  simp [writeNode, h]

theorem setNext_of_getElem? {heap : List (Option (Node α))} {a : Nat} {nd : Node α}
    (v : Option Nat) (h : heap[a]? = some (some nd)) :
    setNext heap (some a) v = .ok (heap.set a (some { nd with next := v })) := by
  simp [setNext, readNode_of_getElem? h, writeNode_of_getElem? _ h]

theorem setData_of_getElem? {heap : List (Option (Node α))} {a : Nat} {nd : Node α}
    (v : Option α) (h : heap[a]? = some (some nd)) :
    setData heap (some a) v = .ok (heap.set a (some { nd with data := v })) := by
  simp [setData, readNode_of_getElem? h, writeNode_of_getElem? _ h]

theorem setPrevious_of_getElem? {heap : List (Option (Node α))} {a : Nat} {nd : Node α}
    (v : Option Nat) (h : heap[a]? = some (some nd)) :
    setPrevious heap (some a) v = .ok (heap.set a (some { nd with previous := v })) := by
  simp [setPrevious, readNode_of_getElem? h, writeNode_of_getElem? _ h]

theorem deleteNode_of_getElem? {heap : List (Option (Node α))} {a : Nat} {nd : Node α}
    (h : heap[a]? = some (some nd)) :
    deleteNode heap (some a) = .ok (heap.set a none) := by
  simp [deleteNode, h]

theorem getElem?_set_same {heap : List (Option (Node α))} {a : Nat} {nd : Node α}
    (x : Option (Node α)) (h : heap[a]? = some (some nd)) : (heap.set a x)[a]? = some x := by
  have hlt : a < heap.length := by
    by_contra hge
    rw [List.getElem?_eq_none (by omega)] at h
    exact absurd h (by simp)
  exact List.getElem?_set_self hlt

theorem lt_of_getElem? {heap : List (Option (Node α))} {a : Nat} {nd : Node α}
    (h : heap[a]? = some (some nd)) : a < heap.length := by
  by_contra hge
  rw [List.getElem?_eq_none (by omega)] at h
  exact absurd h (by simp)

theorem Seg_append {heap : List (Option (Node α))} :
    ∀ (cs1 cs2 : List (Nat × Option α)) (p q : Option Nat),
      Seg heap p (cs1 ++ cs2) q ↔ ∃ m, Seg heap p cs1 m ∧ Seg heap m cs2 q := by
  intro cs1
  induction cs1 with
  | nil =>
    intro cs2 p q
    constructor
    · intro h
      exact ⟨p, rfl, h⟩
    · rintro ⟨m, h1, h2⟩
      have : p = m := h1
      subst this
      exact h2
  | cons c cs1 ih =>
    intro cs2 p q
    constructor
    · rintro ⟨hp, nd, hnd, hdata, hrest⟩
      obtain ⟨m, h1, h2⟩ := (ih cs2 nd.next q).1 hrest
      exact ⟨m, ⟨hp, nd, hnd, hdata, h1⟩, h2⟩
    · rintro ⟨m, ⟨hp, nd, hnd, hdata, h1⟩, h2⟩
      exact ⟨hp, nd, hnd, hdata, (ih cs2 nd.next q).2 ⟨m, h1, h2⟩⟩

theorem Seg_frame {heap heap1 : List (Option (Node α))} :
    ∀ (cs : List (Nat × Option α)) (p q : Option Nat),
      (∀ c ∈ cs, ∀ nd, heap[c.1]? = some (some nd) →
        ∃ nd1, heap1[c.1]? = some (some nd1) ∧ nd1.data = nd.data ∧ nd1.next = nd.next) →
      Seg heap p cs q → Seg heap1 p cs q := by
  intro cs
  induction cs with
  | nil =>
    intro p q _ h
    exact h
  | cons c cs ih =>
    rintro p q hagree ⟨hp, nd, hnd, hdata, hrest⟩
    obtain ⟨nd1, h1, h2, h3⟩ := hagree c (List.mem_cons_self _ _) nd hnd
    refine ⟨hp, nd1, h1, by rw [h2, hdata], ?_⟩
    rw [h3]
    exact ih nd.next q (fun c1 hc1 => hagree c1 (List.mem_cons_of_mem _ hc1)) hrest

theorem Seg_same {heap heap1 : List (Option (Node α))} (cs : List (Nat × Option α))
    (p q : Option Nat) (hsame : ∀ c ∈ cs, heap1[c.1]? = heap[c.1]?)
    (h : Seg heap p cs q) : Seg heap1 p cs q :=
  Seg_frame cs p q (fun c hc nd hnd => ⟨nd, by rw [hsame c hc, hnd], rfl, rfl⟩) h

theorem Seg_lt {heap : List (Option (Node α))} :
    ∀ (cs : List (Nat × Option α)) (p q : Option Nat),
      Seg heap p cs q → ∀ c ∈ cs, c.1 < heap.length := by
  intro cs
  induction cs with
  | nil =>
    intro p q _ c hc
    exact absurd hc (List.not_mem_nil c)
  | cons c0 cs ih =>
    rintro p q ⟨_, nd, hnd, _, hrest⟩ c hc
    rcases List.mem_cons.1 hc with rfl | hc
    · exact lt_of_getElem? hnd
    · exact ih nd.next q hrest c hc

theorem walk_Seg {heap : List (Option (Node α))} :
    ∀ (cs : List (Nat × Option α)) (p q : Option Nat),
      Seg heap p cs q → walk heap p cs.length = .ok q := by
  intro cs
  induction cs with
  | nil =>
    intro p q h
    have : p = q := h
    subst this
    rfl
  | cons c cs ih =>
    rintro p q ⟨hp, nd, hnd, _, hrest⟩
    subst hp
    simp only [List.length_cons, walk, readNode_of_getElem? hnd, okBind]
    exact ih nd.next q hrest

end ChainLemmas

section RepLemmas
variable {α : Type}

theorem exists_split {β : Type} (cs : List β) (i : Nat) (h : i < cs.length) :
    ∃ cs1 c cs2, cs = cs1 ++ c :: cs2 ∧ cs1.length = i := by
  refine ⟨cs.take i, cs[i], cs.drop (i + 1), ?_, ?_⟩
  · rw [← List.drop_eq_getElem_cons h, List.take_append_drop]
  · simp
    omega

theorem getElem?_split_mid {β : Type} (cs1 cs2 : List β) (c : β) :
    (cs1 ++ c :: cs2)[cs1.length]? = some c := by
  rw [List.getElem?_append_right (Nat.le_refl _)]
  simp

namespace DoubleLinkedList

theorem Get_split {l : DoubleLinkedList α} {cs1 cs2 : List (Nat × Option α)}
    {c : Nat × Option α} (h : l.Rep (cs1 ++ c :: cs2)) : l.Get cs1.length = .ok c.2 := by
  have hsz : ¬ cs1.length ≥ l._size := by
    rw [h.size_eq]
    simp
  obtain ⟨m, h1, hp, nd, hnd, hdata, -⟩ := (Seg_append cs1 (c :: cs2) l._head none).1 h.chain
  subst hp
  simp only [Get, if_neg hsz, walk_Seg cs1 _ _ h1, readNode_of_getElem? hnd, okBind, hdata]

theorem Get_of_Rep {l : DoubleLinkedList α} {cs : List (Nat × Option α)} (h : l.Rep cs)
    (i : Nat) : l.Get i = .ok (cs[i]?.bind Prod.snd) := by
  by_cases hi : i < cs.length
  · obtain ⟨cs1, c, cs2, rfl, rfl⟩ := exists_split cs i hi
    rw [Get_split h, getElem?_split_mid]
    rfl
  · have hsz : i ≥ l._size := by
      rw [h.size_eq]
      omega
    rw [List.getElem?_eq_none (by omega)]
    simp only [Get, if_pos hsz]
    rfl

end DoubleLinkedList

end RepLemmas

section InsertLemmas
variable {α : Type}

theorem getElem?_snoc_lt {β : Type} (H : List β) (x : β) {a : Nat} (h : a < H.length) :
    (H ++ [x])[a]? = H[a]? :=
  List.getElem?_append_left h

theorem getElem?_snoc_eq {β : Type} (H : List β) (x : β) : (H ++ [x])[H.length]? = some x := by
  rw [List.getElem?_append_right (Nat.le_refl _)]
  simp

theorem eq_nil_or_snoc {β : Type} (cs : List β) : cs = [] ∨ ∃ cs0 c, cs = cs0 ++ [c] := by
  rcases List.eq_nil_or_concat cs with h | ⟨cs0, c, h⟩
  · exact Or.inl h
  · exact Or.inr ⟨cs0, c, by simpa using h⟩

namespace DoubleLinkedList

theorem Insert_Rep {l : DoubleLinkedList α} {cs1 cs2 : List (Nat × Option α)} (e : Option α)
    (h : l.Rep (cs1 ++ cs2)) :
    ∃ l1, l.Insert e cs1.length = .ok (true, l1) ∧ l1._size = l._size + 1 ∧
      l1.Rep (cs1 ++ (l.heap.length, e) :: cs2) := by
  have hsz := h.size_eq
  have hpos : ¬ cs1.length > l._size := by
    rw [hsz]
    simp
  have hlt := Seg_lt _ _ _ h.chain
  have hnd := h.nodup
  set n0 : Node α := { data := e, next := none, previous := none } with hn0
  set H1 := l.heap ++ [some n0] with hH1
  have hneo : H1[l.heap.length]? = some (some n0) := getElem?_snoc_eq _ _
  have hold : ∀ a, a < l.heap.length → H1[a]? = l.heap[a]? := fun a ha =>
    getElem?_snoc_lt _ _ ha
  by_cases hzero : l._size = 0
  · -- the list is empty
    have hnil : cs1 ++ cs2 = [] := List.length_eq_zero.1 (by omega)
    obtain ⟨rfl, rfl⟩ := List.append_eq_nil.1 hnil
    refine ⟨{ heap := H1
              _head := some l.heap.length
              _tail := some l.heap.length
              _size := l._size + 1 }, by simp only [Insert, if_neg hpos, if_pos hzero], rfl, ?_, ?_, ?_⟩
    · exact ⟨rfl, n0, hneo, rfl, rfl⟩
    · simp
    · show l._size + 1 = _
      simp [hzero]
  · rcases eq_nil_or_snoc cs1 with rfl | ⟨cs0, c, rfl⟩
    · -- insertion at the head of a non-empty list
      have hs := setNext_of_getElem? l._head hneo
      refine ⟨{ heap := H1.set l.heap.length (some { n0 with next := l._head })
                _head := some l.heap.length
                _tail := some l.heap.length
                _size := l._size + 1 },
        by simp only [Insert, gt_iff_lt, Nat.not_lt_zero, if_false, if_neg hzero,
          List.length_nil, if_true, hs, okBind], rfl, ?_, ?_, ?_⟩
      · refine ⟨rfl, _, getElem?_set_same _ hneo, rfl, ?_⟩
        refine Seg_same cs2 _ _ (fun c hc => ?_) h.chain
        have := hlt c (by simpa using hc)
        show (H1.set _ _)[c.1]? = _
        rw [List.getElem?_set_ne (by omega), hold _ this]
      · simp only [List.nil_append, List.map_cons, List.nodup_cons]
        refine ⟨fun hmem => ?_, by simpa using hnd⟩
        obtain ⟨c, hc, hc1⟩ := List.mem_map.1 hmem
        have := hlt c (by simpa using hc)
        omega
      · show l._size + 1 = _
        simp [hsz]
    · -- insertion after the node at index `position - 1`
      have hp0 : ¬ (cs0 ++ [c]).length = 0 := by simp
      have hp1 : (cs0 ++ [c]).length - 1 = cs0.length := by simp
      have hchain : Seg H1 l._head (cs0 ++ ([c] ++ cs2)) none := by
        refine Seg_same _ _ _ (fun c1 hc1 => hold _ (hlt c1 (by simpa using hc1))) ?_
        simpa using h.chain
      obtain ⟨m, hseg0, hm, t, ht, htd, hseg2⟩ := (Seg_append cs0 _ _ _).1 hchain
      subst hm
      have hclt : c.1 < l.heap.length := hlt c (by simp)
      have hw := walk_Seg cs0 _ _ hseg0
      have hr := readNode_of_getElem? ht
      have hs1 := setNext_of_getElem? t.next hneo
      have ht1 : (H1.set l.heap.length (some { n0 with next := t.next }))[c.1]? =
          some (some t) := by
        rw [List.getElem?_set_ne (by omega)]
        exact ht
      have hs2 := setNext_of_getElem? (some l.heap.length) ht1
      refine ⟨{ heap := (H1.set l.heap.length (some { n0 with next := t.next })).set c.1
                  (some { t with next := some l.heap.length })
                _head := l._head
                _tail := if some c.1 = l._tail then some l.heap.length else l._tail
                _size := l._size + 1 },
        by simp only [Insert, if_neg hpos, if_neg hzero, if_neg hp0, hp1, hw, hr,
          hs1, hs2, okBind], rfl, ?_, ?_, ?_⟩
      · have hnd1 : ((cs0.map Prod.fst) ++ c.1 :: cs2.map Prod.fst).Nodup := by
          simpa using hnd
        have hc0 : ∀ c1 ∈ cs0, c1.1 ≠ c.1 := by
          intro c1 hc1 heq
          have := (List.nodup_append.1 hnd1).2.2
          exact this (List.mem_map_of_mem _ hc1) (by simp [heq])
        have hc2 : ∀ c1 ∈ cs2, c1.1 ≠ c.1 := by
          intro c1 hc1 heq
          have := (List.nodup_cons.1 (List.nodup_append.1 hnd1).2.1).1
          exact this (by rw [← heq]; exact List.mem_map_of_mem _ hc1)
        have hgoal : Seg ((H1.set l.heap.length (some { n0 with next := t.next })).set c.1
            (some { t with next := some l.heap.length })) l._head
            (cs0 ++ (c :: (l.heap.length, e) :: cs2)) none := by
          refine (Seg_append cs0 _ _ _).2 ⟨some c.1, ?_, rfl,
            { t with next := some l.heap.length }, getElem?_set_same _ ht1, htd,
            rfl, { n0 with next := t.next }, ?_, rfl, ?_⟩
          · refine Seg_same cs0 _ _ (fun c1 hc1 => ?_) hseg0
            have := hlt c1 (by simp [hc1])
            rw [List.getElem?_set_ne (fun h => hc0 c1 hc1 h.symm),
              List.getElem?_set_ne (by omega)]
          · rw [List.getElem?_set_ne (by omega)]
            exact getElem?_set_same _ hneo
          · refine Seg_same cs2 _ _ (fun c1 hc1 => ?_) hseg2
            have := hlt c1 (by simp [hc1])
            rw [List.getElem?_set_ne (fun h => hc2 c1 hc1 h.symm),
              List.getElem?_set_ne (by omega)]
        simpa using hgoal
      · have hnd1 : ((cs0.map Prod.fst) ++ c.1 :: cs2.map Prod.fst).Nodup := by
          simpa using hnd
        have hfresh : ∀ a ∈ (cs0.map Prod.fst) ++ c.1 :: cs2.map Prod.fst,
            a ≠ l.heap.length := by
          intro a ha
          have : ∃ c1 ∈ cs0 ++ [c] ++ cs2, c1.1 = a := by
            simp only [List.mem_append, List.mem_cons, List.mem_map] at ha
            rcases ha with ⟨c1, hc1, heq⟩ | heq | ⟨c1, hc1, heq⟩
            · exact ⟨c1, by simp [hc1], heq⟩
            · exact ⟨c, by simp, heq.symm⟩
            · exact ⟨c1, by simp [hc1], heq⟩
          obtain ⟨c1, hc1, heq⟩ := this
          have := hlt c1 hc1
          omega
        have hgoal : ((cs0.map Prod.fst) ++ c.1 :: l.heap.length :: cs2.map Prod.fst).Nodup := by
          rw [List.nodup_append] at hnd1 ⊢
          refine ⟨hnd1.1, ?_, ?_⟩
          · rw [List.nodup_cons] at hnd1 ⊢
            refine ⟨?_, ?_⟩
            · intro hmem
              rcases List.mem_cons.1 hmem with heq | hmem
              · exact hfresh c.1 (by simp) heq
              · exact hnd1.2.1.1 hmem
            · rw [List.nodup_cons]
              exact ⟨fun hmem => hfresh _ (by simp [hmem]) rfl, hnd1.2.1.2⟩
          · intro a ha1 ha2
            rcases List.mem_cons.1 ha2 with heq | ha2
            · exact hnd1.2.2 ha1 (by simp [heq])
            · rcases List.mem_cons.1 ha2 with heq | ha2
              · exact hfresh a (by simp [ha1]) heq
              · exact hnd1.2.2 ha1 (by simp [ha2])
        simpa using hgoal
      · show l._size + 1 = _
        simp [hsz]
        omega

end DoubleLinkedList

end InsertLemmas

section RemoveLemmas
variable {α : Type}

@[simp] theorem pureOk {β : Type} (x : β) : (pure x : Except Fault β) = Except.ok x := rfl

namespace DoubleLinkedList

theorem Remove_Rep_head {l : DoubleLinkedList α} {cs2 : List (Nat × Option α)}
    {c : Nat × Option α} (h : l.Rep (c :: cs2)) :
    ∃ l1, l.Remove 0 = .ok (c.2, l1) ∧ l1._size = l._size - 1 ∧ l1.Rep cs2 := by
  have hsz := h.size_eq
  have hpos : ¬ 0 ≥ l._size := by
    rw [hsz]
    simp
  obtain ⟨hp, nd, hnd, hdata, hrest⟩ := h.chain
  have hnodup := List.nodup_cons.1 (by simpa using h.nodup :
    (c.1 :: cs2.map Prod.fst).Nodup)
  have h1 := setData_of_getElem? none hnd
  have hnd1 := getElem?_set_same (some { nd with data := none }) hnd
  have h2 := setNext_of_getElem? none hnd1
  have hnd2 := getElem?_set_same (some { { nd with data := none } with next := none }) hnd1
  have h3 := deleteNode_of_getElem? hnd2
  refine ⟨{ heap := (((l.heap.set c.1 (some { nd with data := none })).set c.1
                (some { { nd with data := none } with next := none })).set c.1 none)
            _head := nd.next
            _tail := if l._tail = l._head then nd.next else l._tail
            _size := l._size - 1 }, ?_, rfl, ?_, hnodup.2, ?_⟩
  · unfold Remove
    rw [if_neg hpos, if_pos rfl]
    simp only [hp, readNode_of_getElem? hnd, h1, readNode_of_getElem? hnd1, h2, h3, okBind,
      hdata]
  · refine Seg_same cs2 _ _ (fun c1 hc1 => ?_) hrest
    have hne : c.1 ≠ c1.1 := fun heq => hnodup.1 (by rw [heq]; exact List.mem_map_of_mem _ hc1)
    show (((l.heap.set _ _).set _ _).set _ _)[c1.1]? = _
    rw [List.getElem?_set_ne hne, List.getElem?_set_ne hne, List.getElem?_set_ne hne]
  · show l._size - 1 = _
    simp [hsz]

end DoubleLinkedList

end RemoveLemmas

section RemoveMidLemmas
variable {α : Type}

theorem setNext_spec {heap : List (Option (Node α))} {a : Nat} {nd : Node α}
    (v : Option Nat) (h : heap[a]? = some (some nd)) :
    ∃ heap1, setNext heap (some a) v = .ok heap1 ∧
      heap1[a]? = some (some { nd with next := v }) ∧
      ∀ b, b ≠ a → heap1[b]? = heap[b]? :=
  ⟨_, setNext_of_getElem? v h, getElem?_set_same _ h,
    fun _ hb => List.getElem?_set_ne (fun heq => hb heq.symm)⟩

theorem setData_spec {heap : List (Option (Node α))} {a : Nat} {nd : Node α}
    (v : Option α) (h : heap[a]? = some (some nd)) :
    ∃ heap1, setData heap (some a) v = .ok heap1 ∧
      heap1[a]? = some (some { nd with data := v }) ∧
      ∀ b, b ≠ a → heap1[b]? = heap[b]? :=
  ⟨_, setData_of_getElem? v h, getElem?_set_same _ h,
    fun _ hb => List.getElem?_set_ne (fun heq => hb heq.symm)⟩

theorem setPrevious_spec {heap : List (Option (Node α))} {a : Nat} {nd : Node α}
    (v : Option Nat) (h : heap[a]? = some (some nd)) :
    ∃ heap1, setPrevious heap (some a) v = .ok heap1 ∧
      heap1[a]? = some (some { nd with previous := v }) ∧
      ∀ b, b ≠ a → heap1[b]? = heap[b]? :=
  ⟨_, setPrevious_of_getElem? v h, getElem?_set_same _ h,
    fun _ hb => List.getElem?_set_ne (fun heq => hb heq.symm)⟩

theorem deleteNode_spec {heap : List (Option (Node α))} {a : Nat} {nd : Node α}
    (h : heap[a]? = some (some nd)) :
    ∃ heap1, deleteNode heap (some a) = .ok heap1 ∧
      ∀ b, b ≠ a → heap1[b]? = heap[b]? :=
  ⟨_, deleteNode_of_getElem? h, fun _ hb => List.getElem?_set_ne (fun heq => hb heq.symm)⟩

namespace DoubleLinkedList

theorem Remove_Rep_mid {l : DoubleLinkedList α} {cs0 cs2 : List (Nat × Option α)}
    {a c : Nat × Option α} (h : l.Rep (cs0 ++ a :: c :: cs2)) :
    ∃ l1, l.Remove (cs0.length + 1) = .ok (c.2, l1) ∧ l1._size = l._size - 1 ∧
      l1.Rep (cs0 ++ a :: cs2) := by
  have hsz := h.size_eq
  have hpos : ¬ cs0.length + 1 ≥ l._size := by
    rw [hsz]
    simp
  obtain ⟨m, hseg0, hm, t, ht, htd, htn, r, hr, hrd, hseg2⟩ :=
    (Seg_append cs0 _ _ _).1 h.chain
  subst hm
  have hnd : ((cs0.map Prod.fst) ++ a.1 :: c.1 :: cs2.map Prod.fst).Nodup := by
    simpa using h.nodup
  obtain ⟨hnd0, hnd1, hdisj⟩ := List.nodup_append.1 hnd
  obtain ⟨hna, hnd2⟩ := List.nodup_cons.1 hnd1
  obtain ⟨hnc, hnd3⟩ := List.nodup_cons.1 hnd2
  have hac : c.1 ≠ a.1 := fun heq => hna (by simp [heq])
  have h0a : ∀ x ∈ cs0, x.1 ≠ a.1 := fun x hx heq =>
    hdisj (List.mem_map_of_mem _ hx) (by simp [heq])
  have h0c : ∀ x ∈ cs0, x.1 ≠ c.1 := fun x hx heq =>
    hdisj (List.mem_map_of_mem _ hx) (by simp [heq])
  have h2a : ∀ x ∈ cs2, x.1 ≠ a.1 := fun x hx heq =>
    hna (by rw [← heq]; exact List.mem_cons_of_mem _ (List.mem_map_of_mem _ hx))
  have h2c : ∀ x ∈ cs2, x.1 ≠ c.1 := fun x hx heq =>
    hnc (by rw [← heq]; exact List.mem_map_of_mem _ hx)
  have hw := walk_Seg cs0 _ _ hseg0
  have hrt := readNode_of_getElem? ht
  have hrr := readNode_of_getElem? hr
  obtain ⟨heap1, e1, e1a, e1o⟩ := setNext_spec r.next ht
  have hr1 : heap1[c.1]? = some (some r) := by rw [e1o _ hac]; exact hr
  have hrr1 := readNode_of_getElem? hr1
  -- the final heap agrees with the first on every node but `a` and `c`, up to `previous`
  have key : ∃ heap2 tail ndc,
      (if r.next ≠ none then do
          let heap11 ← setPrevious heap1 r.next (some a.1)
          let heap12 ← setNext heap11 (some c.1) none
          pure (heap12, l._tail)
        else pure (heap1, some a.1)) = Except.ok (heap2, tail) ∧
      heap2[c.1]? = some (some ndc) ∧
      heap2[a.1]? = some (some { t with next := r.next }) ∧
      ∀ x ∈ cs0 ++ cs2, ∀ nd, l.heap[x.1]? = some (some nd) →
        ∃ nd1, heap2[x.1]? = some (some nd1) ∧ nd1.data = nd.data ∧ nd1.next = nd.next := by
    cases cs2 with
    | nil =>
      have hrn : r.next = none := hseg2
      refine ⟨heap1, some a.1, r, by simp [hrn], hr1, e1a, fun x hx nd hnd => ?_⟩
      have hx0 : x ∈ cs0 := by simpa using hx
      exact ⟨nd, by rw [e1o _ (h0a x hx0)]; exact hnd, rfl, rfl⟩
    | cons d cs3 =>
      obtain ⟨hrn, nd3, hd3, -, -⟩ := hseg2
      have hda : d.1 ≠ a.1 := h2a d (by simp)
      have hdc : d.1 ≠ c.1 := h2c d (by simp)
      have hd1 : heap1[d.1]? = some (some nd3) := by rw [e1o _ hda]; exact hd3
      obtain ⟨heap11, e2, e2a, e2o⟩ := setPrevious_spec (some a.1) hd1
      have hc11 : heap11[c.1]? = some (some r) := by rw [e2o _ hdc.symm]; exact hr1
      obtain ⟨heap12, e3, e3a, e3o⟩ := setNext_spec none hc11
      refine ⟨heap12, l._tail, _, by simp [hrn, e2, e3], e3a, ?_, fun x hx nd hnd => ?_⟩
      · rw [e3o _ hac.symm, e2o _ hda.symm]
        exact e1a
      · have hxa : x.1 ≠ a.1 := by
          rcases List.mem_append.1 hx with hx | hx
          · exact h0a x hx
          · exact h2a x hx
        have hxc : x.1 ≠ c.1 := by
          rcases List.mem_append.1 hx with hx | hx
          · exact h0c x hx
          · exact h2c x hx
        by_cases hxd : x.1 = d.1
        · refine ⟨{ nd3 with previous := some a.1 }, ?_, ?_, ?_⟩
          · rw [e3o _ hxc, hxd]
            exact e2a
          · rw [hxd, hd3] at hnd
            cases hnd
            rfl
          · rw [hxd, hd3] at hnd
            cases hnd
            rfl
        · exact ⟨nd, by rw [e3o _ hxc, e2o _ hxd, e1o _ hxa]; exact hnd, rfl, rfl⟩
  obtain ⟨heap2, tail, ndc, ek, kc, ka, ko⟩ := key
  obtain ⟨heap3, e4, e4a, e4o⟩ := setPrevious_spec none kc
  obtain ⟨heap4, e5, e5a, e5o⟩ := setData_spec none e4a
  obtain ⟨heap5, e6, e6o⟩ := deleteNode_spec e5a
  have hfin : ∀ b, b ≠ c.1 → heap5[b]? = heap2[b]? := fun b hb => by
    rw [e6o b hb, e5o b hb, e4o b hb]
  refine ⟨{ heap := heap5, _head := l._head, _tail := tail, _size := l._size - 1 },
    ?_, rfl, ?_, ?_, ?_⟩
  · unfold Remove
    rw [if_neg hpos, if_neg (Nat.succ_ne_zero _)]
    simp only [Nat.add_sub_cancel, hw, hrt, htn, hrr, e1, hrr1, ek, e4, e5, e6, okBind, hrd]
  · refine (Seg_append cs0 _ _ _).2 ⟨some a.1, ?_, rfl, { t with next := r.next }, ?_, htd, ?_⟩
    · refine Seg_frame cs0 _ _ (fun x hx nd hnd => ?_) hseg0
      obtain ⟨nd1, k1, k2, k3⟩ := ko x (by simp [hx]) nd hnd
      exact ⟨nd1, by rw [hfin _ (h0c x hx)]; exact k1, k2, k3⟩
    · rw [hfin _ hac.symm]
      exact ka
    · refine Seg_frame cs2 _ _ (fun x hx nd hnd => ?_) hseg2
      obtain ⟨nd1, k1, k2, k3⟩ := ko x (by simp [hx]) nd hnd
      exact ⟨nd1, by rw [hfin _ (h2c x hx)]; exact k1, k2, k3⟩
  · have : ((cs0.map Prod.fst) ++ a.1 :: cs2.map Prod.fst).Nodup := by
      refine List.nodup_append.2 ⟨hnd0, List.nodup_cons.2 ⟨fun hmem => hna ?_, hnd3⟩, ?_⟩
      · exact List.mem_cons_of_mem _ hmem
      · intro x hx1 hx2
        rcases List.mem_cons.1 hx2 with heq | hx2
        · exact hdisj hx1 (by simp [heq])
        · exact hdisj hx1 (by simp [hx2])
    simpa using this
  · show l._size - 1 = _
    simp [hsz]

theorem Remove_Rep {l : DoubleLinkedList α} {cs1 cs2 : List (Nat × Option α)}
    {c : Nat × Option α} (h : l.Rep (cs1 ++ c :: cs2)) :
    ∃ l1, l.Remove cs1.length = .ok (c.2, l1) ∧ l1._size = l._size - 1 ∧
      l1.Rep (cs1 ++ cs2) := by
  rcases eq_nil_or_snoc cs1 with rfl | ⟨cs0, a, rfl⟩
  · exact Remove_Rep_head h
  · have h1 : l.Rep (cs0 ++ a :: c :: cs2) := by simpa using h
    obtain ⟨l1, k1, k2, k3⟩ := Remove_Rep_mid h1
    exact ⟨l1, by simpa using k1, k2, by simpa using k3⟩

end DoubleLinkedList

end RemoveMidLemmas

namespace DoubleLinkedList

variable {α : Type}

theorem Insert_reject (l : DoubleLinkedList α) (e : Option α) (p : Nat) (h : p > l._size) :
    l.Insert e p = .ok (false, l) := by
  simp only [Insert, if_pos h]

theorem Remove_reject (l : DoubleLinkedList α) (p : Nat) (h : p ≥ l._size) :
    l.Remove p = .ok (none, l) := by
  simp only [Remove, if_pos h]

theorem Rep_mk0 : (mk0 : DoubleLinkedList α).Rep [] :=
  ⟨rfl, List.nodup_nil, rfl⟩

theorem Insert_Rep_of_le {l : DoubleLinkedList α} {cs : List (Nat × Option α)}
    (e : Option α) (p : Nat) (h : l.Rep cs) (hp : p ≤ l._size) :
    ∃ l1, l.Insert e p = .ok (true, l1) ∧ l1._size = l._size + 1 ∧
      l1.Rep (cs.take p ++ (l.heap.length, e) :: cs.drop p) := by
  have h1 : l.Rep (cs.take p ++ cs.drop p) := by rw [List.take_append_drop]; exact h
  have hlen : (cs.take p).length = p := by
    rw [List.length_take, ← h.size_eq]
    omega
  have := Insert_Rep e h1
  rwa [hlen] at this

theorem Remove_Rep_of_lt {l : DoubleLinkedList α} {cs : List (Nat × Option α)}
    (p : Nat) (h : l.Rep cs) (hp : p < l._size) :
    ∃ l1, l.Remove p = .ok (cs[p]?.bind Prod.snd, l1) ∧ l1._size = l._size - 1 ∧
      l1.Rep (cs.take p ++ cs.drop (p + 1)) := by
  have hp1 : p < cs.length := by rw [← h.size_eq]; exact hp
  have hsplit : cs = cs.take p ++ cs[p] :: cs.drop (p + 1) := by
    rw [← List.drop_eq_getElem_cons hp1, List.take_append_drop]
  have h1 : l.Rep (cs.take p ++ cs[p] :: cs.drop (p + 1)) := by rw [← hsplit]; exact h
  have hlen : (cs.take p).length = p := by
    rw [List.length_take]
    omega
  have := Remove_Rep h1
  rw [hlen] at this
  rw [List.getElem?_eq_getElem hp1]
  exact this

theorem Reachable.rep {l : DoubleLinkedList α} (h : l.Reachable) : ∃ cs, l.Rep cs := by
  induction h with
  | empty => exact ⟨[], Rep_mk0⟩
  | @insert l l1 e p b _ hI ih =>
    obtain ⟨cs, hcs⟩ := ih
    by_cases hp : p > l._size
    · rw [Insert_reject l e p hp] at hI
      cases hI
      exact ⟨cs, hcs⟩
    · obtain ⟨l2, h2, -, hrep⟩ := Insert_Rep_of_le e p hcs (by omega)
      rw [h2] at hI
      cases hI
      exact ⟨_, hrep⟩
  | @remove l l1 p r _ hR ih =>
    obtain ⟨cs, hcs⟩ := ih
    by_cases hp : p ≥ l._size
    · rw [Remove_reject l p hp] at hR
      cases hR
      exact ⟨cs, hcs⟩
    · obtain ⟨l2, h2, -, hrep⟩ := Remove_Rep_of_lt p hcs (by omega)
      rw [h2] at hR
      cases hR
      exact ⟨_, hrep⟩

end DoubleLinkedList

/-- C3. `DoubleLinkedList::Insert` at a valid position: on a list reached from
the empty list by `Insert`/`Remove` calls, with `position ≤ _size`, `Insert`
returns `true`; afterwards the size is one more and the sequence read by `Get` is
the old one with the element inserted at `position`.  In particular
`Insert(x, 0); Insert(y, 0)` gives `{y, x}`, and after `Remove(0)` a following
`Insert(z, 1)` gives `{x, z}`. -/
theorem DoubleLinkedList_Insert_valid {α : Type} (l : DoubleLinkedList α) (e : Option α)
    (p : Nat) (hreach : l.Reachable) (hp : p ≤ l._size) :
    (∃ l1, l.Insert e p = .ok (true, l1) ∧ l1._size = l._size + 1 ∧
      l1.Get p = .ok e ∧
      (∀ i, i < p → l1.Get i = l.Get i) ∧
      (∀ i, p ≤ i → i < l._size → l1.Get (i + 1) = l.Get i)) ∧
    (∀ x y z : Option α,
      (do
        let (b1, l1) ← (DoubleLinkedList.mk0 : DoubleLinkedList α).Insert x 0
        let (b2, l2) ← l1.Insert y 0
        let order ← l2.toSeq
        pure (b1, b2, order)) = Except.ok (true, true, [y, x]) ∧
      (do
        let (_, l1) ← (DoubleLinkedList.mk0 : DoubleLinkedList α).Insert x 0
        let (_, l2) ← l1.Insert y 0
        let (_, l3) ← l2.Remove 0
        let (b4, l4) ← l3.Insert z 1
        let order ← l4.toSeq
        pure (b4, order)) = Except.ok (true, [x, z])) := by
  refine ⟨?_, fun x y z => ⟨rfl, rfl⟩⟩
  obtain ⟨cs, hcs⟩ := hreach.rep
  obtain ⟨l1, h1, h2, h3⟩ := DoubleLinkedList.Insert_Rep_of_le e p hcs hp
  have hpc : p ≤ cs.length := by rw [← hcs.size_eq]; exact hp
  have hlen : (cs.take p).length = p := by
    rw [List.length_take]
    omega
  refine ⟨l1, h1, h2, ?_, ?_, ?_⟩
  · have := DoubleLinkedList.Get_split h3
    rwa [hlen] at this
  · intro i hi
    rw [DoubleLinkedList.Get_of_Rep h3, DoubleLinkedList.Get_of_Rep hcs,
      List.getElem?_append_left (by omega), List.getElem?_take_of_lt hi]
  · intro i hpi hi
    rw [DoubleLinkedList.Get_of_Rep h3, DoubleLinkedList.Get_of_Rep hcs,
      List.getElem?_append_right (by omega), hlen]
    have : i + 1 - p = (i - p) + 1 := by omega
    rw [this, List.getElem?_cons_succ, List.getElem?_drop]
    congr 3
    omega

/-- C4. `DoubleLinkedList::Remove` at a valid position: on a list reached from
the empty list by `Insert`/`Remove` calls, with `position < _size`, `Remove`
returns what `Get(position)` returned before; afterwards the size is one less and
the sequence read by `Get` is the old one with index `position` deleted. -/
theorem DoubleLinkedList_Remove_valid {α : Type} (l : DoubleLinkedList α) (p : Nat)
    (hreach : l.Reachable) (hp : p < l._size) :
    ∃ r l1, l.Get p = .ok r ∧ l.Remove p = .ok (r, l1) ∧ l1._size = l._size - 1 ∧
      (∀ i, i < p → l1.Get i = l.Get i) ∧
      (∀ i, p ≤ i → i < l1._size → l1.Get i = l.Get (i + 1)) := by
  obtain ⟨cs, hcs⟩ := hreach.rep
  obtain ⟨l1, h1, h2, h3⟩ := DoubleLinkedList.Remove_Rep_of_lt p hcs hp
  have hpc : p < cs.length := by rw [← hcs.size_eq]; exact hp
  have hlen : (cs.take p).length = p := by
    rw [List.length_take]
    omega
  refine ⟨_, l1, DoubleLinkedList.Get_of_Rep hcs p, h1, h2, ?_, ?_⟩
  · intro i hi
    rw [DoubleLinkedList.Get_of_Rep h3, DoubleLinkedList.Get_of_Rep hcs,
      List.getElem?_append_left (by omega), List.getElem?_take_of_lt hi]
  · intro i hpi _
    rw [DoubleLinkedList.Get_of_Rep h3, DoubleLinkedList.Get_of_Rep hcs,
      List.getElem?_append_right (by omega), hlen, List.getElem?_drop]
    congr 3
    omega

section IndexOfLemmas
variable {α : Type} [Object α]

theorem VSArray.indexLoop_array_spec (s : VSArray α) (hinv : s.SlotInv) (e : α) :
    ∀ (n i : Nat), i + n = s._size →
      (∀ j, j < i → ∀ x, s.Get j = .ok (some x) → Object.Equals x e = false) →
      ∃ r, VSArray.indexLoop s._data (some e) i n = .ok (indexResult r) ∧
        FirstIndex s.Get s._size e r := by
  intro n
  induction n with
  | zero =>
    intro i hi hpre
    exact ⟨none, rfl, fun j hj => hpre j (by omega)⟩
  | succ n ih =>
    intro i hi hpre
    obtain ⟨x, hx⟩ := hinv.live i (by omega)
    have hget : s.Get i = .ok (some x) := by
      simp only [VSArray.Get, if_neg (show ¬ i ≥ s._size by omega), readSlot_of_getElem? hx]
    by_cases heq : Object.Equals x e = true
    · refine ⟨some i, ?_, ⟨by omega, ⟨x, hget, heq⟩, hpre⟩⟩
      simp only [VSArray.indexLoop, readSlot_of_getElem? hx, deref, okBind, heq, if_true,
        indexResult]
    · obtain ⟨r, hr, hfm⟩ := ih (i + 1) (by omega) (fun j hj y hy => by
        by_cases hji : j = i
        · subst hji
          have hxy : x = y := Option.some.inj (Except.ok.inj (hget.symm.trans hy))
          subst hxy
          simpa using heq
        · exact hpre j (by omega) y hy)
      refine ⟨r, ?_, hfm⟩
      simp only [VSArray.indexLoop, readSlot_of_getElem? hx, deref, okBind, heq]
      exact hr

omit [Object α] in
theorem nodup_length_le (xs : List Nat) (n : Nat) (hnd : xs.Nodup) (hlt : ∀ x ∈ xs, x < n) :
    xs.length ≤ n := by
  have hsub : xs ⊆ List.range n := fun x hx => List.mem_range.2 (hlt x hx)
  have := (List.subperm_of_subset hnd hsub).length_le
  simpa using this

omit [Object α] in
theorem DoubleLinkedList.Rep.length_le {l : DoubleLinkedList α} {cs : List (Nat × Option α)}
    (h : l.Rep cs) : cs.length ≤ l.heap.length := by
  have := nodup_length_le (cs.map Prod.fst) l.heap.length h.nodup (fun x hx => by
    obtain ⟨c, hc, rfl⟩ := List.mem_map.1 hx
    exact Seg_lt _ _ _ h.chain c hc)
  simpa using this

theorem DoubleLinkedList.indexLoop_list_spec (l : DoubleLinkedList α) (e : α)
    (hlive : ∀ i, i < l._size → ∃ x, l.Get i = .ok (some x)) :
    ∀ (cs2 cs1 : List (Nat × Option α)) (p : Option Nat) (fuel : Nat),
      l.Rep (cs1 ++ cs2) → Seg l.heap p cs2 none → cs2.length ≤ fuel →
      (∀ j, j < cs1.length → ∀ x, l.Get j = .ok (some x) → Object.Equals x e = false) →
      ∃ r, DoubleLinkedList.indexLoop l.heap (some e) fuel p cs1.length =
          .ok (indexResult r) ∧ FirstIndex l.Get l._size e r := by
  intro cs2
  induction cs2 with
  | nil =>
    intro cs1 p fuel hrep hseg _ hpre
    have hp : p = none := hseg
    subst hp
    have hsz : l._size = cs1.length := by simpa using hrep.size_eq
    refine ⟨none, ?_, fun j hj => hpre j (by omega)⟩
    cases fuel <;> rfl
  | cons c cs3 ih =>
    intro cs1 p fuel hrep hseg hfuel hpre
    obtain ⟨hp, nd, hnd, hdata, hrest⟩ := hseg
    subst hp
    obtain ⟨f, rfl⟩ : ∃ f, fuel = f + 1 := ⟨fuel - 1, by simp at hfuel; omega⟩
    have hsz : l._size = cs1.length + (cs3.length + 1) := by simpa using hrep.size_eq
    have hget := DoubleLinkedList.Get_split hrep
    obtain ⟨x, hx⟩ := hlive cs1.length (by omega)
    have hc2 : c.2 = some x := Except.ok.inj (hget.symm.trans hx)
    have hndx : nd.data = some x := by rw [hdata, hc2]
    by_cases heq : Object.Equals x e = true
    · refine ⟨some cs1.length, ?_, ⟨by omega, ⟨x, ?_, heq⟩, hpre⟩⟩
      · simp only [DoubleLinkedList.indexLoop, readNode_of_getElem? hnd, hndx, deref, okBind,
          heq, if_true, indexResult]
      · rw [hget, hc2]
    · have hrep1 : l.Rep ((cs1 ++ [c]) ++ cs3) := by simpa using hrep
      obtain ⟨r, hr, hfm⟩ := ih (cs1 ++ [c]) nd.next f hrep1 hrest
        (by simp at hfuel; omega) (fun j hj y hy => by
          by_cases hji : j = cs1.length
          · subst hji
            have hxy : x = y := Option.some.inj (Except.ok.inj
              ((hc2 ▸ hget).symm.trans hy))
            subst hxy
            simpa using heq
          · exact hpre j (by simp at hj; omega) y hy)
      refine ⟨r, ?_, hfm⟩
      simp only [DoubleLinkedList.indexLoop, readNode_of_getElem? hnd, hndx, deref, okBind, heq]
      simpa using hr

theorem FirstIndex_unique (get : Nat → Except Fault (Option α)) (n : Nat) (e : α)
    (r r1 : Option Nat) (h : FirstIndex get n e r) (h1 : FirstIndex get n e r1) : r = r1 := by
  cases r with
  | none =>
    cases r1 with
    | none => rfl
    | some i1 =>
      obtain ⟨hi1, ⟨x1, hx1, hm1⟩, -⟩ := h1
      have := h i1 hi1 x1 hx1
      rw [hm1] at this
      cases this
  | some i =>
    obtain ⟨hi, ⟨x, hx, hm⟩, hpre⟩ := h
    cases r1 with
    | none =>
      have := h1 i hi x hx
      rw [hm] at this
      cases this
    | some i1 =>
      obtain ⟨hi1, ⟨x1, hx1, hm1⟩, hpre1⟩ := h1
      rcases Nat.lt_trichotomy i i1 with hlt | heq | hgt
      · have := hpre1 i hlt x hx
        rw [hm] at this
        cases this
      · rw [heq]
      · have := hpre i1 hgt x1 hx1
        rw [hm1] at this
        cases this

omit [Object α] in
theorem intOfSizeT_of_lt (i : Nat) (h : i < 2147483648) : intOfSizeT i = (i : Int) := by
  unfold intOfSizeT
  rw [Nat.mod_eq_of_lt (by omega)]
  push_cast
  omega

theorem FirstMatch_of_FirstIndex (get : Nat → Except Fault (Option α)) (n : Nat) (e : α)
    (r : Option Nat) (hn : n ≤ 2147483648) (h : FirstIndex get n e r) :
    FirstMatch get n e (indexResult r) := by
  cases r with
  | none => exact Or.inl ⟨rfl, h⟩
  | some i =>
    obtain ⟨hi, hx, hpre⟩ := h
    exact Or.inr ⟨i, intOfSizeT_of_lt i (by omega), hi, hx, hpre⟩

/-- The scan passes over `k` slots whose elements do not equal the probe. -/
theorem VSArray.indexLoop_skip (d : List (Option α)) (e : α) (m : Nat) :
    ∀ (k i : Nat),
      (∀ j, i ≤ j → j < i + k → ∃ x, d[j]? = some (some x) ∧ Object.Equals x e = false) →
      VSArray.indexLoop d (some e) i (k + m) = VSArray.indexLoop d (some e) (i + k) m := by
  intro k
  induction k with
  | zero =>
    intro i _
    simp
  | succ k ih =>
    intro i h
    obtain ⟨x, hx, hne⟩ := h i (Nat.le_refl _) (by omega)
    have hstep : k + 1 + m = (k + m) + 1 := by omega
    rw [hstep]
    simp only [VSArray.indexLoop, readSlot_of_getElem? hx, deref, okBind, hne]
    rw [show i + (k + 1) = i + 1 + k by omega]
    exact ih (i + 1) (fun j hj1 hj2 => h j (by omega) (by omega))

end IndexOfLemmas


section RenderLemmas
variable {α : Type} [Object α]

omit [Object α] in
theorem intercalate_go_append (a s : String) :
    ∀ (ys : List String) (b : String),
      String.intercalate.go (a ++ b) s ys = a ++ String.intercalate.go b s ys := by
  intro ys
  induction ys with
  | nil =>
    intro b
    rfl
  | cons y ys ih =>
    intro b
    simp only [String.intercalate.go]
    rw [String.append_assoc, String.append_assoc, ih, String.append_assoc]

theorem DoubleLinkedList.renderLoop_list_spec (heap : List (Option (Node α))) :
    ∀ (cs : List (Nat × Option α)) (c : Nat × Option α) (xs : List α) (x : α)
      (acc : String) (fuel : Nat),
      Seg heap (some c.1) (c :: cs) none →
      (c :: cs).map Prod.snd = (x :: xs).map some → cs.length + 1 ≤ fuel →
      ∃ acc1 a nd y, DoubleLinkedList.renderLoop heap fuel acc (some c.1) = .ok (acc1, some a) ∧
        heap[a]? = some (some nd) ∧ nd.data = some y ∧
        acc1 ++ Object.ToString y =
          acc ++ String.intercalate.go (Object.ToString x) ", " (xs.map Object.ToString) := by
  intro cs
  induction cs with
  | nil =>
    intro c xs x acc fuel hseg hmap hfuel
    obtain ⟨-, nd, hnd, hdata, hrest⟩ := hseg
    obtain ⟨f, rfl⟩ : ∃ f, fuel = f + 1 := ⟨fuel - 1, by simp at hfuel; omega⟩
    have hnext : nd.next = none := hrest
    have hxs : xs = [] := by
      have := congrArg List.length hmap
      simp only [List.map_cons, List.map_nil, List.length_cons, List.length_nil,
        List.length_map] at this
      exact List.length_eq_zero.1 (by omega)
    subst hxs
    have hc2 : c.2 = some x := by simpa using hmap
    refine ⟨acc, c.1, nd, x, ?_, hnd, by rw [hdata, hc2], rfl⟩
    simp only [DoubleLinkedList.renderLoop, readNode_of_getElem? hnd, okBind, hnext, ne_eq,
      not_true_eq_false, if_false]
  | cons d cs ih =>
    intro c xs x acc fuel hseg hmap hfuel
    obtain ⟨-, nd, hnd, hdata, hrest⟩ := hseg
    obtain ⟨f, rfl⟩ : ∃ f, fuel = f + 1 := ⟨fuel - 1, by simp at hfuel; omega⟩
    have hnext : nd.next = some d.1 := hrest.1
    cases xs with
    | nil =>
      have := congrArg List.length hmap
      simp at this
    | cons x1 xs1 =>
      have hc2 : c.2 = some x := by
        have := congrArg List.head? hmap
        simpa using this
      have hmap1 : (d :: cs).map Prod.snd = (x1 :: xs1).map some := by
        have := congrArg List.tail hmap
        simpa using this
      have hseg1 : Seg heap (some d.1) (d :: cs) none := by
        rw [← hnext]
        exact hrest
      obtain ⟨acc1, a, nd1, y, h1, h2, h3, h4⟩ :=
        ih d xs1 x1 (acc ++ Object.ToString x ++ ", ") f hseg1 hmap1 (by simp at hfuel; omega)
      refine ⟨acc1, a, nd1, y, ?_, h2, h3, ?_⟩
      · have hdx : nd.data = some x := by rw [hdata, hc2]
        simp only [DoubleLinkedList.renderLoop, readNode_of_getElem? hnd, okBind, hnext, ne_eq,
          not_false_eq_true, if_true, hdx, deref, reduceCtorEq]
        exact h1
      · rw [h4]
        simp only [List.map_cons, String.intercalate.go]
        rw [String.append_assoc acc, String.append_assoc acc, intercalate_go_append]

end RenderLemmas

/-- C9. `DoubleLinkedList::ToString` format: on a non-empty list reached by
`Insert`/`Remove` calls whose forward sequence is the elements `xs`, `ToString`
returns `{`, the renderings of `xs` in order joined with `", "`, and `}`; the
list of Scenario C renders as `{x, z}`. -/
theorem DoubleLinkedList_ToString_format {α : Type} [Object α] (l : DoubleLinkedList α)
    (xs : List α) (hreach : l.Reachable) (hne : xs ≠ []) (hsz : l._size = xs.length)
    (hget : ∀ i, i < xs.length → l.Get i = .ok xs[i]?) :
    l.ToString = .ok ("\x7b" ++ ", ".intercalate (xs.map Object.ToString) ++ "\x7d") ∧
    (do
      let (_, l1) ← (DoubleLinkedList.mk0 : DoubleLinkedList String).Insert (some "x") 0
      let (_, l2) ← l1.Insert (some "y") 0
      let (_, l3) ← l2.Remove 0
      let (_, l4) ← l3.Insert (some "z") 1
      l4.ToString) = Except.ok "\x7bx, z\x7d" := by
  refine ⟨?_, rfl⟩
  obtain ⟨cs, hcs⟩ := hreach.rep
  have hlen : cs.length = xs.length := by rw [← hcs.size_eq, hsz]
  have hmap : cs.map Prod.snd = xs.map some := by
    apply List.ext_getElem?
    intro i
    by_cases hi : i < xs.length
    · have h1 := DoubleLinkedList.Get_of_Rep hcs i
      rw [hget i hi] at h1
      have h2 := Except.ok.inj h1
      rw [List.getElem?_map, List.getElem?_map]
      rw [List.getElem?_eq_getElem (show i < cs.length by omega)] at h2 ⊢
      rw [List.getElem?_eq_getElem hi] at h2 ⊢
      have h3 : cs[i].2 = some xs[i] := h2.symm
      simp only [Option.map_some', h3]
    · rw [List.getElem?_eq_none (by simp; omega), List.getElem?_eq_none (by simp; omega)]
  cases cs with
  | nil =>
    exact absurd (List.length_eq_zero.1 hlen.symm) hne
  | cons c cs =>
    cases xs with
    | nil => exact absurd rfl hne
    | cons x xs =>
      have hhead : l._head = some c.1 := hcs.chain.1
      have hseg : Seg l.heap (some c.1) (c :: cs) none := by
        rw [← hhead]
        exact hcs.chain
      obtain ⟨acc1, a, nd, y, h1, h2, h3, h4⟩ :=
        DoubleLinkedList.renderLoop_list_spec l.heap cs c xs x "\x7b" (l.heap.length + 1) hseg hmap
          (by have := hcs.length_le; simp at this; omega)
      simp only [DoubleLinkedList.ToString, hhead, h1, okBind, readNode_of_getElem? h2, h3,
        deref, h4]
      rfl

section DoubleLemmas

theorem roundHalfEven_intCast (n : ℤ) : roundHalfEven (n : ℚ) = n := by
  simp [roundHalfEven]

theorem roundHalfEven_tie (f : ℤ) :
    roundHalfEven ((f : ℚ) + 1 / 2) = if f % 2 = 0 then f else f + 1 := by
  have hf : ⌊(f : ℚ) + 1 / 2⌋ = f := by
    rw [Int.floor_eq_iff]
    constructor <;> norm_num
  have h1 : ¬ ((f : ℚ) + 1 / 2 - (f : ℚ) < 1 / 2) := by norm_num
  have h2 : ¬ ((1 : ℚ) / 2 < (f : ℚ) + 1 / 2 - (f : ℚ)) := by norm_num
  simp only [roundHalfEven, hf]
  rw [if_neg h1, if_neg h2]

theorem log_two_eq (q : ℚ) (k : ℤ) (h1 : (2 : ℚ) ^ k ≤ |q|) (h2 : |q| < (2 : ℚ) ^ (k + 1)) :
    Int.log 2 |q| = k := by
  have hpos : (0 : ℚ) < |q| := lt_of_lt_of_le (by positivity) h1
  have a : k ≤ Int.log 2 |q| :=
    (Int.zpow_le_iff_le_log (by norm_num : 1 < 2) hpos).1 (by exact_mod_cast h1)
  have b : Int.log 2 |q| < k + 1 :=
    (Int.lt_zpow_iff_log_lt (by norm_num : 1 < 2) hpos).1 (by exact_mod_cast h2)
  omega

/-- A number `m * 2 ^ e` with `|m| < 2 ^ 53` and `e` not below the exponent of
the subnormal numbers is a `double`: rounding leaves it unchanged. -/
theorem roundDouble_of_repr (q : ℚ) (m e : ℤ) (hq : q = (m : ℚ) * (2 : ℚ) ^ e)
    (hm : |m| < 2 ^ 53) (he : -1074 ≤ e) : roundDouble q = q := by
  by_cases h0 : q = 0
  · simp [roundDouble, h0]
  have h2pos : ∀ z : ℤ, (0 : ℚ) < (2 : ℚ) ^ z := fun z => by positivity
  have hqabs : |q| = (|m| : ℤ) * (2 : ℚ) ^ e := by
    rw [hq, abs_mul, abs_of_pos (h2pos e)]
    push_cast
    rfl
  have hpos : (0 : ℚ) < |q| := abs_pos.2 h0
  have hlt : |q| < (2 : ℚ) ^ (53 + e) := by
    rw [hqabs, zpow_add₀ (by norm_num : (2 : ℚ) ≠ 0)]
    have : ((|m| : ℤ) : ℚ) < (2 : ℚ) ^ (53 : ℤ) := by
      have h : ((|m| : ℤ) : ℚ) < ((2 ^ 53 : ℤ) : ℚ) := Int.cast_lt.2 hm
      norm_num at h ⊢
      exact h
    exact mul_lt_mul_of_pos_right this (h2pos e)
  have hlog : Int.log 2 |q| < 53 + e :=
    (Int.lt_zpow_iff_log_lt (by norm_num : 1 < 2) hpos).1 (by exact_mod_cast hlt)
  obtain ⟨E, hE⟩ : ∃ E, E = max (Int.log 2 |q| - 52) (-1074) := ⟨_, rfl⟩
  have hEe : E ≤ e := by
    rw [hE]
    exact max_le (by omega) he
  obtain ⟨k, hk⟩ : ∃ k : ℕ, e - E = (k : ℤ) := ⟨(e - E).toNat, by omega⟩
  have hdiv : q / (2 : ℚ) ^ E = ((m * 2 ^ k : ℤ) : ℚ) := by
    have he2 : e = E + k := by omega
    rw [hq, he2, zpow_add₀ (by norm_num : (2 : ℚ) ≠ 0)]
    field_simp
    ring
  simp only [roundDouble, if_neg h0, ← hE, hdiv, roundHalfEven_intCast]
  rw [← hdiv]
  field_simp

theorem roundDouble_natCast (n : ℕ) (h : n < 2 ^ 53) : roundDouble (n : ℚ) = n :=
  roundDouble_of_repr (n : ℚ) (n : ℤ) 0 (by simp) (by
    rw [abs_of_nonneg (Int.natCast_nonneg n)]
    exact_mod_cast h) (by norm_num)

/-- The rounding of a number whose binary exponent `k` is known. -/
theorem roundDouble_of_binade (q : ℚ) (k : ℤ) (h1 : (2 : ℚ) ^ k ≤ |q|)
    (h2 : |q| < (2 : ℚ) ^ (k + 1)) (hk : -1022 ≤ k) :
    roundDouble q = (roundHalfEven (q / (2 : ℚ) ^ (k - 52)) : ℚ) * (2 : ℚ) ^ (k - 52) := by
  have hpos : (0 : ℚ) < |q| := lt_of_lt_of_le (by positivity) h1
  have h0 : q ≠ 0 := abs_pos.1 hpos
  have hmax : max (k - 52) (-1074 : ℤ) = k - 52 := max_eq_left (by omega)
  simp only [roundDouble, if_neg h0, log_two_eq q k h1 h2, hmax]

namespace VSArray

/-- When neither the conversion of the capacity, nor the product, nor the sum
rounds, the `double` value is the exact one. -/
theorem grownValue_exact (delta : ℚ) (c : Nat) (hc : roundDouble (c : ℚ) = c)
    (hp : roundDouble (delta * (c : ℚ)) = delta * (c : ℚ))
    (hs : roundDouble ((c : ℚ) + delta * (c : ℚ)) = (c : ℚ) + delta * (c : ℚ)) :
    grownValue delta c = (c : ℚ) + delta * (c : ℚ) := by
  simp only [grownValue, hc, hp, hs]

theorem grownCapacity_of_value (delta : ℚ) (c : Nat) (v : ℚ) (hv : grownValue delta c = v)
    (h1 : -1 < v) (h2 : v < (SIZE_MOD : ℚ)) :
    grownCapacity delta c = .ok (Int.toNat ⌊v⌋) := by
  have hno : ¬ (v ≤ -1 ∨ (SIZE_MOD : ℚ) ≤ v) := by
    rintro (h | h) <;> linarith
  simp only [grownCapacity, hv, if_neg hno]

theorem grownCapacity_ok (delta : ℚ) (c c1 : Nat) (h : grownCapacity delta c = .ok c1) :
    c1 = Int.toNat ⌊grownValue delta c⌋ := by
  unfold grownCapacity at h
  by_cases hno : grownValue delta c ≤ -1 ∨ (SIZE_MOD : ℚ) ≤ grownValue delta c
  · simp only [if_pos hno] at h
    cases h
  · simp only [if_neg hno] at h
    exact (Except.ok.inj h).symm

theorem grownValue_half_two : grownValue (1 / 2) 2 = 3 := by
  rw [grownValue_exact]
  · norm_num
  · exact roundDouble_of_repr _ 2 0 (by norm_num) (by norm_num) (by norm_num)
  · exact roundDouble_of_repr _ 1 0 (by norm_num) (by norm_num) (by norm_num)
  · exact roundDouble_of_repr _ 3 0 (by norm_num) (by norm_num) (by norm_num)

theorem grownCapacity_half_two : grownCapacity (1 / 2) 2 = .ok 3 := by
  rw [grownCapacity_of_value _ _ 3 grownValue_half_two (by norm_num) (by norm_num [SIZE_MOD])]
  norm_num
  rfl

theorem grownValue_half_one : grownValue (1 / 2) 1 = 3 / 2 := by
  rw [grownValue_exact]
  · norm_num
  · exact roundDouble_of_repr _ 1 0 (by norm_num) (by norm_num) (by norm_num)
  · exact roundDouble_of_repr _ 1 (-1) (by norm_num) (by norm_num) (by norm_num)
  · exact roundDouble_of_repr _ 3 (-1) (by norm_num) (by norm_num) (by norm_num)

theorem grownCapacity_half_one : grownCapacity (1 / 2) 1 = .ok 1 := by
  rw [grownCapacity_of_value _ _ (3 / 2) grownValue_half_one (by norm_num)
    (by norm_num [SIZE_MOD])]
  have h : ⌊(3 / 2 : ℚ)⌋ = 1 := by
    rw [Int.floor_eq_iff]
    norm_num
  rw [h]
  rfl

theorem grownValue_factor_one (c : Nat) (hc : c < 2 ^ 52) :
    grownValue 1 c = ((c + c : Nat) : ℚ) := by
  rw [grownValue_exact]
  · push_cast
    ring
  · exact roundDouble_natCast c (by omega)
  · rw [one_mul]
    exact roundDouble_natCast c (by omega)
  · have h : (c : ℚ) + 1 * (c : ℚ) = ((c + c : Nat) : ℚ) := by
      push_cast
      ring
    rw [h]
    exact roundDouble_natCast (c + c) (by omega)

theorem grownCapacity_factor_one (c : Nat) (hc : c < 2 ^ 52) :
    grownCapacity 1 c = .ok (c + c) := by
  have h2 : ((c + c : Nat) : ℚ) < (SIZE_MOD : ℚ) := by
    have : c + c < SIZE_MOD := by
      simp only [SIZE_MOD]
      omega
    exact_mod_cast this
  have h1 : (-1 : ℚ) < ((c + c : Nat) : ℚ) := by
    have : (0 : ℚ) ≤ ((c + c : Nat) : ℚ) := Nat.cast_nonneg _
    linarith
  rw [grownCapacity_of_value _ _ _ (grownValue_factor_one c hc) h1 h2, Int.floor_natCast,
    Int.toNat_natCast]

/-- The growth factor `2 - 2 ^ (-52)`, the `double` next below 2, with capacity
1: the product is exact, the sum `3 - 2 ^ (-52)` lies halfway between two
`double`s and rounds to 3. -/
theorem grownValue_round :
    grownValue (9007199254740991 / 4503599627370496) 1 = 3 := by
  have h1 : roundDouble ((1 : Nat) : ℚ) = 1 := by
    simpa using roundDouble_natCast 1 (by norm_num)
  have h2 : roundDouble (9007199254740991 / 4503599627370496 * 1) =
      9007199254740991 / 4503599627370496 :=
    (roundDouble_of_repr _ 9007199254740991 (-52) (by norm_num) (by norm_num)
      (by norm_num)).trans (by norm_num)
  have h3 : roundDouble (1 + 9007199254740991 / 4503599627370496) = 3 := by
    rw [roundDouble_of_binade _ 1 (by norm_num [abs_of_pos]) (by norm_num [abs_of_pos])
      (by norm_num)]
    have h : (1 + 9007199254740991 / 4503599627370496 : ℚ) / (2 : ℚ) ^ ((1 : ℤ) - 52)
        = ((6755399441055743 : ℤ) : ℚ) + 1 / 2 := by norm_num
    rw [h, roundHalfEven_tie]
    norm_num
  simp only [grownValue, h1, h2, h3]

theorem grownCapacity_round :
    grownCapacity (9007199254740991 / 4503599627370496) 1 = .ok 3 := by
  rw [grownCapacity_of_value _ _ 3 grownValue_round (by norm_num) (by norm_num [SIZE_MOD])]
  norm_num
  rfl

end VSArray

end DoubleLemmas

theorem VSArray.demoFull_inv : VSArray.demoFull.SlotInv := by
  refine ⟨rfl, Nat.le_refl _, fun i hi => ?_, fun i h1 h2 => ?_⟩
  · have hi2 : i < 2 := hi
    interval_cases i
    · exact ⟨"a", rfl⟩
    · exact ⟨"b", rfl⟩
  · have h3 : 2 ≤ i := h1
    have h4 : i < 2 := h2
    omega

theorem VSArray.demoABC_inv : VSArray.demoABC.SlotInv := by
  refine ⟨rfl, Nat.le_refl _, fun i hi => ?_, fun i h1 h2 => ?_⟩
  · have hi2 : i < 3 := hi
    interval_cases i
    · exact ⟨"a", rfl⟩
    · exact ⟨"b", rfl⟩
    · exact ⟨"c", rfl⟩
  · have h3 : 3 ≤ i := h1
    have h4 : i < 3 := h2
    omega

theorem DoubleLinkedList.demoYX_reachable : DoubleLinkedList.demoYX.Reachable :=
  DoubleLinkedList.Reachable.insert
    (DoubleLinkedList.Reachable.insert DoubleLinkedList.Reachable.empty
      (rfl : DoubleLinkedList.mk0.Insert (some "x") 0 = .ok (true, DoubleLinkedList.demoX)))
    (rfl : DoubleLinkedList.demoX.Insert (some "y") 0 = .ok (true, DoubleLinkedList.demoYX))

theorem VSArray.demoFull_Resize : (VSArray.demoFull).Resize =
    .ok { _data := [some "a", some "b", none], _size := 2, _capacity := 3, _delta := 1 / 2 } := by
  simp only [VSArray.Resize, VSArray.demoFull, VSArray.grownCapacity_half_two, okBind]
  rfl

theorem VSArray.scenarioA_eq : VSArray.scenarioA = .ok VSArray.demoABC := by
  have h3 := VSArray.demoFull_Resize
  have i1 : (VSArray.mk0 2 (1 / 2) : VSArray String).Insert (some "a") 0 =
      .ok (true, { _data := [some "a", none], _size := 1, _capacity := 2, _delta := 1 / 2 }) := by
    rfl
  have i2 : ({ _data := [some "a", none], _size := 1, _capacity := 2, _delta := 1 / 2 } :
      VSArray String).Insert (some "b") 1 = .ok (true, VSArray.demoFull) := by
    rfl
  have i3 : VSArray.demoFull.Insert (some "c") 2 = .ok (true, VSArray.demoABC) := by
    unfold VSArray.Insert
    rw [if_neg (by decide), if_pos (show VSArray.demoFull._size = VSArray.demoFull._capacity from rfl), h3]
    rfl
  simp only [VSArray.scenarioA, i1, i2, i3, okBind, pureOk]

/-- C5. Out-of-range insert is rejected atomically in both containers: for every
array state and every list state, `Insert` at a position above `_size` returns
`false` and the container is left exactly as it was (no resize, even when the
array is full). -/
theorem Insert_out_of_range {α : Type} (s : VSArray α) (l : DoubleLinkedList α)
    (e : Option α) (p q : Nat) (hp : p > s._size) (hq : q > l._size) :
    s.Insert e p = .ok (false, s) ∧ l.Insert e q = .ok (false, l) := by
  constructor
  · simp only [VSArray.Insert, if_pos hp]
  · exact DoubleLinkedList.Insert_reject l e q hq

/-- C6. Out-of-range remove is rejected atomically in both containers: for
every array state and every list state, `Remove` at a position not below `_size`
returns `nullptr` and the container is left exactly as it was. -/
theorem Remove_out_of_range {α : Type} (s : VSArray α) (l : DoubleLinkedList α)
    (p q : Nat) (hp : p ≥ s._size) (hq : q ≥ l._size) :
    s.Remove p = .ok (none, s) ∧ l.Remove q = .ok (none, l) := by
  constructor
  · simp only [VSArray.Remove, if_pos hp]
  · exact DoubleLinkedList.Remove_reject l q hq

/-- C7. `VSArray::ToString` on the array of Scenario A (`a`, `b`, `c` inserted
at 0, 1, 2 into an array of capacity 2 and growth 0.5): the loop writes the
renderings with no separator, so the result is `{abc}` and not `{a, b, c}`. -/
theorem VSArray_ToString_scenarioA :
    (VSArray.scenarioA >>= fun s => s.ToString) = Except.ok "\x7babc\x7d" ∧
    (VSArray.scenarioA >>= fun s => s.ToString) ≠ Except.ok "\x7ba, b, c\x7d" := by
  have h : (VSArray.scenarioA >>= fun s => s.ToString) = Except.ok "\x7babc\x7d" := by
    rw [VSArray.scenarioA_eq]
    rfl
  refine ⟨h, ?_⟩
  rw [h]
  intro hc
  exact absurd (Except.ok.inj hc) (by decide)

/-- C8. `ToString` of an empty container: on a freshly constructed array of any
capacity the loop bound `_size - 1` wraps and the first iteration dereferences
slot 0, which is `nullptr` (or lies outside the block when the capacity is 0);
on a list whose head is `nullptr` the loop condition dereferences the head.
Neither call returns `{}`. -/
theorem ToString_empty_faults {α : Type} [Object α] (capacity : Nat) (delta : ℚ)
    (heap : List (Option (Node α))) (tail : Option Nat) (size : Nat) :
    (VSArray.mk0 capacity delta : VSArray α).ToString =
      .error (if capacity = 0 then Fault.outOfBounds else Fault.nullDeref) ∧
    ({ heap := heap, _head := none, _tail := tail, _size := size } :
      DoubleLinkedList α).ToString = .error Fault.nullDeref := by
  constructor
  · have hsub : subSizeT 0 1 = 18446744073709551614 + 1 := by
      simp [subSizeT, SIZE_MOD]
    have hstep : ∀ (d : List (Option α)) (k : Nat),
        VSArray.renderLoop d "\x7b" 0 (k + 1) =
          (readSlot d 0 >>= fun p => deref p >>= fun o =>
            VSArray.renderLoop d ("\x7b" ++ Object.ToString o) (0 + 1) k) := fun _ _ => rfl
    unfold VSArray.ToString
    have hsize : (VSArray.mk0 capacity delta : VSArray α)._size = 0 := rfl
    rw [hsize, hsub, hstep]
    cases capacity with
    | zero => rfl
    | succ n =>
      have hdata : (VSArray.mk0 (n + 1) delta : VSArray α)._data =
          (none : Option α) :: List.replicate n none := rfl
      have hread : readSlot ((none : Option α) :: List.replicate n none) 0 = .ok none := by
        simp [readSlot]
      rw [if_neg (Nat.succ_ne_zero n), hdata, hread]
      rfl
  · simp only [DoubleLinkedList.ToString, DoubleLinkedList.renderLoop]
    rfl

/-- Witness for C1: inserting `c` at position 1 of the full array `a`, `b`
(capacity 2, growth 0.5), which goes through `Resize`. -/
theorem VSArray_Insert_valid_witness :
    VSArray.demoFull.SlotInv ∧ 1 ≤ VSArray.demoFull._size ∧
    (VSArray.demoFull._size < VSArray.demoFull._capacity ∨
      ∃ c, VSArray.grownCapacity VSArray.demoFull._delta VSArray.demoFull._capacity = .ok c ∧
        VSArray.demoFull._capacity < c) ∧
    ∃ s1, VSArray.demoFull.Insert (some "c") 1 = .ok (true, s1) ∧
      s1._size = VSArray.demoFull._size + 1 ∧
      s1.Get 1 = .ok (some "c") ∧
      (∀ i, i < 1 → s1.Get i = VSArray.demoFull.Get i) ∧
      (∀ i, 1 ≤ i → i < VSArray.demoFull._size → s1.Get (i + 1) = VSArray.demoFull.Get i) :=
  ⟨VSArray.demoFull_inv, by decide,
    Or.inr ⟨3, VSArray.grownCapacity_half_two, by decide⟩,
    VSArray_Insert_valid VSArray.demoFull (some "c") 1 VSArray.demoFull_inv (by decide)
      (Or.inr ⟨3, VSArray.grownCapacity_half_two, by decide⟩)⟩

/-- Witness for C2: removing position 1 of the array `a`, `b`, `c`. -/
theorem VSArray_Remove_valid_witness :
    VSArray.demoABC.SlotInv ∧ 1 < VSArray.demoABC._size ∧
    ∃ x s1, VSArray.demoABC.Get 1 = .ok (some x) ∧
      VSArray.demoABC.Remove 1 = .ok (some x, s1) ∧
      s1._size = VSArray.demoABC._size - 1 ∧
      (∀ i, i < 1 → s1.Get i = VSArray.demoABC.Get i) ∧
      (∀ i, 1 ≤ i → i < s1._size → s1.Get i = VSArray.demoABC.Get (i + 1)) ∧
      s1._data[VSArray.demoABC._size - 1]? = some none ∧
      s1._capacity = VSArray.demoABC._capacity :=
  ⟨VSArray.demoABC_inv, by decide,
    VSArray_Remove_valid VSArray.demoABC 1 VSArray.demoABC_inv (by decide)⟩

/-- Witness for C3: inserting `z` at position 1 of the list `y`, `x`. -/
theorem DoubleLinkedList_Insert_valid_witness :
    DoubleLinkedList.demoYX.Reachable ∧ 1 ≤ DoubleLinkedList.demoYX._size ∧
    ∃ l1, DoubleLinkedList.demoYX.Insert (some "z") 1 = .ok (true, l1) ∧
      l1._size = DoubleLinkedList.demoYX._size + 1 ∧
      l1.Get 1 = .ok (some "z") ∧
      (∀ i, i < 1 → l1.Get i = DoubleLinkedList.demoYX.Get i) ∧
      (∀ i, 1 ≤ i → i < DoubleLinkedList.demoYX._size →
        l1.Get (i + 1) = DoubleLinkedList.demoYX.Get i) :=
  ⟨DoubleLinkedList.demoYX_reachable, by decide,
    (DoubleLinkedList_Insert_valid DoubleLinkedList.demoYX (some "z") 1
      DoubleLinkedList.demoYX_reachable (by decide)).1⟩

/-- Witness for C4: removing position 1 of the list `y`, `x`. -/
theorem DoubleLinkedList_Remove_valid_witness :
    DoubleLinkedList.demoYX.Reachable ∧ 1 < DoubleLinkedList.demoYX._size ∧
    ∃ r l1, DoubleLinkedList.demoYX.Get 1 = .ok r ∧
      DoubleLinkedList.demoYX.Remove 1 = .ok (r, l1) ∧
      l1._size = DoubleLinkedList.demoYX._size - 1 ∧
      (∀ i, i < 1 → l1.Get i = DoubleLinkedList.demoYX.Get i) ∧
      (∀ i, 1 ≤ i → i < l1._size → l1.Get i = DoubleLinkedList.demoYX.Get (i + 1)) :=
  ⟨DoubleLinkedList.demoYX_reachable, by decide,
    DoubleLinkedList_Remove_valid DoubleLinkedList.demoYX 1
      DoubleLinkedList.demoYX_reachable (by decide)⟩

/-- Witness for C5: position 3 on the full two-element array and on the
two-element list. -/
theorem Insert_out_of_range_witness :
    3 > VSArray.demoFull._size ∧ 3 > DoubleLinkedList.demoYX._size ∧
    VSArray.demoFull.Insert (some "c") 3 = .ok (false, VSArray.demoFull) ∧
    DoubleLinkedList.demoYX.Insert (some "c") 3 = .ok (false, DoubleLinkedList.demoYX) :=
  ⟨by decide, by decide,
    Insert_out_of_range VSArray.demoFull DoubleLinkedList.demoYX (some "c") 3 3
      (by decide) (by decide)⟩

/-- Witness for C6: position 2 on the two-element array and on the two-element
list. -/
theorem Remove_out_of_range_witness :
    2 ≥ VSArray.demoFull._size ∧ 2 ≥ DoubleLinkedList.demoYX._size ∧
    VSArray.demoFull.Remove 2 = .ok (none, VSArray.demoFull) ∧
    DoubleLinkedList.demoYX.Remove 2 = .ok (none, DoubleLinkedList.demoYX) :=
  ⟨by decide, by decide,
    Remove_out_of_range VSArray.demoFull DoubleLinkedList.demoYX 2 2 (by decide) (by decide)⟩

theorem DoubleLinkedList.demoYX_get :
    ∀ i, i < ["y", "x"].length → DoubleLinkedList.demoYX.Get i = .ok (["y", "x"])[i]? := by
  intro i hi
  have hi2 : i < 2 := hi
  interval_cases i
  · rfl
  · rfl

/-- Witness for C9: the list `y`, `x`. -/
theorem DoubleLinkedList_ToString_format_witness :
    DoubleLinkedList.demoYX.Reachable ∧ ["y", "x"] ≠ [] ∧
    DoubleLinkedList.demoYX._size = ["y", "x"].length ∧
    (∀ i, i < ["y", "x"].length → DoubleLinkedList.demoYX.Get i = .ok (["y", "x"])[i]?) ∧
    DoubleLinkedList.demoYX.ToString =
      .ok ("\x7b" ++ ", ".intercalate (["y", "x"].map Object.ToString) ++ "\x7d") :=
  ⟨DoubleLinkedList.demoYX_reachable, by decide, rfl, DoubleLinkedList.demoYX_get,
    (DoubleLinkedList_ToString_format DoubleLinkedList.demoYX ["y", "x"]
      DoubleLinkedList.demoYX_reachable (by decide) rfl DoubleLinkedList.demoYX_get).1⟩

theorem DoubleLinkedList.demoYX_live :
    ∀ i, i < DoubleLinkedList.demoYX._size →
      ∃ x, DoubleLinkedList.demoYX.Get i = .ok (some x) := by
  intro i hi
  have hi2 : i < 2 := hi
  interval_cases i
  · exact ⟨"y", rfl⟩
  · exact ⟨"x", rfl⟩

/-- C10 (as amended). `IndexOf` returns the first match: on an array satisfying
the slot invariant and on a list reached by `Insert`/`Remove` calls whose stored
pointers are elements (not `nullptr`), each with at most `2 ^ 31` elements,
`IndexOf(probe)` returns the least index whose stored element `Equals` the probe
and returns `-1` exactly when no stored element does; on an empty container it
returns `-1` for every probe pointer. -/
theorem IndexOf_first_match {α : Type} [Object α] (s : VSArray α) (l : DoubleLinkedList α)
    (e : α) (hinv : s.SlotInv) (hreach : l.Reachable)
    (hlive : ∀ i, i < l._size → ∃ x, l.Get i = .ok (some x))
    (hs : s._size ≤ 2147483648) (hl : l._size ≤ 2147483648) :
    (∃ r, s.IndexOf (some e) = .ok r ∧ FirstMatch s.Get s._size e r) ∧
    (∃ r, l.IndexOf (some e) = .ok r ∧ FirstMatch l.Get l._size e r) ∧
    (∀ probe : Option α, s._size = 0 → s.IndexOf probe = .ok (-1)) ∧
    (∀ probe : Option α, l._size = 0 → l.IndexOf probe = .ok (-1)) := by
  obtain ⟨cs, hcs⟩ := hreach.rep
  refine ⟨?_, ?_, ?_, ?_⟩
  · obtain ⟨r, h1, h2⟩ :=
      VSArray.indexLoop_array_spec s hinv e s._size 0 (by omega) (fun j hj => by omega)
    exact ⟨indexResult r, h1, FirstMatch_of_FirstIndex s.Get s._size e r hs h2⟩
  · obtain ⟨r, h1, h2⟩ :=
      DoubleLinkedList.indexLoop_list_spec l e hlive cs [] l._head (l.heap.length + 1)
        (by simpa using hcs) hcs.chain (by have := hcs.length_le; omega)
        (fun j hj => by simp at hj)
    exact ⟨indexResult r, by simpa [DoubleLinkedList.IndexOf] using h1,
      FirstMatch_of_FirstIndex l.Get l._size e r hl h2⟩
  · intro probe h0
    simp only [VSArray.IndexOf, h0]
    rfl
  · intro probe h0
    have hnil : cs = [] := List.length_eq_zero.1 (by rw [← hcs.size_eq]; exact h0)
    subst hnil
    have hhead : l._head = none := hcs.chain
    simp only [DoubleLinkedList.IndexOf, hhead]
    rfl

/-- Witness for C10: the probe `b` on the array `a`, `b` is found at index 1, and
the probe `x` on the list `y`, `x` is found at index 1. -/
theorem IndexOf_first_match_witness :
    VSArray.demoFull.SlotInv ∧ DoubleLinkedList.demoYX.Reachable ∧
    (∀ i, i < DoubleLinkedList.demoYX._size →
      ∃ x, DoubleLinkedList.demoYX.Get i = .ok (some x)) ∧
    VSArray.demoFull._size ≤ 2147483648 ∧ DoubleLinkedList.demoYX._size ≤ 2147483648 ∧
    (∃ r, VSArray.demoFull.IndexOf (some "b") = .ok r ∧
      FirstMatch VSArray.demoFull.Get VSArray.demoFull._size "b" r) ∧
    (∃ r, DoubleLinkedList.demoYX.IndexOf (some "x") = .ok r ∧
      FirstMatch DoubleLinkedList.demoYX.Get DoubleLinkedList.demoYX._size "x" r) ∧
    VSArray.demoFull.IndexOf (some "b") = .ok 1 ∧
    DoubleLinkedList.demoYX.IndexOf (some "x") = .ok 1 :=
  ⟨VSArray.demoFull_inv, DoubleLinkedList.demoYX_reachable, DoubleLinkedList.demoYX_live,
    by decide, by decide,
    (IndexOf_first_match VSArray.demoFull DoubleLinkedList.demoYX "b" VSArray.demoFull_inv
      DoubleLinkedList.demoYX_reachable DoubleLinkedList.demoYX_live (by decide)
      (by decide)).1,
    (IndexOf_first_match VSArray.demoFull DoubleLinkedList.demoYX "x" VSArray.demoFull_inv
      DoubleLinkedList.demoYX_reachable DoubleLinkedList.demoYX_live (by decide)
      (by decide)).2.1,
    rfl, rfl⟩

theorem VSArray.demoLong_front (n j : Nat) (hj : j < n) :
    (VSArray.demoLong n)._data[j]? = some (some "a") := by
  simp only [VSArray.demoLong]
  rw [List.getElem?_append_left (by simpa using hj), List.getElem?_replicate, if_pos hj]

theorem VSArray.demoLong_last (n : Nat) :
    (VSArray.demoLong n)._data[n]? = some (some "b") := by
  simp only [VSArray.demoLong]
  rw [List.getElem?_append_right (by simp)]
  simp

theorem VSArray.demoLong_inv (n : Nat) : (VSArray.demoLong n).SlotInv := by
  refine ⟨by simp [VSArray.demoLong], Nat.le_refl _, fun i hi => ?_, fun i h1 h2 => ?_⟩
  · have hi1 : i < n + 1 := hi
    by_cases hin : i < n
    · exact ⟨"a", VSArray.demoLong_front n i hin⟩
    · have : i = n := by omega
      subst this
      exact ⟨"b", VSArray.demoLong_last i⟩
  · have h3 : n + 1 ≤ i := h1
    have h4 : i < n + 1 := h2
    omega

theorem VSArray.demoLong_IndexOf (n : Nat) :
    (VSArray.demoLong n).IndexOf (some "b") = .ok (intOfSizeT n) := by
  have hskip := VSArray.indexLoop_skip (VSArray.demoLong n)._data "b" 1 n 0
    (fun j _ hj => ⟨"a", VSArray.demoLong_front n j (by omega), by decide⟩)
  have hsize : (VSArray.demoLong n)._size = n + 1 := rfl
  rw [VSArray.IndexOf, hsize, hskip, Nat.zero_add]
  have heq : Object.Equals "b" "b" = true := by decide
  simp only [VSArray.indexLoop, readSlot_of_getElem? (VSArray.demoLong_last n), deref, okBind,
    heq, if_true]

/-- Counterexample for C10. After `Insert(nullptr, 0)`, which both containers
accept, the container has size 1 and `IndexOf` of any probe dereferences
`nullptr`: no index is returned.  And on the array of `2 ^ 31 + 1` elements whose
only element equal to the probe `b` is the last one, at index `2 ^ 31`, the index
found is returned as the `int` `-2147483648`, which is neither that index nor
`-1`. -/
theorem IndexOf_first_match_counterexample :
    (∃ s : VSArray String,
      (VSArray.mk0 1 (1 / 2) : VSArray String).Insert none 0 = .ok (true, s) ∧
      s._size = 1 ∧ s.IndexOf (some "a") = .error Fault.nullDeref) ∧
    (∃ l : DoubleLinkedList String,
      (DoubleLinkedList.mk0 : DoubleLinkedList String).Insert none 0 = .ok (true, l) ∧
      l._size = 1 ∧ l.IndexOf (some "a") = .error Fault.nullDeref) ∧
    ((VSArray.demoLong 2147483648).SlotInv ∧
      (VSArray.demoLong 2147483648).Get 2147483648 = .ok (some "b") ∧
      (∀ j, j < 2147483648 → (VSArray.demoLong 2147483648).Get j = .ok (some "a")) ∧
      (VSArray.demoLong 2147483648).IndexOf (some "b") = .ok (-2147483648)) := by
  refine ⟨⟨_, rfl, rfl, rfl⟩, ⟨_, rfl, rfl, rfl⟩, VSArray.demoLong_inv _, ?_, fun j hj => ?_, ?_⟩
  · have hsize : (VSArray.demoLong 2147483648)._size = 2147483648 + 1 := rfl
    rw [VSArray.Get, hsize, if_neg (by omega)]
    exact readSlot_of_getElem? (VSArray.demoLong_last _)
  · have hsize : (VSArray.demoLong 2147483648)._size = 2147483648 + 1 := rfl
    rw [VSArray.Get, hsize, if_neg (by omega)]
    exact readSlot_of_getElem? (VSArray.demoLong_front _ j hj)
  · rw [VSArray.demoLong_IndexOf]
    rfl

section ArrayInvariant
variable {α : Type}

theorem clearSlots_spec :
    ∀ (n : Nat) (d : List (Option α)) (lo : Nat), lo + n ≤ d.length →
      ∃ d1, clearSlots d lo n = .ok d1 ∧ d1.length = d.length ∧
        ∀ j, d1[j]? = if lo ≤ j ∧ j < lo + n then some none else d[j]? := by
  intro n
  induction n with
  | zero =>
    intro d lo _
    refine ⟨d, rfl, rfl, fun j => ?_⟩
    rw [if_neg (by omega)]
  | succ n ih =>
    intro d lo hd
    have hr : readSlot d lo = .ok (d[lo]?.getD none) := readSlot_of_lt (by omega)
    have hw := writeSlot_of_lt (none : Option α) (show lo < d.length by omega)
    obtain ⟨d1, h1, hl1, hj1⟩ := ih (d.set lo none) (lo + 1) (by simp; omega)
    refine ⟨d1, ?_, by simpa using hl1, fun j => ?_⟩
    · simp only [clearSlots, hr, hw, okBind]
      exact h1
    · rw [hj1 j]
      by_cases hj : j = lo
      · subst hj
        rw [if_neg (by omega), if_pos (by omega), List.getElem?_set_self (by omega)]
      · by_cases c : lo + 1 ≤ j ∧ j < lo + 1 + n
        · rw [if_pos c, if_pos (by omega)]
        · rw [if_neg c, if_neg (by omega), List.getElem?_set_ne (by omega)]

theorem copySlots_ok_length (src : List (Option α)) :
    ∀ (n : Nat) (dst : List (Option α)) (lo : Nat) (d1 : List (Option α)),
      copySlots src dst lo n = .ok d1 → n = 0 ∨ lo + n ≤ dst.length := by
  intro n
  induction n with
  | zero =>
    intro dst lo d1 _
    exact Or.inl rfl
  | succ n ih =>
    intro dst lo d1 h
    right
    simp only [copySlots] at h
    cases hr : readSlot src lo with
    | error f =>
      rw [hr] at h
      cases h
    | ok q =>
      rw [hr] at h
      simp only [okBind] at h
      by_cases hlt : lo < dst.length
      · rw [writeSlot_of_lt q hlt] at h
        simp only [okBind] at h
        rcases ih (dst.set lo q) (lo + 1) d1 h with h0 | h1
        · omega
        · simp at h1
          omega
      · simp only [writeSlot, if_neg hlt] at h
        cases h

namespace VSArray

theorem SlotInv_mk0 (capacity : Nat) (delta : ℚ) : (mk0 capacity delta : VSArray α).SlotInv := by
  refine ⟨by simp [mk0], Nat.zero_le _, fun i hi => absurd hi (Nat.not_lt_zero i),
    fun i _ hi => ?_⟩
  have hi1 : i < capacity := hi
  simp [mk0, List.getElem?_replicate, hi1]

theorem grow_step_spec (s : VSArray α) (hinv : s.SlotInv)
    (hroom : s._size < s._capacity ∨
      ∃ c, grownCapacity s._delta s._capacity = .ok c ∧ s._capacity < c) :
    ∃ t, (if s._size = s._capacity then s.Resize else .ok s) = .ok t ∧
      t._size = s._size ∧ t._size < t._capacity ∧ t._data.length = t._capacity ∧
      t._delta = s._delta ∧ s._capacity ≤ t._capacity ∧
      (∀ j, j < s._size → t._data[j]? = s._data[j]?) ∧
      (∀ j, s._size ≤ j → j < t._capacity → t._data[j]? = some none) ∧
      (s._size < s._capacity → t = s) ∧
      (∀ c, s._size = s._capacity → grownCapacity s._delta s._capacity = .ok c →
        t._capacity = c) := by
  have hl := hinv.length_eq
  have hs := hinv.size_le
  by_cases hfull : s._size = s._capacity
  · rcases hroom with h | ⟨c, hc, hlt⟩
    · omega
    · obtain ⟨t, h1, h2, h3, h4, h5, h6⟩ := Resize_spec s c (by omega) hc (by omega)
      refine ⟨t, by rw [if_pos hfull]; exact h1, h2, by omega, by omega, h4, by omega,
        fun j hj => ?_, fun j hj1 hj2 => ?_, fun h => by omega, fun c1 _ hc1 => ?_⟩
      · rw [h6 j, if_pos hj]
      · rw [h6 j, if_neg (by omega), if_pos (by omega)]
      · rw [hc] at hc1
        rw [h3]
        exact Except.ok.inj hc1
  · refine ⟨s, by rw [if_neg hfull], rfl, by omega, hl, rfl, Nat.le_refl _, fun _ _ => rfl,
      fun j hj1 hj2 => hinv.empty j hj1 hj2, fun _ => rfl, fun c h => absurd h hfull⟩

theorem Insert_spec (s : VSArray α) (x : α) (p : Nat) (hinv : s.SlotInv) (hp : p ≤ s._size)
    (hroom : s._size < s._capacity ∨
      ∃ c, grownCapacity s._delta s._capacity = .ok c ∧ s._capacity < c) :
    ∃ s1, s.Insert (some x) p = .ok (true, s1) ∧ s1.SlotInv ∧ s1._size = s._size + 1 ∧
      s._capacity ≤ s1._capacity ∧ s1._delta = s._delta ∧
      (s._size < s._capacity → s1._capacity = s._capacity) ∧
      (∀ c, s._size = s._capacity → grownCapacity s._delta s._capacity = .ok c →
        s1._capacity = c) ∧
      s1.Get p = .ok (some x) ∧
      (∀ i, i < p → s1.Get i = s.Get i) ∧
      (∀ i, p ≤ i → i < s._size → s1.Get (i + 1) = s.Get i) := by
  obtain ⟨t, ht, hts, htc, htl, htd, htcap, htj, hte, hsame, hgrown⟩ :=
    grow_step_spec s hinv hroom
  obtain ⟨d, hd, hdl, hdj⟩ := shiftUp_spec p t._size t._data (by omega)
  have hr := readSlot_of_lt (show t._size < t._data.length by omega)
  have hw := writeSlot_of_lt (some x) (show p < d.length by omega)
  refine ⟨{ t with _data := d.set p (some x), _size := t._size + 1 }, ?_, ?_, ?_, htcap, htd,
    ?_, hgrown, ?_, ?_, ?_⟩
  · unfold VSArray.Insert
    rw [if_neg (show ¬ p > s._size by omega), ht]
    simp only [hr, hd, hw, okBind]
  · refine ⟨?_, ?_, fun i hi => ?_, fun i hi1 hi2 => ?_⟩
    · show (d.set p (some x)).length = t._capacity
      rw [List.length_set, hdl, htl]
    · show t._size + 1 ≤ t._capacity
      omega
    · have hi1 : i < t._size + 1 := hi
      show ∃ e, (d.set p (some x))[i]? = some (some e)
      by_cases hip : i = p
      · subst hip
        exact ⟨x, List.getElem?_set_self (by omega)⟩
      · rw [List.getElem?_set_ne (fun h => hip h.symm), hdj i]
        by_cases c : p < i ∧ i ≤ t._size
        · rw [if_pos c, htj (i - 1) (by omega)]
          exact hinv.live (i - 1) (by omega)
        · rw [if_neg c, htj i (by omega)]
          exact hinv.live i (by omega)
    · have h1 : t._size + 1 ≤ i := hi1
      have h2 : i < t._capacity := hi2
      show (d.set p (some x))[i]? = some none
      rw [List.getElem?_set_ne (by omega), hdj i, if_neg (by omega)]
      exact hte i (by omega) h2
  · show t._size + 1 = s._size + 1
    rw [hts]
  · intro h
    rw [hsame h]
  · simp only [VSArray.Get, if_neg (show ¬ p ≥ t._size + 1 by omega)]
    exact readSlot_of_getElem? (List.getElem?_set_self (by omega))
  · intro i hi
    simp only [VSArray.Get, if_neg (show ¬ i ≥ t._size + 1 by omega),
      if_neg (show ¬ i ≥ s._size by omega)]
    apply VSArray.readSlot_congr
    rw [List.getElem?_set_ne (by omega), hdj i, if_neg (by omega), htj i (by omega)]
  · intro i hpi hi
    simp only [VSArray.Get, if_neg (show ¬ i + 1 ≥ t._size + 1 by omega),
      if_neg (show ¬ i ≥ s._size by omega)]
    apply VSArray.readSlot_congr
    rw [List.getElem?_set_ne (by omega), hdj (i + 1), if_pos (by omega)]
    exact htj i hi

theorem Remove_spec (s : VSArray α) (p : Nat) (hinv : s.SlotInv) (hp : p < s._size) :
    ∃ x s1, s.Get p = .ok (some x) ∧ s.Remove p = .ok (some x, s1) ∧ s1.SlotInv ∧
      s1._size = s._size - 1 ∧ s1._capacity = s._capacity ∧ s1._delta = s._delta ∧
      (∀ i, i < p → s1.Get i = s.Get i) ∧
      (∀ i, p ≤ i → i < s1._size → s1.Get i = s.Get (i + 1)) := by
  have hl := hinv.length_eq
  have hs := hinv.size_le
  obtain ⟨x, hx⟩ := hinv.live p hp
  obtain ⟨d, hd, hdl, hdj⟩ :=
    shiftDown_spec (s._size - 1 - p) s._data p (by omega)
  have hr := readSlot_of_getElem? hx
  have hw := writeSlot_of_lt (none : Option α) (show s._size - 1 < d.length by omega)
  refine ⟨x, { s with _data := d.set (s._size - 1) none, _size := s._size - 1 },
    ?_, ?_, ?_, rfl, rfl, rfl, ?_, ?_⟩
  · simp only [VSArray.Get, if_neg (show ¬ p ≥ s._size by omega), hr]
  · simp only [VSArray.Remove, if_neg (show ¬ p ≥ s._size by omega), hr, hd, hw, okBind]
  · refine ⟨?_, ?_, fun i hi => ?_, fun i hi1 hi2 => ?_⟩
    · show (d.set (s._size - 1) none).length = s._capacity
      rw [List.length_set, hdl, hl]
    · show s._size - 1 ≤ s._capacity
      omega
    · have hi1 : i < s._size - 1 := hi
      show ∃ e, (d.set (s._size - 1) none)[i]? = some (some e)
      rw [List.getElem?_set_ne (by omega), hdj i]
      by_cases c : p ≤ i ∧ i < p + (s._size - 1 - p)
      · rw [if_pos c]
        exact hinv.live (i + 1) (by omega)
      · rw [if_neg c]
        exact hinv.live i (by omega)
    · have h1 : s._size - 1 ≤ i := hi1
      have h2 : i < s._capacity := hi2
      show (d.set (s._size - 1) none)[i]? = some none
      by_cases hi : i = s._size - 1
      · subst hi
        exact List.getElem?_set_self (by omega)
      · rw [List.getElem?_set_ne (fun h => hi h.symm), hdj i, if_neg (by omega)]
        exact hinv.empty i (by omega) h2
  · intro i hi
    simp only [VSArray.Get, if_neg (show ¬ i ≥ s._size - 1 by omega),
      if_neg (show ¬ i ≥ s._size by omega)]
    apply VSArray.readSlot_congr
    rw [List.getElem?_set_ne (by omega), hdj i, if_neg (by omega)]
  · intro i hpi hi
    have hi1 : i < s._size - 1 := hi
    simp only [VSArray.Get, if_neg (show ¬ i ≥ s._size - 1 by omega),
      if_neg (show ¬ i + 1 ≥ s._size by omega)]
    apply VSArray.readSlot_congr
    rw [List.getElem?_set_ne (by omega), hdj i, if_pos (by omega)]

theorem Clear_spec (s : VSArray α) (hinv : s.SlotInv) :
    ∃ s1, s.Clear = .ok s1 ∧ s1.SlotInv ∧ s1._size = 0 ∧ s1._capacity = s._capacity ∧
      s1._delta = s._delta ∧ s1._data = List.replicate s._capacity none := by
  have hl := hinv.length_eq
  have hs := hinv.size_le
  obtain ⟨d, hd, hdl, hdj⟩ := clearSlots_spec s._size s._data 0 (by omega)
  have hall : ∀ j, j < s._capacity → d[j]? = some none := by
    intro j hj
    rw [hdj j]
    by_cases c : j < s._size
    · rw [if_pos (by omega)]
    · rw [if_neg (by omega)]
      exact hinv.empty j (by omega) hj
  refine ⟨{ s with _data := d, _size := 0 }, ?_, ?_, rfl, rfl, rfl, ?_⟩
  · simp only [VSArray.Clear, hd, okBind]
  · exact ⟨by show d.length = s._capacity; omega, Nat.zero_le _,
      fun i hi => absurd hi (Nat.not_lt_zero i), fun i _ hi => hall i hi⟩
  · show d = List.replicate s._capacity none
    apply List.ext_getElem?
    intro j
    by_cases hj : j < s._capacity
    · rw [hall j hj, List.getElem?_replicate, if_pos hj]
    · rw [List.getElem?_eq_none (by omega), List.getElem?_eq_none (by simp; omega)]

theorem copySlots_error (src : List (Option α)) :
    ∀ (n : Nat) (dst : List (Option α)) (lo : Nat), lo ≤ src.length → lo ≤ dst.length →
      ¬ (lo + n ≤ src.length ∧ lo + n ≤ dst.length) →
      copySlots src dst lo n = .error .outOfBounds := by
  intro n
  induction n with
  | zero =>
    intro dst lo h1 h2 h
    exact absurd ⟨h1, h2⟩ h
  | succ n ih =>
    intro dst lo h1 h2 h
    by_cases hs : lo < src.length
    · by_cases hd : lo < dst.length
      · have hr : readSlot src lo = .ok (src[lo]?.getD none) := readSlot_of_lt hs
        have hw := writeSlot_of_lt (src[lo]?.getD none) hd
        simp only [copySlots, hr, hw, okBind]
        exact ih _ (lo + 1) (by omega) (by simp; omega) (by simp; omega)
      · have hr : readSlot src lo = .ok (src[lo]?.getD none) := readSlot_of_lt hs
        simp only [copySlots, hr, okBind, writeSlot, if_neg hd]
        rfl
    · have hr : readSlot src lo = .error .outOfBounds := by
        simp only [readSlot]
        rw [List.getElem?_eq_none (by omega)]
      simp only [copySlots, hr]
      rfl

theorem length_freshBlock (junk : Nat → Option α) (n : Nat) :
    (freshBlock junk n).length = n := by
  simp [freshBlock]

/-- The four loops of `Resize` over a source block `src` with `n` elements and
two new blocks `b1`, `b2` of `c` slots each: whatever the new blocks held, the
result holds the `n` elements followed by `nullptr`s. -/
theorem resize_loops_spec (src b1 b2 : List (Option α)) (n c : Nat) (hn : n ≤ src.length)
    (hnc : n ≤ c) (h1 : b1.length = c) (h2 : b2.length = c) :
    ∃ arr z d d1, copySlots src b1 0 n = .ok arr ∧ nullSlots src 0 n = .ok z ∧
      copySlots arr b2 0 n = .ok d ∧ nullSlots d n (c - n) = .ok d1 ∧ d1.length = c ∧
      ∀ j, d1[j]? = if j < n then src[j]? else if j < c then some none else none := by
  obtain ⟨arr, ha, hal, haj⟩ := copySlots_spec src n b1 0 (by omega) (by omega)
  obtain ⟨z, hz, -, -⟩ := nullSlots_spec n src 0 (by omega)
  obtain ⟨d, hd, hdl, hdj⟩ := copySlots_spec arr n b2 0 (by omega) (by omega)
  obtain ⟨d1, hd1, hd1l, hd1j⟩ := nullSlots_spec (c - n) d n (by omega)
  refine ⟨arr, z, d, d1, ha, hz, hd, hd1, by omega, fun j => ?_⟩
  rw [hd1j j, hdj j, haj j]
  by_cases c1 : j < n
  · rw [if_neg (by omega), if_pos (by omega), if_pos (by omega), if_pos c1]
  · rw [if_neg c1]
    by_cases c2 : j < c
    · rw [if_pos (by omega), if_pos c2]
    · rw [if_neg (by omega), if_neg (by omega), if_neg c2]
      exact List.getElem?_eq_none (by omega)

/-- The constructor's loop overwrites whatever the new block held: the object
constructed is `mk0`. -/
theorem construct_eq (junk : Nat → Option α) (capacity : Nat) (delta : ℚ) :
    construct junk capacity delta = .ok (mk0 capacity delta) := by
  obtain ⟨d, hd, hdl, hdj⟩ :=
    nullSlots_spec capacity (freshBlock junk capacity) 0 (by simp [length_freshBlock])
  have hrep : d = List.replicate capacity none := by
    apply List.ext_getElem?
    intro j
    rw [hdj j, List.getElem?_replicate]
    by_cases hj : j < capacity
    · rw [if_pos (by omega), if_pos hj]
    · rw [if_neg (by omega), if_neg hj]
      exact List.getElem?_eq_none (by simp [length_freshBlock]; omega)
  simp only [construct, hd, okBind, hrep]
  rfl

/-- The loops of `Resize` overwrite whatever the new blocks held. -/
theorem ResizeFresh_eq (junk1 junk2 : Nat → Option α) (s : VSArray α) :
    s.ResizeFresh junk1 junk2 = s.Resize := by
  cases hg : grownCapacity s._delta s._capacity with
  | error f => simp only [ResizeFresh, Resize, hg]; rfl
  | ok c =>
    by_cases hok : s._size ≤ s._data.length ∧ s._size ≤ c
    · obtain ⟨a1, z1, e1, r1, p1, p2, p3, p4, p5, p6⟩ :=
        resize_loops_spec s._data (freshBlock junk1 c) (freshBlock junk2 c) s._size c
          hok.1 hok.2 (length_freshBlock junk1 c) (length_freshBlock junk2 c)
      obtain ⟨a2, z2, e2, r2, q1, q2, q3, q4, q5, q6⟩ :=
        resize_loops_spec s._data (List.replicate c none) (List.replicate c none) s._size c
          hok.1 hok.2 (by simp) (by simp)
      have hr : r1 = r2 := by
        apply List.ext_getElem?
        intro j
        rw [p6 j, q6 j]
      simp only [ResizeFresh, Resize, hg, p1, p2, p3, p4, q1, q2, q3, q4, okBind, hr]
    · have e1 := copySlots_error s._data s._size (freshBlock junk1 c) 0 (Nat.zero_le _)
        (Nat.zero_le _) (by simpa [length_freshBlock] using hok)
      have e2 := copySlots_error s._data s._size (List.replicate c none) 0 (Nat.zero_le _)
        (Nat.zero_le _) (by simpa using hok)
      simp only [ResizeFresh, Resize, hg, okBind, e1, e2]
      rfl

theorem InsertFresh_eq (junk1 junk2 : Nat → Option α) (s : VSArray α) (e : Option α)
    (p : Nat) : s.InsertFresh junk1 junk2 e p = s.Insert e p := by
  unfold InsertFresh Insert
  rw [ResizeFresh_eq]

theorem Reachable.inv {s : VSArray α} (h : s.Reachable) : s.SlotInv := by
  induction h with
  | @construct s junk capacity delta hc =>
    rw [construct_eq] at hc
    rw [← Except.ok.inj hc]
    exact SlotInv_mk0 capacity delta
  | @insert s s1 x p b junk1 junk2 _ hI ih =>
    rw [InsertFresh_eq] at hI
    by_cases hp : p > s._size
    · simp only [VSArray.Insert, if_pos hp] at hI
      have := (Prod.mk.inj (Except.ok.inj hI)).2
      rw [← this]
      exact ih
    · by_cases hroom : s._size < s._capacity ∨
          ∃ c, grownCapacity s._delta s._capacity = .ok c ∧ s._capacity < c
      · obtain ⟨s2, h2, hinv2, -⟩ := Insert_spec s x p ih (by omega) hroom
        rw [h2] at hI
        have := (Prod.mk.inj (Except.ok.inj hI)).2
        rw [← this]
        exact hinv2
      · -- the array is full and does not grow: the call does not return
        exfalso
        have hfull : s._size = s._capacity := by
          have := ih.size_le
          by_contra hne
          exact hroom (Or.inl (by omega))
        have hno : ∀ c, grownCapacity s._delta s._capacity = .ok c → c ≤ s._capacity :=
          fun c hc => by
            by_contra hlt
            exact hroom (Or.inr ⟨c, hc, by omega⟩)
        unfold VSArray.Insert at hI
        rw [if_neg hp, if_pos hfull] at hI
        cases hg : grownCapacity s._delta s._capacity with
        | error f =>
          simp only [Resize, hg] at hI
          cases hI
        | ok c =>
          have hc := hno c hg
          by_cases hcs : s._size ≤ c
          · obtain ⟨t, h1, h2, h3, -, h5, -⟩ :=
              Resize_spec s c (by rw [ih.length_eq]; omega) hg hcs
            rw [h1] at hI
            have hread : readSlot t._data t._size = .error .outOfBounds := by
              simp only [readSlot]
              rw [List.getElem?_eq_none (by omega)]
            simp only [okBind, hread] at hI
            cases hI
          · simp only [Resize, hg, okBind] at hI
            cases hcopy : copySlots s._data (List.replicate c none) 0 s._size with
            | error f =>
              rw [hcopy] at hI
              cases hI
            | ok arr =>
              rcases copySlots_ok_length _ _ _ _ _ hcopy with h0 | h1
              · omega
              · simp at h1
                omega
  | @remove s s1 p r _ hR ih =>
    by_cases hp : p ≥ s._size
    · simp only [VSArray.Remove, if_pos hp] at hR
      have := (Prod.mk.inj (Except.ok.inj hR)).2
      rw [← this]
      exact ih
    · obtain ⟨x, s2, -, h2, hinv2, -⟩ := Remove_spec s p ih (by omega)
      rw [h2] at hR
      have := (Prod.mk.inj (Except.ok.inj hR)).2
      rw [← this]
      exact hinv2
  | @clear s s1 _ hC ih =>
    obtain ⟨s2, h2, hinv2, -⟩ := Clear_spec s ih
    rw [h2] at hC
    rw [← Except.ok.inj hC]
    exact hinv2

end VSArray

end ArrayInvariant

/-- C11. An array constructed with capacity 1 and growth factor 0.5 (> 0): after
`Insert(a, 0)` it is full; `Resize` computes `1 + 0.5 * 1`, truncated to 1, so the
capacity does not grow, and `Insert(b, 1)` then accesses `_data[1]` outside the
one-slot block: the call has no defined result, and the size it would leave is
2 > capacity 1. -/
theorem VSArray_growth_stall :
    ∃ s1 : VSArray String,
      (VSArray.mk0 1 (1 / 2) : VSArray String).Insert (some "a") 0 = .ok (true, s1) ∧
      s1._size = 1 ∧ s1._capacity = 1 ∧
      (∃ s2, s1.Resize = .ok s2 ∧ s2._capacity = 1 ∧ s2._data.length = 1 ∧ s2._size = 1) ∧
      s1.Insert (some "b") 1 = .error Fault.outOfBounds := by
  have hres : ({ _data := [some "a"], _size := 1, _capacity := 1, _delta := 1 / 2 } :
      VSArray String).Resize =
      .ok { _data := [some "a"], _size := 1, _capacity := 1, _delta := 1 / 2 } := by
    simp only [VSArray.Resize, VSArray.grownCapacity_half_one, okBind]
    rfl
  refine ⟨{ _data := [some "a"], _size := 1, _capacity := 1, _delta := 1 / 2 }, rfl, rfl, rfl,
    ⟨_, hres, rfl, rfl, rfl⟩, ?_⟩
  unfold VSArray.Insert
  rw [if_neg (by decide), if_pos rfl, hres]
  rfl

/-- C13. `VSArray::operator=` with an empty target of capacity 2 and a source of
capacity 3 holding one element: the capacities differ, so the target is cleared
and re-allocated, and the cloning loop runs over the target's own size, which is
0; `_size` is never assigned.  The target ends with size 0 (the source has 1) and
`Get(0)` is `nullptr`; no clone is made. -/
theorem VSArray_assign_copies_nothing :
    ∃ t : VSArray Nat,
      VSArray.assign [some "a"] (VSArray.mk0 2 (1 / 2)) VSArray.demoSource =
        .ok ([some "a"], t) ∧
      t._capacity = 3 ∧ t._size = 0 ∧ VSArray.demoSource._size = 1 ∧
      t.Get 0 = .ok none ∧ VSArray.demoSource.Get 0 = .ok (some 0) := by
  exact ⟨{ _data := [none, none, none], _size := 0, _capacity := 3, _delta := 1 / 2 },
    rfl, rfl, rfl, rfl, rfl, rfl⟩

/-- C15. `DoubleLinkedList::operator=` with a one-element target (the object at
address 1) and a one-element source (the object at address 0): the target is not
emptied first, so the clone (the new object at address 2) is appended; the
target ends with size 2 and the sequence 1, 2, while the source has size 1.  A
list copy-constructed from the same source does end with size 1 and the clone
alone, whatever `_head` and `_tail` held before. -/
theorem DoubleLinkedList_assign_appends :
    (∃ t : DoubleLinkedList Nat,
      DoubleLinkedList.assign [some "y", some "x"] DoubleLinkedList.demoT
        DoubleLinkedList.demoS = .ok ([some "y", some "x", some "y"], t) ∧
      t._size = 2 ∧ DoubleLinkedList.demoS._size = 1 ∧
      t.toSeq = .ok [some 1, some 2] ∧
      DoubleLinkedList.demoS.toSeq = .ok [some 0]) ∧
    (∀ head0 tail0 : Option Nat, ∃ c : DoubleLinkedList Nat,
      DoubleLinkedList.copyConstruct [some "y", some "x"] head0 tail0
        DoubleLinkedList.demoS = .ok ([some "y", some "x", some "y"], c) ∧
      c._size = 1 ∧ c.toSeq = .ok [some 2]) := by
  refine ⟨⟨{ heap := [some { data := some 1, next := some 1, previous := none },
                      some { data := some 2, next := none, previous := none }]
             _head := some 0
             _tail := some 1
             _size := 2 }, rfl, rfl, rfl, rfl, rfl⟩, fun head0 tail0 => ?_⟩
  exact ⟨{ heap := [some { data := some 2, next := none, previous := none }]
           _head := some 0
           _tail := some 0
           _size := 1 }, rfl, rfl, rfl⟩

/-- C18. After `Insert(x, 0); Insert(y, 0)` on the empty list the list has two
nodes, the walk from the head ends at the node of `x` (address 0), and `_tail` is
the node of `y` (address 1), which is the head: the head-insert branch assigns
`_tail = neo`. -/
theorem DoubleLinkedList_tail_is_head :
    DoubleLinkedList.demoYX.ReachableC ∧
    ((DoubleLinkedList.mk0 : DoubleLinkedList String).Insert (some "x") 0 >>=
      fun r => r.2.Insert (some "y") 0) = .ok (true, DoubleLinkedList.demoYX) ∧
    DoubleLinkedList.demoYX._size = 2 ∧
    walk DoubleLinkedList.demoYX.heap DoubleLinkedList.demoYX._head 1 = .ok (some 0) ∧
    walk DoubleLinkedList.demoYX.heap DoubleLinkedList.demoYX._head 2 = .ok none ∧
    DoubleLinkedList.demoYX._tail = some 1 ∧
    DoubleLinkedList.demoYX._tail = DoubleLinkedList.demoYX._head := by
  refine ⟨?_, rfl, rfl, rfl, rfl, rfl, rfl⟩
  exact DoubleLinkedList.ReachableC.insert
    (DoubleLinkedList.ReachableC.insert DoubleLinkedList.ReachableC.empty
      (rfl : DoubleLinkedList.mk0.Insert (some "x") 0 = .ok (true, DoubleLinkedList.demoX)))
    (rfl : DoubleLinkedList.demoX.Insert (some "y") 0 = .ok (true, DoubleLinkedList.demoYX))

/-- C20. After `Insert(x, 0); Insert(y, 1)` on the empty list the second node's
`previous` is `nullptr`, not the first node: `Insert` never assigns a `previous`.
After a further `Insert(z, 2); Remove(1); Remove(0)` the list is non-empty and its
head's `previous` is the address of the deleted first node, not `nullptr`. -/
theorem DoubleLinkedList_previous_not_linked :
    DoubleLinkedList.demoXY.Reachable ∧
    (∃ nd, walk DoubleLinkedList.demoXY.heap DoubleLinkedList.demoXY._head 1 = .ok (some 1) ∧
      readNode DoubleLinkedList.demoXY.heap (some 1) = .ok nd ∧ nd.previous = none ∧
      DoubleLinkedList.demoXY._head = some 0) ∧
    (∃ l nd, (DoubleLinkedList.demoXY.Insert (some "z") 2 >>= fun r => r.2.Remove 1 >>=
        fun r => r.2.Remove 0) = .ok (some "x", l) ∧
      l.Reachable ∧ l._size = 1 ∧ l._head = some 2 ∧
      readNode l.heap l._head = .ok nd ∧ nd.previous = some 0 ∧ l.heap[0]? = some none) := by
  have h1 : DoubleLinkedList.demoXY.Reachable :=
    DoubleLinkedList.Reachable.insert
      (DoubleLinkedList.Reachable.insert DoubleLinkedList.Reachable.empty
        (rfl : DoubleLinkedList.mk0.Insert (some "x") 0 = .ok (true, DoubleLinkedList.demoX)))
      (rfl : DoubleLinkedList.demoX.Insert (some "y") 1 = .ok (true, DoubleLinkedList.demoXY))
  refine ⟨h1, ⟨_, rfl, rfl, rfl, rfl⟩, ?_⟩
  have h2 : DoubleLinkedList.demoXY.Insert (some "z") 2 = .ok (true,
      { heap := [some { data := some "x", next := some 1, previous := none },
                 some { data := some "y", next := some 2, previous := none },
                 some { data := some "z", next := none, previous := none }]
        _head := some 0
        _tail := some 2
        _size := 3 }) := rfl
  have h3 : ({ heap := [some { data := some "x", next := some 1, previous := none },
                 some { data := some "y", next := some 2, previous := none },
                 some { data := some "z", next := none, previous := none }]
               _head := some 0
               _tail := some 2
               _size := 3 } : DoubleLinkedList String).Remove 1 = .ok (some "y",
      { heap := [some { data := some "x", next := some 2, previous := none },
                 none,
                 some { data := some "z", next := none, previous := some 0 }]
        _head := some 0
        _tail := some 2
        _size := 2 }) := rfl
  have h4 : ({ heap := [some { data := some "x", next := some 2, previous := none },
                 none,
                 some { data := some "z", next := none, previous := some 0 }]
               _head := some 0
               _tail := some 2
               _size := 2 } : DoubleLinkedList String).Remove 0 = .ok (some "x",
      { heap := [none, none, some { data := some "z", next := none, previous := some 0 }]
        _head := some 2
        _tail := some 2
        _size := 1 }) := rfl
  refine ⟨{ heap := [none, none, some { data := some "z", next := none, previous := some 0 }]
            _head := some 2
            _tail := some 2
            _size := 1 }, { data := some "z", next := none, previous := some 0 },
    ?_, ?_, rfl, rfl, rfl, rfl, rfl⟩
  · rw [h2]
    simp only [okBind, h3, h4]
  · exact DoubleLinkedList.Reachable.remove
      (DoubleLinkedList.Reachable.remove (DoubleLinkedList.Reachable.insert h1 h2) h3) h4

theorem VSArray.Resize_capacity {α : Type} (s t : VSArray α) (hlen : s._size ≤ s._data.length)
    (h : s.Resize = .ok t) : VSArray.grownCapacity s._delta s._capacity = .ok t._capacity := by
  cases hg : VSArray.grownCapacity s._delta s._capacity with
  | error f =>
    simp only [VSArray.Resize, hg] at h
    cases h
  | ok c =>
    by_cases hsz : s._size ≤ c
    · obtain ⟨s1, h1, -, h3, -⟩ := VSArray.Resize_spec s c hlen hg hsz
      rw [h1] at h
      rw [← Except.ok.inj h, h3]
    · have e1 := VSArray.copySlots_error s._data s._size (List.replicate c none) 0
        (Nat.zero_le _) (Nat.zero_le _) (by simp; omega)
      simp only [VSArray.Resize, hg, okBind, e1] at h
      cases h

/-- C12 (as amended). The growth rule on a full-array insert: on a state
satisfying the slot invariant whose size equals its capacity `c`, with a valid
position and a `Resize` that returns with a strictly larger capacity, `Insert`
returns `true`; the capacity becomes the `double` value of
`c + growthFactor * c` (product and sum each rounded to a `double`) truncated to
an integer, which is `c + trunc(growthFactor * c)` whenever neither the
conversion of `c`, nor the product, nor the sum rounds; and the existing elements
keep their order around the new one.  For capacity 2 and growth factor 1/2,
`Insert(a, 0)`, `Insert(b, 1)`, `Insert(c, 2)` all return `true`, the capacity is
2 before and 3 after the third, and the result has size 3 with
`Get(0..2) = a, b, c`. -/
theorem VSArray_growth_rule {α : Type} (s : VSArray α) (x : α) (p : Nat)
    (hinv : s.SlotInv) (hp : p ≤ s._size) (hfull : s._size = s._capacity)
    (hres : ∃ t, s.Resize = .ok t ∧ s._capacity < t._capacity) :
    (∃ s1, s.Insert (some x) p = .ok (true, s1) ∧
      s1._capacity = (⌊VSArray.grownValue s._delta s._capacity⌋).toNat ∧
      (roundDouble (s._capacity : ℚ) = (s._capacity : ℚ) →
        roundDouble (s._delta * (s._capacity : ℚ)) = s._delta * (s._capacity : ℚ) →
        roundDouble ((s._capacity : ℚ) + s._delta * (s._capacity : ℚ)) =
          (s._capacity : ℚ) + s._delta * (s._capacity : ℚ) →
        s1._capacity = s._capacity + (⌊s._delta * (s._capacity : ℚ)⌋).toNat) ∧
      s1._size = s._size + 1 ∧
      s1.Get p = .ok (some x) ∧
      (∀ i, i < p → s1.Get i = s.Get i) ∧
      (∀ i, p ≤ i → i < s._size → s1.Get (i + 1) = s.Get i)) ∧
    (do
      let (b1, s1) ← (VSArray.mk0 2 (1 / 2) : VSArray String).Insert (some "a") 0
      let (b2, s2) ← s1.Insert (some "b") 1
      let (b3, s3) ← s2.Insert (some "c") 2
      let order ← s3.toSeq
      pure (b1, b2, b3, s2._capacity, s3._capacity, s3._size, order)) =
      Except.ok (true, true, true, 2, 3, 3, [some "a", some "b", some "c"]) := by
  constructor
  · obtain ⟨t, ht, hlt⟩ := hres
    have hg := VSArray.Resize_capacity s t (by rw [hinv.length_eq]; exact hinv.size_le) ht
    obtain ⟨s1, h1, -, h3, -, -, -, h7, h8, h9, h10⟩ :=
      VSArray.Insert_spec s x p hinv hp (Or.inr ⟨_, hg, hlt⟩)
    have hcap : s1._capacity = t._capacity := h7 _ hfull hg
    have hval := VSArray.grownCapacity_ok _ _ _ hg
    refine ⟨s1, h1, by rw [hcap]; exact hval, fun e1 e2 e3 => ?_, h3, h8, h9, h10⟩
    have hv := VSArray.grownValue_exact s._delta s._capacity e1 e2 e3
    have hfloor : ⌊(s._capacity : ℚ) + s._delta * (s._capacity : ℚ)⌋ =
        (s._capacity : ℤ) + ⌊s._delta * (s._capacity : ℚ)⌋ :=
      Int.floor_nat_add s._capacity (s._delta * (s._capacity : ℚ))
    rw [hv, hfloor] at hval
    omega
  · have h3 := VSArray.demoFull_Resize
    have i1 : (VSArray.mk0 2 (1 / 2) : VSArray String).Insert (some "a") 0 =
        .ok (true, { _data := [some "a", none], _size := 1, _capacity := 2,
                     _delta := 1 / 2 }) := rfl
    have i2 : ({ _data := [some "a", none], _size := 1, _capacity := 2, _delta := 1 / 2 } :
        VSArray String).Insert (some "b") 1 = .ok (true, VSArray.demoFull) := rfl
    have i3 : VSArray.demoFull.Insert (some "c") 2 = .ok (true, VSArray.demoABC) := by
      unfold VSArray.Insert
      rw [if_neg (by decide),
        if_pos (show VSArray.demoFull._size = VSArray.demoFull._capacity from rfl), h3]
      rfl
    simp only [i1, i2, i3, okBind, pureOk]
    rfl

/-- Counterexample for C12. A full array of capacity 1 whose growth factor is the
`double` next below 2 (`2 - 2 ^ (-52)`): `Insert` at the valid position 1 returns
`true` and the capacity becomes 3, because the sum `1 + growthFactor * 1` rounds
to the `double` 3; `c + trunc(growthFactor * c)` is `1 + 1 = 2`. -/
theorem VSArray_growth_rule_counterexample :
    VSArray.demoRound.SlotInv ∧ 1 ≤ VSArray.demoRound._size ∧
    VSArray.demoRound._size = VSArray.demoRound._capacity ∧
    (∃ s1, VSArray.demoRound.Insert (some "b") 1 = .ok (true, s1) ∧ s1._capacity = 3 ∧
      s1._size = 2) ∧
    VSArray.demoRound._capacity +
      (⌊VSArray.demoRound._delta * (VSArray.demoRound._capacity : ℚ)⌋).toNat = 2 := by
  have hinv : VSArray.demoRound.SlotInv := by
    refine ⟨rfl, Nat.le_refl _, fun i hi => ?_, fun i h1 h2 => ?_⟩
    · have hi1 : i < 1 := hi
      interval_cases i
      exact ⟨"a", rfl⟩
    · have h3 : 1 ≤ i := h1
      have h4 : i < 1 := h2
      omega
  have hres : VSArray.demoRound.Resize =
      .ok { _data := [some "a", none, none], _size := 1, _capacity := 3,
            _delta := 9007199254740991 / 4503599627370496 } := by
    simp only [VSArray.Resize, VSArray.demoRound, VSArray.grownCapacity_round, okBind]
    rfl
  have hins : VSArray.demoRound.Insert (some "b") 1 =
      .ok (true, { _data := [some "a", some "b", none], _size := 2, _capacity := 3,
                   _delta := 9007199254740991 / 4503599627370496 }) := by
    unfold VSArray.Insert
    rw [if_neg (by decide),
      if_pos (show VSArray.demoRound._size = VSArray.demoRound._capacity from rfl), hres]
    rfl
  have hfloor : ⌊VSArray.demoRound._delta * (VSArray.demoRound._capacity : ℚ)⌋ = 1 := by
    rw [Int.floor_eq_iff]
    simp only [VSArray.demoRound]
    norm_num
  refine ⟨hinv, Nat.le_refl _, rfl, ⟨_, hins, rfl, rfl⟩, ?_⟩
  rw [hfloor]
  rfl

/-- Witness for C12: the full array `a`, `b` of capacity 2 and growth 1/2
receives `c` at position 1; nothing rounds, and the capacity becomes
`2 + trunc(0.5 * 2) = 3`. -/
theorem VSArray_growth_rule_witness :
    VSArray.demoFull.SlotInv ∧ 1 ≤ VSArray.demoFull._size ∧
    VSArray.demoFull._size = VSArray.demoFull._capacity ∧
    (∃ t, VSArray.demoFull.Resize = .ok t ∧ VSArray.demoFull._capacity < t._capacity) ∧
    ∃ s1, VSArray.demoFull.Insert (some "c") 1 = .ok (true, s1) ∧
      s1._capacity = (⌊VSArray.grownValue VSArray.demoFull._delta
        VSArray.demoFull._capacity⌋).toNat ∧
      s1._capacity = VSArray.demoFull._capacity +
        (⌊VSArray.demoFull._delta * (VSArray.demoFull._capacity : ℚ)⌋).toNat ∧
      s1._capacity = 3 ∧
      s1._size = VSArray.demoFull._size + 1 ∧
      s1.Get 1 = .ok (some "c") ∧
      (∀ i, i < 1 → s1.Get i = VSArray.demoFull.Get i) ∧
      (∀ i, 1 ≤ i → i < VSArray.demoFull._size → s1.Get (i + 1) = VSArray.demoFull.Get i) := by
  have hres : ∃ t, VSArray.demoFull.Resize = .ok t ∧ VSArray.demoFull._capacity < t._capacity :=
    ⟨_, VSArray.demoFull_Resize, by decide⟩
  have e1 : roundDouble (VSArray.demoFull._capacity : ℚ) = (VSArray.demoFull._capacity : ℚ) :=
    roundDouble_of_repr _ 2 0 (by simp [VSArray.demoFull]) (by norm_num) (by norm_num)
  have e2 : roundDouble (VSArray.demoFull._delta * (VSArray.demoFull._capacity : ℚ)) =
      VSArray.demoFull._delta * (VSArray.demoFull._capacity : ℚ) :=
    roundDouble_of_repr _ 1 0 (by simp [VSArray.demoFull]) (by norm_num) (by norm_num)
  have e3 : roundDouble ((VSArray.demoFull._capacity : ℚ) +
      VSArray.demoFull._delta * (VSArray.demoFull._capacity : ℚ)) =
      (VSArray.demoFull._capacity : ℚ) +
        VSArray.demoFull._delta * (VSArray.demoFull._capacity : ℚ) :=
    roundDouble_of_repr _ 3 0 (by simp [VSArray.demoFull]; norm_num) (by norm_num)
      (by norm_num)
  obtain ⟨s1, h1, h2, h3, h4, h5, h6, h7⟩ :=
    (VSArray_growth_rule VSArray.demoFull "c" 1 VSArray.demoFull_inv (by decide) rfl hres).1
  refine ⟨VSArray.demoFull_inv, by decide, rfl, hres, s1, h1, h2, h3 e1 e2 e3, ?_, h4, h5, h6,
    h7⟩
  rw [h2]
  have hv : VSArray.grownValue VSArray.demoFull._delta VSArray.demoFull._capacity = 3 :=
    VSArray.grownValue_half_two
  rw [hv]
  norm_num
  rfl

section ClearLemmas
variable {α : Type}

namespace DoubleLinkedList

theorem clearLoop_spec :
    ∀ (cs : List (Nat × Option α)) (heap : List (Option (Node α))) (p : Option Nat)
      (fuel : Nat),
      Seg heap p cs none → (cs.map Prod.fst).Nodup → cs.length ≤ fuel →
      ∃ heap1, clearLoop fuel heap p = .ok heap1 := by
  intro cs
  induction cs with
  | nil =>
    intro heap p fuel hseg _ _
    have hp : p = none := hseg
    subst hp
    refine ⟨heap, ?_⟩
    cases fuel <;> rfl
  | cons c cs ih =>
    intro heap p fuel hseg hnd hfuel
    obtain ⟨hp, nd, hnode, -, hrest⟩ := hseg
    subst hp
    obtain ⟨f, rfl⟩ : ∃ f, fuel = f + 1 := ⟨fuel - 1, by simp at hfuel; omega⟩
    have hnd1 := List.nodup_cons.1 (by simpa using hnd : (c.1 :: cs.map Prod.fst).Nodup)
    have hseg1 : Seg (heap.set c.1 none) nd.next cs none := by
      refine Seg_same cs _ _ (fun c1 hc1 => ?_) hrest
      have hne : c.1 ≠ c1.1 := fun heq =>
        hnd1.1 (by rw [heq]; exact List.mem_map_of_mem _ hc1)
      rw [List.getElem?_set_ne hne]
    obtain ⟨heap1, h1⟩ := ih (heap.set c.1 none) nd.next f hseg1 hnd1.2
      (by simp at hfuel; omega)
    refine ⟨heap1, ?_⟩
    simp only [clearLoop, readNode_of_getElem? hnode, deleteNode_of_getElem? hnode, okBind]
    exact h1

theorem Clear_Rep {l : DoubleLinkedList α} {cs : List (Nat × Option α)} (h : l.Rep cs) :
    ∃ l1, l.Clear = .ok l1 ∧ l1._size = 0 ∧ l1._head = none ∧ l1._tail = none ∧
      l1.Rep [] ∧ l1.Clear = .ok l1 := by
  obtain ⟨heap1, h1⟩ := clearLoop_spec cs l.heap l._head (l.heap.length + 1) h.chain h.nodup
    (by have := h.length_le; omega)
  refine ⟨{ heap := heap1, _head := none, _tail := none, _size := 0 }, ?_, rfl, rfl, rfl,
    ⟨rfl, List.nodup_nil, rfl⟩, rfl⟩
  simp only [Clear, h1, okBind]

theorem ReachableC.repC {l : DoubleLinkedList α} (h : l.ReachableC) : ∃ cs, l.Rep cs := by
  induction h with
  | empty => exact ⟨[], Rep_mk0⟩
  | @insert l l1 e p b _ hI ih =>
    obtain ⟨cs, hcs⟩ := ih
    by_cases hp : p > l._size
    · rw [Insert_reject l e p hp] at hI
      cases hI
      exact ⟨cs, hcs⟩
    · obtain ⟨l2, h2, -, hrep⟩ := Insert_Rep_of_le e p hcs (by omega)
      rw [h2] at hI
      cases hI
      exact ⟨_, hrep⟩
  | @remove l l1 p r _ hR ih =>
    obtain ⟨cs, hcs⟩ := ih
    by_cases hp : p ≥ l._size
    · rw [Remove_reject l p hp] at hR
      cases hR
      exact ⟨cs, hcs⟩
    · obtain ⟨l2, h2, -, hrep⟩ := Remove_Rep_of_lt p hcs (by omega)
      rw [h2] at hR
      cases hR
      exact ⟨_, hrep⟩
  | @clear l l1 _ hC ih =>
    obtain ⟨cs, hcs⟩ := ih
    obtain ⟨l2, h2, -, -, -, hrep, -⟩ := Clear_Rep hcs
    rw [h2] at hC
    cases hC
    exact ⟨[], hrep⟩

end DoubleLinkedList

theorem VSArray.Clear_of_size_zero (s : VSArray α) (h : s._size = 0) : s.Clear = .ok s := by
  cases s with
  | mk d n c delta =>
    have hn : n = 0 := h
    subst hn
    rfl

end ClearLemmas

/-- C16. `Clear` empties the container and is idempotent: on an array satisfying
the slot invariant `Clear` returns with size 0, every slot `nullptr` and the
capacity unchanged; on a list reached by `Insert`/`Remove`/`Clear` calls it
returns with size 0 and head and tail `nullptr`; and in both containers a second
`Clear` returns the very same state. -/
theorem Clear_idempotent {α : Type} (s : VSArray α) (l : DoubleLinkedList α)
    (hinv : s.SlotInv) (hreach : l.ReachableC) :
    (∃ s1, s.Clear = .ok s1 ∧ s1._size = 0 ∧
      s1._data.length = s._capacity ∧ (∀ i, i < s._capacity → s1._data[i]? = some none) ∧
      s1._capacity = s._capacity ∧ s1.Clear = .ok s1) ∧
    (∃ l1, l.Clear = .ok l1 ∧ l1._size = 0 ∧ l1._head = none ∧ l1._tail = none ∧
      l1.Clear = .ok l1) := by
  constructor
  · obtain ⟨s1, h1, hinv1, h2, h3, -, h5⟩ := VSArray.Clear_spec s hinv
    refine ⟨s1, h1, h2, ?_, fun i hi => ?_, h3, VSArray.Clear_of_size_zero s1 h2⟩
    · rw [h5]
      simp
    · rw [h5, List.getElem?_replicate, if_pos hi]
  · obtain ⟨cs, hcs⟩ := hreach.repC
    obtain ⟨l1, h1, h2, h3, h4, -, h6⟩ := DoubleLinkedList.Clear_Rep hcs
    exact ⟨l1, h1, h2, h3, h4, h6⟩

/-- Witness for C16: the array `a`, `b`, `c` and the list `y`, `x`. -/
theorem Clear_idempotent_witness :
    VSArray.demoABC.SlotInv ∧ DoubleLinkedList.demoYX.ReachableC ∧
    (∃ s1, VSArray.demoABC.Clear = .ok s1 ∧ s1._size = 0 ∧
      s1._data.length = VSArray.demoABC._capacity ∧
      (∀ i, i < VSArray.demoABC._capacity → s1._data[i]? = some none) ∧
      s1._capacity = VSArray.demoABC._capacity ∧ s1.Clear = .ok s1) ∧
    (∃ l1, DoubleLinkedList.demoYX.Clear = .ok l1 ∧ l1._size = 0 ∧ l1._head = none ∧
      l1._tail = none ∧ l1.Clear = .ok l1) := by
  have hr : DoubleLinkedList.demoYX.ReachableC :=
    DoubleLinkedList.ReachableC.insert
      (DoubleLinkedList.ReachableC.insert DoubleLinkedList.ReachableC.empty
        (rfl : DoubleLinkedList.mk0.Insert (some "x") 0 = .ok (true, DoubleLinkedList.demoX)))
      (rfl : DoubleLinkedList.demoX.Insert (some "y") 0 = .ok (true, DoubleLinkedList.demoYX))
  exact ⟨VSArray.demoABC_inv, hr,
    Clear_idempotent VSArray.demoABC DoubleLinkedList.demoYX VSArray.demoABC_inv hr⟩

section OwnedLemmas
variable {β : Type}

theorem lt_of_obj {objs : List (Option β)} {a : Nat} {v : β}
    (h : objs[a]? = some (some v)) : a < objs.length := by
  by_contra hge
  rw [List.getElem?_eq_none (by omega)] at h
  exact absurd h (by simp)

namespace VSArray

theorem InsertOwned_spec (junk1 junk2 : Nat → Option Nat) (objs : List (Option β))
    (s : VSArray Nat) (e : Option Nat) (p : Nat) (hinv : s.SlotInv)
    (hroom : p > s._size ∨ s._size < s._capacity ∨
      ∃ c, grownCapacity s._delta s._capacity = .ok c ∧ s._capacity < c) :
    ∃ b s1, s.InsertOwned junk1 junk2 objs e p = .ok (b, objs, s1) := by
  by_cases hp : p > s._size
  · exact ⟨false, s, by simp only [InsertOwned, if_pos hp]⟩
  · have hroom1 : s._size < s._capacity ∨
        ∃ c, grownCapacity s._delta s._capacity = .ok c ∧ s._capacity < c := by
      rcases hroom with h | h
      · exact absurd h hp
      · exact h
    obtain ⟨t, ht, hts, htc, htl, -, -, -, hte, -, -⟩ := grow_step_spec s hinv hroom1
    obtain ⟨d, hd, hdl, -⟩ := shiftUp_spec p t._size t._data (by omega)
    have hslot : t._data[t._size]? = some none := hte t._size (by omega) htc
    have hr := readSlot_of_getElem? hslot
    have hw := writeSlot_of_lt e (show p < d.length by omega)
    refine ⟨true, { t with _data := d.set p e, _size := t._size + 1 }, ?_⟩
    unfold InsertOwned
    rw [if_neg hp, ResizeFresh_eq, ht]
    simp only [hr, hd, hw, okBind, deleteObj]

theorem RemoveOwned_spec (objs : List (Option β)) (s : VSArray Nat) (p : Nat)
    (hinv : s.SlotInv) : ∃ r s1, s.RemoveOwned objs p = .ok (r, objs, s1) := by
  by_cases hp : p ≥ s._size
  · exact ⟨none, s, by simp only [RemoveOwned, Remove, if_pos hp, okBind]⟩
  · obtain ⟨x, s1, -, h1, -⟩ := Remove_spec s p hinv (by omega)
    exact ⟨some x, s1, by simp only [RemoveOwned, h1, okBind]⟩

end VSArray

theorem clearOwnedSlots_spec (base : Nat) :
    ∀ (n : Nat) (objs : List (Option β)) (d : List (Option Nat)) (i : Nat),
      i + n ≤ d.length →
      (∀ j, i ≤ j → j < i + n → d[j]? = some (some (base + j))) →
      (∀ j, i ≤ j → j < i + n → ∃ v, objs[base + j]? = some (some v)) →
      ∃ objs1 d1, clearOwnedSlots objs d i n = .ok (objs1, d1) ∧
        ∀ a, a < base → objs1[a]? = objs[a]? := by
  intro n
  induction n with
  | zero =>
    intro objs d i _ _ _
    exact ⟨objs, d, rfl, fun _ _ => rfl⟩
  | succ n ih =>
    intro objs d i hlen hd hlive
    have hr := readSlot_of_getElem? (hd i (Nat.le_refl _) (by omega))
    obtain ⟨v, hv⟩ := hlive i (Nat.le_refl _) (by omega)
    have hdel : deleteObj objs (some (base + i)) = .ok (objs.set (base + i) none) := by
      simp [deleteObj, hv]
    have hw := writeSlot_of_lt (none : Option Nat) (show i < d.length by omega)
    obtain ⟨objs1, d1, h1, h2⟩ := ih (objs.set (base + i) none) (d.set i none) (i + 1)
      (by simp; omega)
      (fun j hj1 hj2 => by
        rw [List.getElem?_set_ne (by omega)]
        exact hd j (by omega) (by omega))
      (fun j hj1 hj2 => by
        rw [List.getElem?_set_ne (by omega)]
        exact hlive j (by omega) (by omega))
    refine ⟨objs1, d1, ?_, fun a ha => ?_⟩
    · simp only [clearOwnedSlots, hr, hdel, hw, okBind]
      exact h1
    · rw [h2 a ha, List.getElem?_set_ne (by omega)]

theorem cloneSlots_spec [Object β] (objs : List (Option β)) (list : VSArray Nat)
    (hinv : list.SlotInv) (hlive : list.Live objs) :
    ∀ (n : Nat) (O : List (Option β)) (d : List (Option Nat)) (i : Nat),
      i + n = list._size → d.length = list._capacity →
      (∀ a, a < objs.length → O[a]? = objs[a]?) → O.length = objs.length + i →
      ∃ O1 d1, cloneSlots list O d i n = .ok (O1, d1) ∧ d1.length = d.length ∧
        O1.length = objs.length + list._size ∧
        (∀ a, a < O.length → O1[a]? = O[a]?) ∧
        (∀ j, d1[j]? = if i ≤ j ∧ j < i + n then some (some (objs.length + j)) else d[j]?) ∧
        (∀ j, i ≤ j → j < i + n → ∃ a v, list._data[j]? = some (some a) ∧
          objs[a]? = some (some v) ∧
          O1[objs.length + j]? = some (some (Object.Clone v))) := by
  intro n
  induction n with
  | zero =>
    intro O d i hi _ _ hO
    refine ⟨O, d, rfl, rfl, by omega, fun _ _ => rfl, fun j => ?_, fun j h1 h2 => by omega⟩
    rw [if_neg (by omega)]
  | succ n ih =>
    intro O d i hi hd hagree hO
    have hs := hinv.size_le
    obtain ⟨a, v, ha, hv⟩ := hlive i (by omega)
    have halt := lt_of_obj hv
    have hget : list.Get i = .ok (some a) := by
      simp only [VSArray.Get, if_neg (show ¬ i ≥ list._size by omega), readSlot_of_getElem? ha]
    have hOa : O[a]? = some (some v) := by rw [hagree a halt]; exact hv
    have hclone : cloneObj O (some a) =
        .ok (some O.length, O ++ [some (Object.Clone v)]) := by
      simp [cloneObj, hOa]
    have hw := writeSlot_of_lt (some O.length) (show i < d.length by omega)
    obtain ⟨O1, d1, h1, h2, h3, h4, h5, h6⟩ :=
      ih (O ++ [some (Object.Clone v)]) (d.set i (some O.length)) (i + 1) (by omega)
        (by simp; omega)
        (fun b hb => by rw [List.getElem?_append_left (by omega)]; exact hagree b hb)
        (by simp; omega)
    refine ⟨O1, d1, ?_, by simpa using h2, h3, fun b hb => ?_, fun j => ?_,
      fun j hj1 hj2 => ?_⟩
    · simp only [cloneSlots, hget, hclone, hw, okBind]
      exact h1
    · rw [h4 b (by simp; omega), List.getElem?_append_left hb]
    · rw [h5 j]
      by_cases hj : j = i
      · subst hj
        rw [if_neg (by omega), if_pos (by omega), List.getElem?_set_self (by omega), hO]
      · by_cases c : i + 1 ≤ j ∧ j < i + 1 + n
        · rw [if_pos c, if_pos (by omega)]
        · rw [if_neg c, if_neg (by omega), List.getElem?_set_ne (by omega)]
    · by_cases hj : j = i
      · subst hj
        refine ⟨a, v, ha, hv, ?_⟩
        rw [h4 (objs.length + j) (by simp; omega), ← hO,
          List.getElem?_append_right (Nat.le_refl _)]
        simp
      · exact h6 j (by omega) (by omega)

end OwnedLemmas

/-- The copy constructor deep-copies a source that satisfies the slot invariant
and whose elements are live objects, whatever the new block held: the copy has
the source's capacity, growth factor and size; slot `i` below the size holds a
new object (an address the store did not have) whose value is the clone of the
source's element `i`; the second loop leaves every slot from the size up to the
capacity `nullptr`; the construction changes no object that existed before; and
a following `Remove`, `Clear`, or `Insert` (rejected, into a free slot, or with a
`Resize` that strictly increases the capacity) on the copy returns and changes
no object that existed before the copy was made. -/
theorem VSArray.copyConstruct_spec {β : Type} [Object β] (junk : Nat → Option Nat)
    (objs : List (Option β)) (list : VSArray Nat) (hinv : list.SlotInv)
    (hlive : list.Live objs) :
    ∃ objs1 cpy, VSArray.copyConstruct junk objs list = .ok (objs1, cpy) ∧
      cpy._capacity = list._capacity ∧ cpy._delta = list._delta ∧
      cpy._size = list._size ∧
      (∀ i, i < list._size → ∃ a v b, list.Get i = .ok (some a) ∧
        objs[a]? = some (some v) ∧ cpy.Get i = .ok (some b) ∧ objs.length ≤ b ∧
        objs1[b]? = some (some (Object.Clone v))) ∧
      (∀ i, list._size ≤ i → i < list._capacity → cpy._data[i]? = some none) ∧
      (∀ a, a < objs.length → objs1[a]? = objs[a]?) ∧
      (∀ p, ∃ r objs2 c2, cpy.RemoveOwned objs1 p = .ok (r, objs2, c2) ∧
        ∀ a, a < objs.length → objs2[a]? = objs[a]?) ∧
      (∃ objs2 c2, cpy.ClearOwned objs1 = .ok (objs2, c2) ∧
        ∀ a, a < objs.length → objs2[a]? = objs[a]?) ∧
      (∀ junk1 junk2 e p, (p > list._size ∨ list._size < list._capacity ∨
          ∃ c, VSArray.grownCapacity list._delta list._capacity = .ok c ∧
            list._capacity < c) →
        ∃ b objs2 c2, cpy.InsertOwned junk1 junk2 objs1 e p = .ok (b, objs2, c2) ∧
          ∀ a, a < objs.length → objs2[a]? = objs[a]?) := by
  have hs := hinv.size_le
  obtain ⟨O1, d1, h1, h2, h3, h4, h5, h6⟩ :=
    cloneSlots_spec objs list hinv hlive list._size objs (freshBlock junk list._capacity) 0
      (by omega) (VSArray.length_freshBlock junk _) (fun _ _ => rfl) (by omega)
  have hd1len : d1.length = list._capacity := by
    rw [h2]
    exact VSArray.length_freshBlock junk _
  obtain ⟨d2, g1, g2, g3⟩ :=
    nullSlots_spec (list._capacity - list._size) d1 list._size (by omega)
  have hslot : ∀ j, j < list._size → d2[j]? = some (some (objs.length + j)) := by
    intro j hj
    rw [g3 j, if_neg (by omega), h5 j, if_pos (by omega)]
  have hempty : ∀ j, list._size ≤ j → j < list._capacity → d2[j]? = some none := by
    intro j hj1 hj2
    rw [g3 j, if_pos (by omega)]
  have hcinv : (VSArray.mk d2 list._size list._capacity list._delta).SlotInv :=
    ⟨by show d2.length = list._capacity; omega, hs,
      fun i hi => ⟨objs.length + i, hslot i hi⟩, hempty⟩
  refine ⟨O1, VSArray.mk d2 list._size list._capacity list._delta, ?_, rfl, rfl, rfl, fun i hi => ?_, hempty, h4, fun p => ?_, ?_,
    fun junk1 junk2 e p hroom => ?_⟩
  · simp only [VSArray.copyConstruct, h1, g1, okBind]
  · obtain ⟨a, v, ha, hv, hc⟩ := h6 i (Nat.zero_le _) (by omega)
    refine ⟨a, v, objs.length + i, ?_, hv, ?_, by omega, hc⟩
    · simp only [VSArray.Get, if_neg (show ¬ i ≥ list._size by omega),
        readSlot_of_getElem? ha]
    · simp only [VSArray.Get, if_neg (show ¬ i ≥ list._size by omega),
        readSlot_of_getElem? (hslot i hi)]
  · obtain ⟨r, c2, hr⟩ := VSArray.RemoveOwned_spec O1 _ p hcinv
    exact ⟨r, O1, c2, hr, h4⟩
  · obtain ⟨O2, d3, k1, k2⟩ := clearOwnedSlots_spec objs.length list._size O1 d2 0
      (by omega) (fun j _ hj => hslot j (by omega))
      (fun j _ hj => by
        obtain ⟨a, v, -, -, hc⟩ := h6 j (Nat.zero_le _) (by omega)
        exact ⟨_, hc⟩)
    refine ⟨O2, VSArray.mk d3 0 list._capacity list._delta, ?_, fun a ha => ?_⟩
    · simp only [VSArray.ClearOwned, k1, okBind]
    · rw [k2 a ha, h4 a ha]
  · obtain ⟨b, c2, hb⟩ := VSArray.InsertOwned_spec junk1 junk2 O1 _ e p hcinv hroom
    exact ⟨b, O1, c2, hb, h4⟩

/-- C14. The source is a full array of capacity 1 and growth factor 0.5 holding
the object `a` at address 0 and satisfying the slot invariant.  Its copy (the new
block held the stray pointer 7 before the loops ran) has the same capacity,
growth factor and size and holds the clone at address 2; it is full as well and
cannot grow, because `1 + 0.5 * 1` truncates to 1.  `Insert` of the object at
address 1 at the valid position 1 of the copy then accesses `_data[1]` outside
the copy's one-slot block: the call has no defined result, so nothing is
guaranteed about the source afterwards. -/
theorem VSArray_copy_insert_stall :
    VSArray.demoSourceFull.SlotInv ∧
    VSArray.demoSourceFull.Live [some "a", some "b"] ∧
    ∃ cpy : VSArray Nat,
      VSArray.copyConstruct (fun _ => some 7) [some "a", some "b"] VSArray.demoSourceFull =
        .ok ([some "a", some "b", some "a"], cpy) ∧
      cpy._capacity = 1 ∧ cpy._size = 1 ∧ cpy._delta = 1 / 2 ∧
      cpy.Get 0 = .ok (some 2) ∧ 1 ≤ cpy._size ∧
      (∃ c2, cpy.Resize = .ok c2 ∧ c2._capacity = 1) ∧
      (∀ junk1 junk2 : Nat → Option Nat,
        cpy.InsertOwned junk1 junk2 [some "a", some "b", some "a"] (some 1) 1 =
          .error Fault.outOfBounds) := by
  have hres : ({ _data := [some 2], _size := 1, _capacity := 1, _delta := 1 / 2 } :
      VSArray Nat).Resize =
      .ok { _data := [some 2], _size := 1, _capacity := 1, _delta := 1 / 2 } := by
    simp only [VSArray.Resize, VSArray.grownCapacity_half_one, okBind]
    rfl
  refine ⟨⟨rfl, Nat.le_refl _, fun i hi => ?_, fun i h1 h2 => ?_⟩, fun i hi => ?_,
    { _data := [some 2], _size := 1, _capacity := 1, _delta := 1 / 2 }, rfl, rfl, rfl, rfl,
    rfl, Nat.le_refl _, ⟨_, hres, rfl⟩, fun junk1 junk2 => ?_⟩
  · have hi1 : i < 1 := hi
    interval_cases i
    exact ⟨0, rfl⟩
  · have h3 : 1 ≤ i := h1
    have h4 : i < 1 := h2
    omega
  · have hi1 : i < 1 := hi
    interval_cases i
    exact ⟨0, "a", rfl, rfl⟩
  · unfold VSArray.InsertOwned
    rw [if_neg (by decide), if_pos rfl, VSArray.ResizeFresh_eq, hres]
    rfl
/-- The state built with capacity 1 and growth factor 1 by `Insert(a, 0)`,
`Insert(b, 1)`, `Remove(0)`, `Clear()`, `Insert(c, 0)` is reachable, whatever the
new blocks held: the second `Insert` goes through `Resize`. -/
theorem VSArray.demo_reachable {α : Type} (junk : Nat → Option α) (a b c : α) :
    (VSArray.mk [some c, none] 1 2 1 : VSArray α).Reachable := by
  have h0 : VSArray.construct junk 1 1 = .ok (VSArray.mk [none] 0 1 1 : VSArray α) := rfl
  have h1 : (VSArray.mk [none] 0 1 1 : VSArray α).InsertFresh junk junk (some a) 0 =
      .ok (true, VSArray.mk [some a] 1 1 1) := rfl
  have hres : (VSArray.mk [some a] 1 1 1 : VSArray α).ResizeFresh junk junk =
      .ok (VSArray.mk [some a, none] 1 2 1) := by
    simp only [VSArray.ResizeFresh, VSArray.grownCapacity_factor_one 1 (by norm_num), okBind]
    rfl
  have h2 : (VSArray.mk [some a] 1 1 1 : VSArray α).InsertFresh junk junk (some b) 1 =
      .ok (true, VSArray.mk [some a, some b] 2 2 1) := by
    unfold VSArray.InsertFresh
    rw [if_neg (Nat.lt_irrefl 1), if_pos rfl, hres]
    rfl
  have h3 : (VSArray.mk [some a, some b] 2 2 1 : VSArray α).Remove 0 =
      .ok (some a, VSArray.mk [some b, none] 1 2 1) := rfl
  have h4 : (VSArray.mk [some b, none] 1 2 1 : VSArray α).Clear =
      .ok (VSArray.mk [none, none] 0 2 1) := rfl
  have h5 : (VSArray.mk [none, none] 0 2 1 : VSArray α).InsertFresh junk junk (some c) 0 =
      .ok (true, VSArray.mk [some c, none] 1 2 1) := rfl
  exact VSArray.Reachable.insert junk junk
    (VSArray.Reachable.clear
      (VSArray.Reachable.remove
        (VSArray.Reachable.insert junk junk
          (VSArray.Reachable.insert junk junk (VSArray.Reachable.construct junk 1 1 h0) h1)
          h2)
        h3)
      h4)
    h5

/-- C19 (as amended). Array slot invariant: every array state reached from the
constructor by `Insert` calls that pass an element, `Remove` calls and `Clear`
calls that return satisfies the slot invariant, whatever the newly allocated
blocks held (a full array whose `Resize` does not increase the capacity admits
no returning `Insert`, so no such step occurs).  Consequently, when `Insert` has
a free slot or a growing `Resize`, the slot at index `_size` that it passes to
`delete` is `nullptr`, and over the object store `Insert` returns with every
object unchanged: it destroys no element. -/
theorem VSArray_slot_invariant {α β : Type} (s : VSArray α) (t : VSArray Nat)
    (hs : s.Reachable) (ht : t.Reachable) :
    s.SlotInv ∧
    ((s._size < s._capacity ∨
        ∃ c, VSArray.grownCapacity s._delta s._capacity = .ok c ∧ s._capacity < c) →
      ∀ junk1 junk2 : Nat → Option α,
        ∃ s0, (if s._size = s._capacity then s.ResizeFresh junk1 junk2 else .ok s) = .ok s0 ∧
          s0._size = s._size ∧ s0._data[s0._size]? = some none) ∧
    (∀ (junk1 junk2 : Nat → Option Nat) (objs : List (Option β)) (e : Option Nat) (p : Nat),
      (p > t._size ∨ t._size < t._capacity ∨
        ∃ c, VSArray.grownCapacity t._delta t._capacity = .ok c ∧ t._capacity < c) →
      ∃ b t1, t.InsertOwned junk1 junk2 objs e p = .ok (b, objs, t1)) := by
  refine ⟨hs.inv, fun hroom junk1 junk2 => ?_, fun junk1 junk2 objs e p hroom => ?_⟩
  · obtain ⟨s0, h0, h1, h2, -, -, -, -, h8, -, -⟩ := VSArray.grow_step_spec s hs.inv hroom
    refine ⟨s0, ?_, h1, h8 s0._size (by omega) h2⟩
    rw [VSArray.ResizeFresh_eq]
    exact h0
  · exact VSArray.InsertOwned_spec junk1 junk2 objs t e p ht.inv hroom

/-- Counterexample for C19. `Insert(nullptr, 0)` on a newly constructed array of
capacity 1 returns `true`: the array then has size 1 and its slot 0, which lies in
`[0, size)`, holds `nullptr`, not an element. -/
theorem VSArray_slot_invariant_counterexample :
    ∃ s0 s : VSArray String,
      VSArray.construct (fun _ => some "junk") 1 (1 / 2) = .ok s0 ∧
      s0.InsertFresh (fun _ => some "junk") (fun _ => some "junk") none 0 = .ok (true, s) ∧
      s._size = 1 ∧ s._capacity = 1 ∧ s._data[0]? = some none ∧ s.Get 0 = .ok none ∧
      ¬ s.SlotInv := by
  refine ⟨VSArray.mk [none] 0 1 (1 / 2), VSArray.mk [none] 1 1 (1 / 2), rfl, rfl, rfl, rfl, rfl,
    rfl, fun h => ?_⟩
  obtain ⟨e, he⟩ := h.live 0 (by decide)
  cases he

/-- Witness for C19: the array built with capacity 1 and growth factor 1 by
`Insert(a, 0)`, `Insert(b, 1)` (through `Resize`), `Remove(0)`, `Clear()` and
`Insert(c, 0)`, the new blocks holding stray pointers; and the same array over
addresses. -/
theorem VSArray_slot_invariant_witness :
    VSArray.demoC.Reachable ∧ VSArray.demoCAddr.Reachable ∧ VSArray.demoC.SlotInv ∧
    ((VSArray.demoC._size < VSArray.demoC._capacity ∨
        ∃ c, VSArray.grownCapacity VSArray.demoC._delta VSArray.demoC._capacity = .ok c ∧
          VSArray.demoC._capacity < c) →
      ∀ junk1 junk2 : Nat → Option String,
        ∃ s0, (if VSArray.demoC._size = VSArray.demoC._capacity
            then VSArray.demoC.ResizeFresh junk1 junk2 else .ok VSArray.demoC) = .ok s0 ∧
          s0._size = VSArray.demoC._size ∧ s0._data[s0._size]? = some none) ∧
    (∀ (junk1 junk2 : Nat → Option Nat) (objs : List (Option String)) (e : Option Nat)
      (p : Nat),
      (p > VSArray.demoCAddr._size ∨ VSArray.demoCAddr._size < VSArray.demoCAddr._capacity ∨
        ∃ c, VSArray.grownCapacity VSArray.demoCAddr._delta VSArray.demoCAddr._capacity =
          .ok c ∧ VSArray.demoCAddr._capacity < c) →
      ∃ b t1, VSArray.demoCAddr.InsertOwned junk1 junk2 objs e p = .ok (b, objs, t1)) :=
  ⟨VSArray.demo_reachable (fun _ => some "junk") "a" "b" "c",
    VSArray.demo_reachable (fun i => some (i + 7)) 0 1 2,
    @VSArray_slot_invariant String String VSArray.demoC VSArray.demoCAddr
      (VSArray.demo_reachable (fun _ => some "junk") "a" "b" "c")
      (VSArray.demo_reachable (fun i => some (i + 7)) 0 1 2)⟩

section Interchange
variable {α : Type}

namespace DoubleLinkedList

theorem list_Insert_spec (l : DoubleLinkedList α) (e : Option α) (p : Nat)
    {cs : List (Nat × Option α)} (hcs : l.Rep cs) (hp : p ≤ l._size) :
    ∃ l1 cs1, l.Insert e p = .ok (true, l1) ∧ l1.Rep cs1 ∧ l1._size = l._size + 1 ∧
      l1.Get p = .ok e ∧
      (∀ i, i < p → l1.Get i = l.Get i) ∧
      (∀ i, p ≤ i → i < l._size → l1.Get (i + 1) = l.Get i) := by
  obtain ⟨l1, h1, h2, h3⟩ := Insert_Rep_of_le e p hcs hp
  have hpc : p ≤ cs.length := by rw [← hcs.size_eq]; exact hp
  have hlen : (cs.take p).length = p := by
    rw [List.length_take]
    omega
  refine ⟨l1, _, h1, h3, h2, ?_, ?_, ?_⟩
  · have := Get_split h3
    rwa [hlen] at this
  · intro i hi
    rw [Get_of_Rep h3, Get_of_Rep hcs,
      List.getElem?_append_left (by omega), List.getElem?_take_of_lt hi]
  · intro i hpi hi
    rw [Get_of_Rep h3, Get_of_Rep hcs,
      List.getElem?_append_right (by omega), hlen]
    have : i + 1 - p = (i - p) + 1 := by omega
    rw [this, List.getElem?_cons_succ, List.getElem?_drop]
    congr 3
    omega

theorem list_Remove_spec (l : DoubleLinkedList α) (p : Nat)
    {cs : List (Nat × Option α)} (hcs : l.Rep cs) (hp : p < l._size) :
    ∃ r l1 cs1, l.Get p = .ok r ∧ l.Remove p = .ok (r, l1) ∧ l1.Rep cs1 ∧
      l1._size = l._size - 1 ∧
      (∀ i, i < p → l1.Get i = l.Get i) ∧
      (∀ i, p ≤ i → i < l1._size → l1.Get i = l.Get (i + 1)) := by
  obtain ⟨l1, h1, h2, h3⟩ := Remove_Rep_of_lt p hcs hp
  have hpc : p < cs.length := by rw [← hcs.size_eq]; exact hp
  have hlen : (cs.take p).length = p := by
    rw [List.length_take]
    omega
  refine ⟨_, l1, _, Get_of_Rep hcs p, h1, h3, h2, ?_, ?_⟩
  · intro i hi
    rw [Get_of_Rep h3, Get_of_Rep hcs,
      List.getElem?_append_left (by omega), List.getElem?_take_of_lt hi]
  · intro i hpi _
    rw [Get_of_Rep h3, Get_of_Rep hcs,
      List.getElem?_append_right (by omega), hlen, List.getElem?_drop]
    congr 3
    omega

theorem list_Get_of_ge (l : DoubleLinkedList α) (i : Nat) (h : i ≥ l._size) : l.Get i = .ok none := by
  simp only [Get, if_pos h]

end DoubleLinkedList

theorem VSArray.Get_of_ge (s : VSArray α) (i : Nat) (h : i ≥ s._size) : s.Get i = .ok none := by
  simp only [VSArray.Get, if_pos h]

theorem VSArray.Get_of_lt (s : VSArray α) (hinv : s.SlotInv) (i : Nat) (h : i < s._size) :
    ∃ x, s.Get i = .ok (some x) := by
  obtain ⟨x, hx⟩ := hinv.live i h
  exact ⟨x, by simp only [VSArray.Get, if_neg (show ¬ i ≥ s._size by omega),
    readSlot_of_getElem? hx]⟩

theorem Sim.call [Object α] {s : VSArray α} {l : DoubleLinkedList α} (h : Sim s l)
    (c : Call α)
    (hroom : s._size < s._capacity ∨
      ∃ c1, VSArray.grownCapacity s._delta s._capacity = .ok c1 ∧ s._capacity < c1) :
    ∃ r s1 l1, s.call c = .ok (r, s1) ∧ l.call c = .ok (r, l1) ∧ Sim s1 l1 ∧
      s._capacity ≤ s1._capacity ∧ s1._size ≤ s._size + 1 ∧ s1._delta = s._delta := by
  obtain ⟨cs, hcs⟩ := h.rep
  have hsz := h.size_eq
  cases c with
  | Insert x p =>
    by_cases hp : p > s._size
    · refine ⟨.flag false, s, l, ?_, ?_, h, Nat.le_refl _, by omega, rfl⟩
      · simp only [VSArray.call, VSArray.Insert, if_pos hp, okBind]
      · simp only [DoubleLinkedList.call,
          DoubleLinkedList.Insert_reject l (some x) p (by omega), okBind]
    · obtain ⟨s1, a1, a2, a3, a4, a5, -, -, a8, a9, a10⟩ :=
        VSArray.Insert_spec s x p h.inv (by omega) hroom
      obtain ⟨l1, cs1, b1, b2, b3, b4, b5, b6⟩ :=
        DoubleLinkedList.list_Insert_spec l (some x) p hcs (by omega)
      refine ⟨.flag true, s1, l1, ?_, ?_, ⟨a2, ⟨cs1, b2⟩, by omega, fun i => ?_⟩, a4,
        by omega, a5⟩
      · simp only [VSArray.call, a1, okBind]
      · simp only [DoubleLinkedList.call, b1, okBind]
      · rcases Nat.lt_trichotomy i p with hlt | heq | hgt
        · rw [a9 i hlt, b5 i hlt, h.get_eq i]
        · rw [heq, a8, b4]
        · by_cases hi : i ≤ s._size
          · obtain ⟨j, rfl⟩ : ∃ j, i = j + 1 := ⟨i - 1, by omega⟩
            rw [a10 j (by omega) (by omega), b6 j (by omega) (by omega), h.get_eq j]
          · rw [VSArray.Get_of_ge s1 i (by omega), DoubleLinkedList.list_Get_of_ge l1 i (by omega)]
  | Remove p =>
    by_cases hp : p ≥ s._size
    · refine ⟨.element none, s, l, ?_, ?_, h, Nat.le_refl _, by omega, rfl⟩
      · simp only [VSArray.call, VSArray.Remove, if_pos hp, okBind]
      · simp only [DoubleLinkedList.call,
          DoubleLinkedList.Remove_reject l p (by omega), okBind]
    · obtain ⟨x, s1, a1, a2, a3, a4, a5, a6, a7, a8⟩ :=
        VSArray.Remove_spec s p h.inv (by omega)
      obtain ⟨r, l1, cs1, b1, b2, b3, b4, b5, b6⟩ :=
        DoubleLinkedList.list_Remove_spec l p hcs (by omega)
      have hr : r = some x := by
        have := h.get_eq p
        rw [a1, b1] at this
        exact (Except.ok.inj this).symm
      subst hr
      refine ⟨.element (some x), s1, l1, ?_, ?_, ⟨a3, ⟨cs1, b3⟩, by omega, fun i => ?_⟩,
        by omega, by omega, a6⟩
      · simp only [VSArray.call, a2, okBind]
      · simp only [DoubleLinkedList.call, b2, okBind]
      · by_cases hi : i < p
        · rw [a7 i hi, b5 i hi, h.get_eq i]
        · by_cases hi1 : i < s1._size
          · rw [a8 i (by omega) hi1, b6 i (by omega) (by omega), h.get_eq (i + 1)]
          · rw [VSArray.Get_of_ge s1 i (by omega), DoubleLinkedList.list_Get_of_ge l1 i (by omega)]
  | Get p =>
    have hget : ∃ r, s.Get p = .ok r := by
      by_cases hp : p < s._size
      · obtain ⟨x, hx⟩ := VSArray.Get_of_lt s h.inv p hp
        exact ⟨_, hx⟩
      · exact ⟨none, VSArray.Get_of_ge s p (by omega)⟩
    obtain ⟨r, hr⟩ := hget
    refine ⟨.element r, s, l, ?_, ?_, h, Nat.le_refl _, by omega, rfl⟩
    · simp only [VSArray.call, hr, okBind]
    · simp only [DoubleLinkedList.call, ← h.get_eq p, hr, okBind]
  | IndexOf e =>
    have hlive : ∀ i, i < s._size → ∃ x, s.Get i = .ok (some x) :=
      fun i hi => VSArray.Get_of_lt s h.inv i hi
    have hlive1 : ∀ i, i < l._size → ∃ x, l.Get i = .ok (some x) := fun i hi => by
      rw [← h.get_eq i]
      exact hlive i (by omega)
    obtain ⟨r, a1, a2⟩ :=
      VSArray.indexLoop_array_spec s h.inv e s._size 0 (by omega) (fun j hj => by omega)
    obtain ⟨r1, b1, b2⟩ :=
      DoubleLinkedList.indexLoop_list_spec l e hlive1 cs [] l._head (l.heap.length + 1)
        (by simpa using hcs) hcs.chain (by have := hcs.length_le; omega)
        (fun j hj => by simp at hj)
    have hfun : l.Get = s.Get := funext (fun i => (h.get_eq i).symm)
    rw [← hsz, hfun] at b2
    have hrr : r1 = r := FirstIndex_unique s.Get s._size e r1 r b2 a2
    subst hrr
    refine ⟨.index (indexResult r1), s, l, ?_, ?_, h, Nat.le_refl _, by omega, rfl⟩
    · simp only [VSArray.call, VSArray.IndexOf, a1, okBind]
    · have b3 : l.IndexOf (some e) = .ok (indexResult r1) := by
        simpa [DoubleLinkedList.IndexOf] using b1
      simp only [DoubleLinkedList.call, b3, okBind]

theorem Sim.run [Object α] :
    ∀ (calls : List (Call α)) (s : VSArray α) (l : DoubleLinkedList α), Sim s l →
      (∀ c, s._capacity ≤ c → c ≤ s._size + calls.length →
        ∃ c1, VSArray.grownCapacity s._delta c = .ok c1 ∧ c < c1) →
      ∃ replies s1 l1, VSArray.run s calls = .ok (replies, s1) ∧
        DoubleLinkedList.run l calls = .ok (replies, l1) ∧ Sim s1 l1 := by
  intro calls
  induction calls with
  | nil =>
    intro s l h _
    exact ⟨[], s, l, rfl, rfl, h⟩
  | cons c calls ih =>
    intro s l h hgrow
    have hs := h.inv.size_le
    have hroom : s._size < s._capacity ∨
        ∃ c1, VSArray.grownCapacity s._delta s._capacity = .ok c1 ∧ s._capacity < c1 := by
      by_cases hfull : s._size < s._capacity
      · exact Or.inl hfull
      · exact Or.inr (hgrow s._capacity (Nat.le_refl _) (by simp; omega))
    obtain ⟨r, s1, l1, a1, a2, a3, a4, a5, a6⟩ := h.call c hroom
    obtain ⟨rs, s2, l2, b1, b2, b3⟩ := ih s1 l1 a3 (fun c1 hc1 hc2 => by
      rw [a6]
      exact hgrow c1 (by omega) (by simp; omega))
    refine ⟨r :: rs, s2, l2, ?_, ?_, b3⟩
    · simp only [VSArray.run, a1, b1, okBind]
    · simp only [DoubleLinkedList.run, a2, b2, okBind]

end Interchange

/-- C17. The two containers are interchangeable: start from an empty list and
an empty array whose `Resize` strictly increases every capacity the sequence can
fill (from the initial capacity up to the number of calls), and apply any finite
sequence of `Insert`, `Remove`, `Get` and `IndexOf` calls to both.  Both runs
return, with the same reply to every call, and end with the same size and the
same `Get` sequence. -/
theorem containers_interchangeable {α : Type} [Object α] (capacity : Nat) (delta : ℚ)
    (calls : List (Call α))
    (hgrow : ∀ c, capacity ≤ c → c ≤ calls.length →
      ∃ c1, VSArray.grownCapacity delta c = .ok c1 ∧ c < c1) :
    ∃ replies s l,
      VSArray.run (VSArray.mk0 capacity delta) calls = .ok (replies, s) ∧
      DoubleLinkedList.run DoubleLinkedList.mk0 calls = .ok (replies, l) ∧
      s._size = l._size ∧ (∀ i, s.Get i = l.Get i) ∧ s.toSeq = l.toSeq := by
  have hsim : Sim (VSArray.mk0 capacity delta : VSArray α) DoubleLinkedList.mk0 :=
    ⟨VSArray.SlotInv_mk0 capacity delta, ⟨[], DoubleLinkedList.Rep_mk0⟩, rfl, fun i => by
      rw [VSArray.Get_of_ge _ i (Nat.zero_le i), DoubleLinkedList.list_Get_of_ge _ i (Nat.zero_le i)]⟩
  obtain ⟨replies, s, l, h1, h2, h3⟩ := Sim.run calls _ _ hsim (fun c hc1 hc2 =>
    hgrow c hc1 (by simpa [VSArray.mk0] using hc2))
  refine ⟨replies, s, l, h1, h2, h3.size_eq, h3.get_eq, ?_⟩
  have hfun : s.Get = l.Get := funext h3.get_eq
  simp only [VSArray.toSeq, DoubleLinkedList.toSeq, h3.size_eq, hfun]

theorem VSArray.grows_of_factor_one (c : Nat) (hc1 : 1 ≤ c) (hc2 : c ≤ 6) :
    ∃ c1, VSArray.grownCapacity 1 c = .ok c1 ∧ c < c1 :=
  ⟨c + c, VSArray.grownCapacity_factor_one c (by omega), by omega⟩

/-- Witness for C17: an array of capacity 1 and growth factor 1 and the calls
`Insert(a, 0)`, `Insert(b, 0)`, `Get(1)`, `IndexOf(a)`, `Remove(0)`, `Remove(5)`. -/
theorem containers_interchangeable_witness :
    (∀ c, 1 ≤ c → c ≤ demoCalls.length →
      ∃ c1, VSArray.grownCapacity 1 c = .ok c1 ∧ c < c1) ∧
    ∃ replies s l,
      VSArray.run (VSArray.mk0 1 1) demoCalls = .ok (replies, s) ∧
      DoubleLinkedList.run DoubleLinkedList.mk0 demoCalls = .ok (replies, l) ∧
      s._size = l._size ∧ (∀ i, s.Get i = l.Get i) ∧ s.toSeq = l.toSeq :=
  ⟨fun c h1 h2 => VSArray.grows_of_factor_one c h1 h2,
    containers_interchangeable 1 1 demoCalls
      (fun c h1 h2 => VSArray.grows_of_factor_one c h1 h2)⟩
